import Mathlib

/-!
# Verification of the `rpt` path tracer against its specification

This file gives a shallow embedding, in Lean 4, of the parts of the `rpt`
renderer that the specification claims speak about, and proves or refutes
each claim.

Modelling conventions:

* Rust `f64` values are modelled by real numbers `ℝ` when transcendental
  functions (`sqrt`, `powf`, `exp`, `atan`, `acos`) occur, and by rationals
  `ℚ` (or a general `LinearOrderedField`) when only field operations occur,
  so that concrete runs can be decided by `decide` / `norm_num`.
* Where IEEE-754 special values (`±∞`, `NaN`) are semantically relevant —
  the bounding-box slab method divides by direction components that may be
  zero — we use an explicit extended type `FF α` with Rust's `f64` division,
  comparison, `min` and `max` semantics.
* Rust casts `as u8` / `as u32` / `as usize` on non-negative finite values
  truncate toward zero; they are modelled by `Nat.floor` (saturation is
  modelled where the claim depends on it).
* Mutation of `HitRecord` is modelled by explicit state passing: an
  `intersect` method becomes a function returning `Bool × HitRec`.
-/

/-- 3-component vector, modelling `glm::DVec3` over a chosen number type. -/
structure V3 (α : Type) where
  x : α
  y : α
  z : α
deriving DecidableEq, Repr

namespace V3

variable {α : Type} [LinearOrderedField α]

/-- Component access `v[axis]`, modelling `glm` indexing. -/
def nth {α : Type} (v : V3 α) : Fin 3 → α
  | 0 => v.x
  | 1 => v.y
  | 2 => v.z

/-- Replace one component, modelling `v[axis] = value`. -/
def setNth {α : Type} (v : V3 α) : Fin 3 → α → V3 α
  | 0, a => { v with x := a }
  | 1, a => { v with y := a }
  | 2, a => { v with z := a }

/-- Componentwise addition. -/
def add (a b : V3 α) : V3 α := ⟨a.x + b.x, a.y + b.y, a.z + b.z⟩

/-- Componentwise subtraction. -/
def sub (a b : V3 α) : V3 α := ⟨a.x - b.x, a.y - b.y, a.z - b.z⟩

/-- Negation. -/
def neg (a : V3 α) : V3 α := ⟨-a.x, -a.y, -a.z⟩

/-- Scalar multiplication. -/
def smul (k : α) (a : V3 α) : V3 α := ⟨k * a.x, k * a.y, k * a.z⟩

/-- Dot product. -/
def dot (a b : V3 α) : α := a.x * b.x + a.y * b.y + a.z * b.z

/-- Componentwise product, modelling `glm` `component_mul`. -/
def cmul (a b : V3 α) : V3 α := ⟨a.x * b.x, a.y * b.y, a.z * b.z⟩

/-- Squared Euclidean length, modelling `glm::length2` / `magnitude_squared`. -/
def length2 (a : V3 α) : α := a.x * a.x + a.y * a.y + a.z * a.z

instance : Add (V3 α) := ⟨add⟩
instance : Sub (V3 α) := ⟨sub⟩
instance : Neg (V3 α) := ⟨neg⟩

/-- The zero vector, `glm::zero()`. -/
def zero : V3 α := ⟨0, 0, 0⟩
end V3

/-- Euclidean length of a real vector, modelling `glm::length` (`f64::sqrt`). -/
noncomputable def V3.norm (v : V3 ℝ) : ℝ := Real.sqrt v.length2

/-- `glm` `normalize`: divide by the Euclidean length. -/
noncomputable def V3.normalize (v : V3 ℝ) : V3 ℝ := V3.smul v.norm⁻¹ v

/-! ## `src/color.rs` -/

/-- The gamma constant `SRGB_GAMMA` of `color.rs`. -/
def SRGB_GAMMA : ℝ := 2.2

/-- One 8-bit channel of a hex color: `(x >> s) & 0xff`. -/
def hexChannel (x s : ℕ) : ℕ := (x >>> s) &&& 0xff

/-- `hex_color` of `color.rs`: decode an sRGB hex value into linear RGB,
channel = `(byte / 255) ^ SRGB_GAMMA` (Rust `f64::powf`, real `rpow`). -/
noncomputable def hex_color (x : ℕ) : V3 ℝ :=
  ⟨((hexChannel x 16 : ℝ) / 255) ^ SRGB_GAMMA,
   ((hexChannel x 8 : ℝ) / 255) ^ SRGB_GAMMA,
   ((hexChannel x 0 : ℝ) / 255) ^ SRGB_GAMMA⟩

/-- Rust `as u8` on a non-negative finite double: truncate toward zero and
saturate at 255. -/
noncomputable def u8cast (r : ℝ) : ℕ := min (Nat.floor r) 255

/-- One channel of `color_bytes`: clamp to `[0,1]`, gamma-encode with
exponent `1 / SRGB_GAMMA`, scale by 255, cast to `u8`. -/
noncomputable def color_byte (c : ℝ) : ℕ :=
  u8cast ((min (max c 0) 1) ^ (1 / SRGB_GAMMA) * 255)

/-- `color_bytes` of `color.rs`: convert a color to a clamped byte triple. -/
noncomputable def color_bytes (c : V3 ℝ) : ℕ × ℕ × ℕ :=
  (color_byte c.x, color_byte c.y, color_byte c.z)

/-! ## IEEE-754 extended values

`FF α` models an `f64` as either `NaN`, `-∞`, an exact finite value of `α`,
or `+∞`.  The operations below follow Rust `f64` semantics for the special
values (signed zero is identified with zero; finite arithmetic is exact). -/

inductive FF (α : Type) where
  | nan : FF α
  | ninf : FF α
  | fin : α → FF α
  | pinf : FF α
deriving DecidableEq, Repr

namespace FF

variable {α : Type} [LinearOrderedField α]

/-- IEEE `<` (any comparison with `NaN` is false). -/
def lt : FF α → FF α → Bool
  | nan, _ => false
  | _, nan => false
  | ninf, ninf => false
  | ninf, _ => true
  | _, ninf => false
  | pinf, _ => false
  | fin _, pinf => true
  | fin a, fin b => decide (a < b)

/-- IEEE `<=` (any comparison with `NaN` is false). -/
def le : FF α → FF α → Bool
  | nan, _ => false
  | _, nan => false
  | ninf, _ => true
  | _, ninf => false
  | _, pinf => true
  | pinf, fin _ => false
  | fin a, fin b => decide (a ≤ b)

/-- Rust `f64::min`: NaN operands are ignored. -/
def fmin : FF α → FF α → FF α
  | nan, b => b
  | a, nan => a
  | a, b => if lt a b then a else b

/-- Rust `f64::max`: NaN operands are ignored. -/
def fmax : FF α → FF α → FF α
  | nan, b => b
  | a, nan => a
  | a, b => if lt b a then a else b

/-- IEEE negation. -/
def neg : FF α → FF α
  | nan => nan
  | ninf => pinf
  | pinf => ninf
  | fin a => fin (-a)

/-- IEEE addition. -/
def add : FF α → FF α → FF α
  | nan, _ => nan
  | _, nan => nan
  | pinf, ninf => nan
  | ninf, pinf => nan
  | pinf, _ => pinf
  | _, pinf => pinf
  | ninf, _ => ninf
  | _, ninf => ninf
  | fin a, fin b => fin (a + b)

/-- IEEE subtraction. -/
def sub (a b : FF α) : FF α := add a (neg b)

/-- IEEE multiplication (`∞ · 0 = NaN`). -/
def mul : FF α → FF α → FF α
  | nan, _ => nan
  | _, nan => nan
  | pinf, pinf => pinf
  | pinf, ninf => ninf
  | ninf, pinf => ninf
  | ninf, ninf => pinf
  | pinf, fin b => if 0 < b then pinf else if b < 0 then ninf else nan
  | ninf, fin b => if 0 < b then ninf else if b < 0 then pinf else nan
  | fin a, pinf => if 0 < a then pinf else if a < 0 then ninf else nan
  | fin a, ninf => if 0 < a then ninf else if a < 0 then pinf else nan
  | fin a, fin b => fin (a * b)

/-- IEEE division (`x / 0 = ±∞` by the sign of `x`, `0/0 = NaN`,
`∞/∞ = NaN`, `x/∞ = 0`; signed zero is identified with zero). -/
def div : FF α → FF α → FF α
  | nan, _ => nan
  | _, nan => nan
  | pinf, pinf => nan
  | pinf, ninf => nan
  | ninf, pinf => nan
  | ninf, ninf => nan
  | pinf, fin b => if 0 ≤ b then pinf else ninf
  | ninf, fin b => if 0 ≤ b then ninf else pinf
  | fin _, pinf => fin 0
  | fin _, ninf => fin 0
  | fin a, fin b =>
      if b = 0 then (if 0 < a then pinf else if a < 0 then ninf else nan)
      else fin (a / b)

/-- IEEE absolute value. -/
def fabs : FF α → FF α
  | nan => nan
  | ninf => pinf
  | pinf => pinf
  | fin a => fin |a|
end FF

/-! ## `src/shape.rs`: `Ray` and `HitRecord` -/

/-- `Ray` of `shape.rs`: origin and direction (finite coordinates). -/
structure Ray (α : Type) where
  origin : V3 α
  dir : V3 α
deriving DecidableEq, Repr

/-- `Ray::at`: evaluate the ray at a parameter value. -/
def Ray.at {α : Type} [LinearOrderedField α] (r : Ray α) (t : α) : V3 α :=
  r.origin + V3.smul t r.dir

/-- `HitRecord` of `shape.rs`: hit time (an `f64`, initially `+∞`) and
normal. -/
structure HitRec (α : Type) where
  time : FF α
  normal : V3 α
deriving DecidableEq, Repr

/-- `HitRecord::new()`: time `+∞`, normal zero. -/
def HitRec.new {α : Type} [LinearOrderedField α] : HitRec α :=
  ⟨FF.pinf, V3.zero⟩

/-! ## `src/shape/cube.rs`

`Cube::intersect`, the slab method on the three axes, translated with full
IEEE semantics (`FF`) because axis-parallel rays divide by zero. -/

/-- One iteration of `compute_interval(dim)` in `Cube::intersect`:
slab times for the two planes `±0.5` and their face normals, swapped so the
smaller time comes first. -/
def cubeInterval {α : Type} [LinearOrderedField α] (ray : Ray α) (dim : Fin 3) :
    FF α × FF α × V3 α × V3 α :=
  let x1 := FF.div (FF.fin (-(1 : α)/2 - ray.origin.nth dim)) (FF.fin (ray.dir.nth dim))
  let x2 := FF.div (FF.fin ((1 : α)/2 - ray.origin.nth dim)) (FF.fin (ray.dir.nth dim))
  let x1n := V3.setNth V3.zero dim (-1)
  let x2n := V3.setNth V3.zero dim 1
  if FF.lt x2 x1 then (x2, x1, x2n, x1n) else (x1, x2, x1n, x2n)

/-- `Cube::intersect` of `cube.rs`.  Returns the Rust boolean together with
the (possibly mutated) hit record. -/
def cube_intersect {α : Type} [LinearOrderedField α]
    (ray : Ray α) (t_min : α) (rec : HitRec α) : Bool × HitRec α :=
  let (x1, x2, x1n, x2n) := cubeInterval ray 0
  let (y1, y2, y1n, y2n) := cubeInterval ray 1
  let (z1, z2, z1n, z2n) := cubeInterval ray 2
  let (start, start_normal) :=
    if FF.lt y1 x1 && FF.lt z1 x1 then (x1, x1n)
    else if FF.lt z1 y1 then (y1, y1n)
    else (z1, z1n)
  let (tend, end_normal) :=
    if FF.lt x2 y2 && FF.lt x2 z2 then (x2, x2n)
    else if FF.lt y2 z2 then (y2, y2n)
    else (z2, z2n)
  if FF.lt tend start || FF.lt tend (FF.fin t_min) then (false, rec)
  else
    let (time, normal) :=
      if FF.lt start (FF.fin t_min) then (tend, end_normal) else (start, start_normal)
    if FF.lt time rec.time then (true, { time := time, normal := normal })
    else (false, rec)

/-! ## `src/shape/sphere.rs` -/

/-- The root selection of `Sphere::intersect` in `sphere.rs` (the part of
the function up to the early `return false`s): solve the quadratic, take
`t_minus` when `t_minus >= t_min`, else `t_plus` when `t_plus >= t_min`,
else report no hit.  `is_sign_negative()` on the discriminant is `d < 0`
(an exact zero discriminant is `+0.0` in IEEE, not `-0.0`). -/
noncomputable def sphereT (ray : Ray ℝ) (t_min : ℝ) : Option ℝ :=
  let a := ray.dir.length2
  let b := 2 * ray.dir.dot ray.origin
  let c := ray.origin.length2 - 1
  let d := b * b - 4 * a * c
  if d < 0 then none
  else
    let ds := Real.sqrt d
    let t_plus := (-b + ds) / (2 * a)
    let t_minus := (-b - ds) / (2 * a)
    if t_minus < t_min then (if t_plus < t_min then none else some t_plus)
    else some t_minus

/-- `Sphere::intersect` of `sphere.rs` (unit sphere at the origin), over `ℝ`:
select the root with `sphereT`, then tighten the record when `t < record.time`. -/
noncomputable def sphere_intersect (ray : Ray ℝ) (t_min : ℝ) (rec : HitRec ℝ) :
    Bool × HitRec ℝ :=
  match sphereT ray t_min with
  | none => (false, rec)
  | some t =>
      if FF.lt (FF.fin t) rec.time then
        (true, ⟨FF.fin t, (ray.at t).normalize⟩)
      else (false, rec)

/-- A parameter value hits the unit sphere iff the ray point has squared
length 1. -/
def sphereHitAt (ray : Ray ℝ) (t : ℝ) : Prop := (ray.at t).length2 = 1

/-- Membership of a point in the solid unit cube. -/
def inCube (p : V3 ℝ) : Prop := |p.x| ≤ 1/2 ∧ |p.y| ≤ 1/2 ∧ |p.z| ≤ 1/2

/-- A point on the boundary of the unit cube. -/
def onCubeBoundary (p : V3 ℝ) : Prop :=
  inCube p ∧ (|p.x| = 1/2 ∨ |p.y| = 1/2 ∨ |p.z| = 1/2)

/-- A parameter value hits the unit cube iff the ray point is on its
boundary. -/
def cubeHitAt (ray : Ray ℝ) (t : ℝ) : Prop := onCubeBoundary (ray.at t)

/-! ## `src/shape/plane.rs` -/

/-- `Plane::intersect` of `plane.rs`: the plane `x • normal = value`.
Rays with `|normal • dir| < 1e-8` are treated as parallel (miss). -/
noncomputable def plane_intersect (normal : V3 ℝ) (value : ℝ) (ray : Ray ℝ)
    (t_min : ℝ) (rec : HitRec ℝ) : Bool × HitRec ℝ :=
  let cosine := V3.dot normal ray.dir
  if |cosine| < 1e-8 then (false, rec)
  else
    let time := (value - V3.dot normal ray.origin) / cosine
    if t_min ≤ time ∧ FF.lt (FF.fin time) rec.time = true then
      (true, ⟨FF.fin time,
        V3.smul (-(if 0 ≤ cosine then (1:ℝ) else -1)) normal.normalize⟩)
    else (false, rec)

/-- A parameter value hits the plane `x • normal = value`. -/
def planeHitAt (normal : V3 ℝ) (value : ℝ) (ray : Ray ℝ) (t : ℝ) : Prop :=
  V3.dot (ray.at t) normal = value

/-- Near-parallel plane configuration refuting C2 as stated: an exactly
unit direction with `|normal • dir| = 4e9/(4e18+1) < 1e-8`. -/
noncomputable def c2Ray : Ray ℝ :=
  ⟨⟨0, 0, 1⟩, ⟨(4000000000000000000 - 1) / (4000000000000000000 + 1), 0,
    -(4000000000 : ℝ) / (4000000000000000000 + 1)⟩⟩

/-- The hit time of `c2Ray` on the plane `z = 0`. -/
noncomputable def c2T : ℝ := (4000000000000000000 + 1) / 4000000000

/-! ## `src/material.rs` -/

/-- `Material` of `material.rs`. -/
structure Material where
  color : V3 ℝ
  index : ℝ
  roughness : ℝ
  metallic : ℝ
  emittance : ℝ
  transparent : Bool

/-- `Material::diffuse`. -/
def Material.diffuse (color : V3 ℝ) : Material :=
  ⟨color, 1.5, 1.0, 0.0, 0.0, false⟩

/-- Cross product `a.cross(&b)`. -/
def V3.cross (a b : V3 ℝ) : V3 ℝ :=
  ⟨a.y * b.z - a.z * b.y, a.z * b.x - a.x * b.z, a.x * b.y - a.y * b.x⟩

/-- Component mean of a vector (`nalgebra` `mean`). -/
noncomputable def V3.mean (v : V3 ℝ) : ℝ := (v.x + v.y + v.z) / 3

/-- `local_to_world` of `material.rs`: the rotation taking the local frame
`(ns, nss, n)` to world space, applied to a vector (`is_normal` on a real
is nonzeroness; subnormals do not arise in the exact model). -/
noncomputable def local_to_world (n : V3 ℝ) (v : V3 ℝ) : V3 ℝ :=
  let ns := if n.x ≠ 0 then V3.normalize ⟨n.y, -n.x, 0⟩ else V3.normalize ⟨0, -n.z, n.y⟩
  let nss := n.cross ns
  V3.smul v.x ns + V3.smul v.y nss + V3.smul v.z n

/-- The `beckmann` closure of `Material::sample_f`: sample a microfacet
half-vector from the Beckmann distribution via the probability integral
transform, given the uniform draw `u` and the unit-circle draw `circ`. -/
noncomputable def beckmannSample (m2 : ℝ) (n : V3 ℝ) (u : ℝ) (circ : ℝ × ℝ) : V3 ℝ :=
  let theta := Real.arctan (Real.sqrt (m2 * -(Real.log u)))
  let sin_t := Real.sin theta
  let cos_t := Real.cos theta
  local_to_world n ⟨circ.1 * sin_t, circ.2 * sin_t, cos_t⟩

/-- The `beckmann_pdf` closure of `Material::sample_f`. -/
noncomputable def beckmannPdf (m2 : ℝ) (n : V3 ℝ) (h : V3 ℝ) : ℝ :=
  let cos_t := |V3.dot h n|
  let sin_t := Real.sqrt (1 - cos_t * cos_t)
  (Real.pi * m2 * cos_t ^ 3)⁻¹ * Real.exp (-(sin_t / cos_t) ^ 2 / m2)

/-- The vector `wi_perp = -wo_perp / eta_t` of the transmitted branch of
`sample_f`. -/
noncomputable def Material.wiPerp (m : Material) (n wo : V3 ℝ) (u : ℝ)
    (circ : ℝ × ℝ) : V3 ℝ :=
  let m2 := m.roughness * m.roughness
  let eta_t := if 0 < V3.dot wo n then m.index else 1 / m.index
  let h := beckmannSample m2 n u circ
  let cos_to := V3.dot h wo
  let wo_perp := wo - V3.smul cos_to h
  V3.smul (-(1 / eta_t)) wo_perp

/-- The squared transmitted sine `sin2_ti` in the transmitted branch of
`sample_f` (total internal reflection occurs when it exceeds 1). -/
noncomputable def Material.tirSin2 (m : Material) (n wo : V3 ℝ) (u : ℝ)
    (circ : ℝ × ℝ) : ℝ :=
  (m.wiPerp n wo u circ).length2

/-- `Material::sample_f` of `material.rs`, with the random draws made
explicit: `coin` is `rng.gen_bool(f)`, `u` the uniform for the Beckmann
inverse CDF, `circ` the unit-circle draw, `disc` the unit-disc draw. -/
noncomputable def Material.sample_f (m : Material) (n wo : V3 ℝ) (coin : Bool)
    (u : ℝ) (circ disc : ℝ × ℝ) : Option (V3 ℝ × ℝ) :=
  let m2 := m.roughness * m.roughness
  let f0 := ((m.index - 1) / (m.index + 1)) ^ 2
  let f := (1 - m.metallic) * f0 + m.metallic * m.color.mean
  let f := f + 0.2 * (1 - f)
  let eta_t := if 0 < V3.dot wo n then m.index else 1 / m.index
  let wi? : Option (V3 ℝ) :=
    if coin then
      -- Specular: wi = -reflect(wo, h) = 2 (wo • h) h - wo
      let h := beckmannSample m2 n u circ
      some (V3.smul (2 * V3.dot wo h) h - wo)
    else if !m.transparent then
      -- Diffuse: cosine sampling by Malley's method
      let z := Real.sqrt (1 - disc.1 * disc.1 - disc.2 * disc.2)
      some (local_to_world n ⟨disc.1, disc.2, z⟩)
    else
      -- Transmitted: refract about a Beckmann half-vector
      let h := beckmannSample m2 n u circ
      let cos_to := V3.dot h wo
      let wi_perp := m.wiPerp n wo u circ
      let sin2_ti := m.tirSin2 n wo u circ
      if 1 < sin2_ti then none
      else
        let cos_ti := Real.sqrt (1 - sin2_ti)
        some (V3.smul (-(if 0 ≤ cos_to then (1:ℝ) else -1) * cos_ti) h + wi_perp)
  match wi? with
  | none => none
  | some wi =>
      let p := (let h := (wi + wo).normalize
                let p_h := beckmannPdf m2 n h
                f * p_h / (4 * |V3.dot h wo|))
      let p := p + (if !m.transparent then
            (1 - f) * max (V3.dot wi n) 0 * Real.pi⁻¹
          else if (decide (0 ≤ V3.dot wo n)) ≠ (decide (0 ≤ V3.dot wi n)) then
            let h := (V3.smul eta_t wi + wo).normalize
            let p_h := beckmannPdf m2 n h
            let h_dot_wo := V3.dot h wo
            let h_dot_wi := V3.dot h wi
            (1 - f) * p_h * (|h_dot_wo| / (eta_t * h_dot_wi + h_dot_wo) ^ 2)
          else 0)
      some (wi, p)

/-! ## `src/buffer.rs` -/

/-- Iterator `sum` over a list of colors. -/
noncomputable def vsum (ps : List (V3 ℝ)) : V3 ℝ := ps.foldl (· + ·) V3.zero

/-- The per-pixel term of `Buffer::variance`: mean color, then the sum of
squared deviations `(sample - mean).magnitude_squared()`, divided by
`n - 1` degrees of freedom. -/
noncomputable def Buffer.pixVariance (ps : List (V3 ℝ)) : ℝ :=
  let mean := V3.smul ((ps.length : ℝ))⁻¹ (vsum ps)
  ((ps.map (fun s => (s - mean).length2)).sum) / ((ps.length : ℝ) - 1)

/-- `Buffer::variance` of `buffer.rs`: accumulate the per-pixel variance
and the pixel count over all pixels, then divide. -/
noncomputable def Buffer.variance (samples : List (List (V3 ℝ))) : ℝ :=
  let r := samples.foldl
    (fun acc ps => (acc.1 + Buffer.pixVariance ps, acc.2 + 1)) ((0:ℝ), (0:ℝ))
  r.1 / r.2

/-- Modelled from the spec claim: sample variance of a list of scalars,
sum-of-squares over `n - 1`. -/
noncomputable def scalarVariance (l : List ℝ) : ℝ :=
  let m := l.sum / (l.length : ℝ)
  ((l.map (fun x => (x - m) ^ 2)).sum) / ((l.length : ℝ) - 1)

/-- The claim's reading of `variance()`: mean over pixels of the sample
variance of the pixels' color magnitudes. -/
noncomputable def specMagVariance (samples : List (List (V3 ℝ))) : ℝ :=
  ((samples.map (fun ps => scalarVariance (ps.map V3.norm))).sum) /
    (samples.length : ℝ)

/-! ## `src/light.rs` and `Renderer::sample_lights` / `get_closest_hit`

Scene objects are abstracted by their set of intersection times along a
ray (`hits`); `Shape::intersect` reports the least hit inside the query
window, matching the closed-form primitives verified above.  Object lights
carry their sampled point/normal/pdf (the `rng` draw) and emissive
material data explicitly. -/

/-- The `EPSILON` constant of `renderer.rs`. -/
noncomputable def EPSILON : ℝ := 1e-12

/-- `Light` of `light.rs`. -/
inductive Light where
  | point : V3 ℝ → V3 ℝ → Light
  | ambient : V3 ℝ → Light
  | directional : V3 ℝ → V3 ℝ → Light
  | object : V3 ℝ → V3 ℝ → ℝ → V3 ℝ → ℝ → Light

/-- `Light::illuminate`, returning (intensity, direction to light,
distance to light); the distance is an `f64` that is `+∞` for directional
lights.  For object lights the fields are the sampled point `v`, sampled
normal `sn`, pdf `p`, material color and emittance. -/
noncomputable def Light.illuminate (l : Light) (world_pos : V3 ℝ) :
    V3 ℝ × V3 ℝ × FF ℝ :=
  match l with
  | .ambient c => (c, V3.zero, FF.fin 0)
  | .point c loc =>
      let disp := loc - world_pos
      let len := disp.norm
      (V3.smul (len * len)⁻¹ c, V3.smul len⁻¹ disp, FF.fin len)
  | .directional c dir => (c, V3.neg (V3.normalize dir), FF.pinf)
  | .object v sn p color emittance =>
      let disp := v - world_pos
      let len := disp.norm
      let cosine := max (-(V3.dot disp sn)) 0 / len
      let surface_area := max cosine 0 / (len * len)
      (V3.smul (emittance * surface_area / p) color, V3.smul len⁻¹ disp, FF.fin len)

/-- Whether a light is the ambient variant. -/
def Light.isAmbient : Light → Bool
  | .ambient _ => true
  | _ => false

/-- A scene object abstracted by its intersection times. -/
structure SceneObj where
  hits : Ray ℝ → List ℝ

/-- A `Shape::intersect` call on an abstracted object: report the least
hit time in the window `[t_min, cur)`, if any. -/
noncomputable def objIntersect (o : SceneObj) (ray : Ray ℝ) (t_min : ℝ)
    (cur : FF ℝ) : Option ℝ :=
  (o.hits ray).foldl
    (fun best t =>
      if t_min ≤ t ∧ FF.lt (FF.fin t) cur = true ∧
          (∀ b, best = some b → t < b) then some t else best)
    none

/-- `Renderer::get_closest_hit`: fold all scene objects' intersections with
`t_min = EPSILON` and a record starting at `+∞`, returning the closest hit
time, if any. -/
noncomputable def getClosestHit (objs : List SceneObj) (ray : Ray ℝ) : Option ℝ :=
  objs.foldl
    (fun acc o =>
      match objIntersect o ray EPSILON
          (match acc with | none => FF.pinf | some t => FF.fin t) with
      | some t => some t
      | none => acc)
    none

/-- All intersection times of the scene along a ray. -/
def sceneHits (objs : List SceneObj) (ray : Ray ℝ) : List ℝ :=
  objs.flatMap (fun o => o.hits ray)

/-- The explicit-light-sampling contribution term
`bsdf(n, wo, wi) ⊙ intensity * (wi • n)`. -/
noncomputable def lightTerm (bsdf : V3 ℝ → V3 ℝ) (intensity wi n : V3 ℝ) : V3 ℝ :=
  V3.smul (V3.dot wi n) (V3.cmul (bsdf wi) intensity)

/-- The per-light body of `Renderer::sample_lights`: ambient lights add
`ambient ⊙ material.color` unshadowed; other lights shoot a shadow ray
from `pos` toward the light and add the light term when
`closest_hit.is_none() || closest_hit.unwrap() > dist_to_light`. -/
noncomputable def lightContrib (bsdf : V3 ℝ → V3 ℝ) (mcolor : V3 ℝ)
    (objs : List SceneObj) (l : Light) (pos n : V3 ℝ) : V3 ℝ :=
  match l with
  | .ambient ac => V3.cmul ac mcolor
  | l =>
      let r := l.illuminate pos
      match getClosestHit objs ⟨pos, r.2.1⟩ with
      | none => lightTerm bsdf r.1 r.2.1 n
      | some t =>
          if FF.lt r.2.2 (FF.fin t) = true then lightTerm bsdf r.1 r.2.1 n
          else V3.zero

/-- `Renderer::sample_lights`: sum the per-light contributions. -/
noncomputable def sampleLights (bsdf : V3 ℝ → V3 ℝ) (mcolor : V3 ℝ)
    (objs : List SceneObj) (lights : List Light) (pos n : V3 ℝ) : V3 ℝ :=
  lights.foldl (fun color l => color + lightContrib bsdf mcolor objs l pos n) V3.zero

/-- The claim's literal reading of the shadow test: the contribution is
added iff the shadow ray finds no occluder strictly closer than the
light's distance. -/
noncomputable def lightContribNoStrictOccluder (bsdf : V3 ℝ → V3 ℝ)
    (mcolor : V3 ℝ) (objs : List SceneObj) (l : Light) (pos n : V3 ℝ) : V3 ℝ :=
  match l with
  | .ambient ac => V3.cmul ac mcolor
  | l =>
      let r := l.illuminate pos
      match getClosestHit objs ⟨pos, r.2.1⟩ with
      | none => lightTerm bsdf r.1 r.2.1 n
      | some t =>
          if FF.lt (FF.fin t) r.2.2 = true then V3.zero
          else lightTerm bsdf r.1 r.2.1 n

/-- The claim's reading of `sample_lights`, built from
`lightContribNoStrictOccluder`. -/
noncomputable def sampleLightsNoStrictOccluder (bsdf : V3 ℝ → V3 ℝ)
    (mcolor : V3 ℝ) (objs : List SceneObj) (lights : List Light)
    (pos n : V3 ℝ) : V3 ℝ :=
  lights.foldl
    (fun color l => color + lightContribNoStrictOccluder bsdf mcolor objs l pos n)
    V3.zero

/-! ## `src/renderer.rs`: photon-map gathering -/

/-- `CLOSEST_N_PHOTONS` of `renderer.rs`: how many photons the gather pass
queries at each primary hit. -/
def CLOSEST_N_PHOTONS : ℕ := 10

/-- `Photon`: incoming direction and power (the kd-tree position is
abstracted away; a query result is a photon paired with its squared
distance). -/
structure Photon where
  direction : V3 ℝ
  power : V3 ℝ

/-- The `max_dist_squared` fold of `trace_ray_with_photon_map`:
`fold(0., |acc, p| acc.max(p))` over the squared distances of the queried
photons. -/
noncomputable def maxDistSquared (ps : List (Photon × ℝ)) : ℝ :=
  ps.foldl (fun acc p => max acc p.2) 0

/-- The indirect-lighting gather of `trace_ray_with_photon_map`: sum
`bsdf(photon.direction) ⊙ photon.power` over the queried photons, then
scale by `1 / (π · max_dist_squared)`. -/
noncomputable def gatherIndirect (bsdf : V3 ℝ → V3 ℝ)
    (ps : List (Photon × ℝ)) : V3 ℝ :=
  V3.smul (1 / (Real.pi * maxDistSquared ps))
    (vsum (ps.map (fun p => V3.cmul (bsdf p.1.direction) p.1.power)))

/-- The spec's `r_max`: the (unsquared) distance to the farthest queried
photon. -/
noncomputable def specRMax (ps : List (Photon × ℝ)) : ℝ :=
  ps.foldl (fun acc p => max acc (Real.sqrt p.2)) 0

/-- The spec's reading of the gather pass: normalise the photon sum by
`π · r_max²`. -/
noncomputable def specGatherIndirect (bsdf : V3 ℝ → V3 ℝ)
    (ps : List (Photon × ℝ)) : V3 ℝ :=
  V3.smul (1 / (Real.pi * (specRMax ps * specRMax ps)))
    (vsum (ps.map (fun p => V3.cmul (bsdf p.1.direction) p.1.power)))

/-! ## `src/environment.rs`: `Hdri` -/

/-- Rust `f64::atan2` on finite arguments (signed zero identified with
zero). -/
noncomputable def atan2 (y x : ℝ) : ℝ :=
  if 0 < x then Real.arctan (y / x)
  else if x < 0 ∧ 0 ≤ y then Real.arctan (y / x) + Real.pi
  else if x < 0 then Real.arctan (y / x) - Real.pi
  else if 0 < y then Real.pi / 2
  else if y < 0 then -(Real.pi / 2)
  else 0

/-- `Hdri` of `environment.rs`: an equirectangular pixel buffer. -/
structure Hdri where
  width : ℕ
  height : ℕ
  buf : List (V3 ℝ)

/-- The invariant `Hdri::new` asserts: `buf.len() == width * height`,
`width > 0`, `height > 0`. -/
def Hdri.valid (e : Hdri) : Prop :=
  e.buf.length = e.width * e.height ∧ 0 < e.width ∧ 0 < e.height

/-- The continuous sample coordinates `(x, y)` computed by
`Hdri::get_color`: azimuth `atan2(z, x) + π` and polar `acos(y)` of the
normalized direction, scaled to `[0, width-1] × [0, height-1]`. -/
noncomputable def Hdri.xy (e : Hdri) (dir : V3 ℝ) : ℝ × ℝ :=
  let d := V3.normalize dir
  let azimuth := atan2 d.z d.x + Real.pi
  let polar := Real.arccos d.y
  (azimuth / (2 * Real.pi) * ((e.width - 1 : ℕ) : ℝ),
   polar / Real.pi * ((e.height - 1 : ℕ) : ℝ))

/-- `bilinear_sample`'s cell corner `(x0, y0)`: the `as u32` cast of the
non-negative coordinate (truncation, `Nat.floor`) clamped by
`.min(width - 1)` / `.min(height - 1)`. -/
noncomputable def Hdri.cell (e : Hdri) (dir : V3 ℝ) : ℕ × ℕ :=
  (min (Nat.floor (e.xy dir).1) (e.width - 1),
   min (Nat.floor (e.xy dir).2) (e.height - 1))

/-- The four pixel indices `bilinear_sample` reads from `buf`. -/
noncomputable def Hdri.indices (e : Hdri) (dir : V3 ℝ) : ℕ × ℕ × ℕ × ℕ :=
  let x0 := (e.cell dir).1
  let y0 := (e.cell dir).2
  (y0 * e.width + x0, y0 * e.width + x0 + 1,
   (y0 + 1) * e.width + x0, (y0 + 1) * e.width + x0 + 1)

/-! ## `src/kdtree.rs` -/

section KdDefs

variable {α : Type} [LinearOrderedField α] [FloorRing α]

/-- `SCORE_THRESHOLD` of `kdtree.rs`: the exact rational value of the
`f64` literal `0.85` (which is `7656119366529843 / 2^53`, slightly below
`17/20`). -/
def SCORE_THRESHOLD : α := 7656119366529843 / 9007199254740992

/-- `BoundingBox` of `kdtree.rs`: axis-aligned box.  Coordinates are
`f64` values that may be `±∞` (the `Default` box is inverted-infinite), so
they are modelled in `FF α`. -/
structure BoundingBox (α : Type) where
  p_min : V3 (FF α)
  p_max : V3 (FF α)
deriving DecidableEq, Repr

/-- `BoundingBox::default()`: the empty (inverted-infinite) box. -/
def BoundingBox.default : BoundingBox α :=
  ⟨⟨FF.pinf, FF.pinf, FF.pinf⟩, ⟨FF.ninf, FF.ninf, FF.ninf⟩⟩

/-- `BoundingBox::merge`: componentwise min of minima, max of maxima. -/
def BoundingBox.merge (a b : BoundingBox α) : BoundingBox α :=
  ⟨⟨FF.fmin a.p_min.x b.p_min.x, FF.fmin a.p_min.y b.p_min.y,
    FF.fmin a.p_min.z b.p_min.z⟩,
   ⟨FF.fmax a.p_max.x b.p_max.x, FF.fmax a.p_max.y b.p_max.y,
    FF.fmax a.p_max.z b.p_max.z⟩⟩

/-- One axis of `BoundingBox::intersect`: the two slab times, ordered by
`f64::min` / `f64::max`. -/
def BoundingBox.slab (b : BoundingBox α) (ray : Ray α) (d : Fin 3) :
    FF α × FF α :=
  let t1 := FF.div (FF.sub (b.p_min.nth d) (FF.fin (ray.origin.nth d)))
    (FF.fin (ray.dir.nth d))
  let t2 := FF.div (FF.sub (b.p_max.nth d) (FF.fin (ray.origin.nth d)))
    (FF.fin (ray.dir.nth d))
  (FF.fmin t1 t2, FF.fmax t1 t2)

/-- `BoundingBox::intersect`: `(max of slab minima, min of slab maxima)`. -/
def BoundingBox.intersect (b : BoundingBox α) (ray : Ray α) : FF α × FF α :=
  (FF.fmax (FF.fmax (b.slab ray 0).1 (b.slab ray 1).1) (b.slab ray 2).1,
   FF.fmin (FF.fmin (b.slab ray 0).2 (b.slab ray 1).2) (b.slab ray 2).2)

/-- `BoundingBox::split`: clip the box on both sides of an axis plane. -/
def BoundingBox.split (b : BoundingBox α) (axis : Fin 3) (value : α) :
    BoundingBox α × BoundingBox α :=
  (⟨b.p_min, b.p_max.setNth axis (FF.fin value)⟩,
   ⟨b.p_min.setNth axis (FF.fin value), b.p_max⟩)

/-- A bounded primitive (`T: Bounded`), abstracted by its (finite)
bounding box and its intersection times along each ray; `intersect` obeys
the `Shape::intersect` contract (tighten to the closest hit inside the
window, else leave the record alone).  Only the hit time of the record is
modelled, since `KdTree` never reads the normal. -/
structure PrimB (α : Type) where
  p_min : V3 α
  p_max : V3 α
  hits : Ray α → List α

/-- The placeholder primitive used for out-of-range index lookups (never
reached on the indices `construct` builds). -/
def defaultPrimB : PrimB α := ⟨V3.zero, V3.zero, fun _ => []⟩

/-- The `bounding_box()` of an abstract primitive, as an `FF` box. -/
def PrimB.bbox (p : PrimB α) : BoundingBox α :=
  ⟨⟨FF.fin p.p_min.x, FF.fin p.p_min.y, FF.fin p.p_min.z⟩,
   ⟨FF.fin p.p_max.x, FF.fin p.p_max.y, FF.fin p.p_max.z⟩⟩

/-- The closest hit of one primitive inside the window `[t_min, cur)`
(IEEE comparisons, so a `NaN` bound rejects everything). -/
def primBest (p : PrimB α) (ray : Ray α) (t_min cur : FF α) : Option α :=
  (p.hits ray).foldl
    (fun best t =>
      if FF.le t_min (FF.fin t) = true ∧ FF.lt (FF.fin t) cur = true ∧
          (∀ b, best = some b → t < b) then some t else best)
    none

/-- `Shape::intersect` of an abstract primitive: report and record the
closest hit in the window, if any. -/
def primIntersect (p : PrimB α) (ray : Ray α) (t_min cur : FF α) :
    Bool × FF α :=
  match primBest p ray t_min cur with
  | none => (false, cur)
  | some t => (true, FF.fin t)

/-- Fold `intersect` over a list of primitives, OR-ing the results and
threading the record — the body of both the brute-force scan and a leaf
node. -/
def primsFold (ps : List (PrimB α)) (ray : Ray α) (t_min : FF α)
    (rec : FF α) : Bool × FF α :=
  ps.foldl
    (fun acc p =>
      let r := primIntersect p ray t_min acc.2
      (acc.1 || r.1, r.2))
    (false, rec)

/-- The claim's brute-force linear scan: `intersect` every primitive with
the same `t_min` and record. -/
def bruteIntersect (objects : List (PrimB α)) (ray : Ray α) (t_min : α)
    (rec : FF α) : Bool × FF α :=
  primsFold objects ray (FF.fin t_min) rec

/-- `KdNode` of `kdtree.rs`; `SplitX`/`SplitY`/`SplitZ` are merged into
one constructor indexed by the axis (`0 = X`, `1 = Y`, `2 = Z`). -/
inductive KdNode (α : Type) where
  | Split : Fin 3 → α → KdNode α → KdNode α → KdNode α
  | Leaf : List ℕ → KdNode α
deriving DecidableEq, Repr

/-- The primitives a list of indices denotes. -/
def primsOf (objects : List (PrimB α)) (indices : List ℕ) : List (PrimB α) :=
  indices.map fun i => objects.getD i defaultPrimB

/-- `median` of `kdtree.rs` on a sorted array. -/
def median (l : List α) : α :=
  if l.length % 2 = 1 then l.getD (l.length / 2) 0
  else (l.getD (l.length / 2) 0 + l.getD (l.length / 2 - 1) 0) / 2

/-- The three split candidates of `construct`: the medians of the sorted
per-axis bounding coordinates. -/
def kdSplitVals (prims : List (PrimB α)) : V3 α :=
  ⟨median ((prims.flatMap fun p => [p.p_min.x, p.p_max.x]).mergeSort
      fun a b => decide (a ≤ b)),
   median ((prims.flatMap fun p => [p.p_min.y, p.p_max.y]).mergeSort
      fun a b => decide (a ≤ b)),
   median ((prims.flatMap fun p => [p.p_min.z, p.p_max.z]).mergeSort
      fun a b => decide (a ≤ b))⟩

/-- `partition_score` of `construct`: `max(#{p_min ≤ value}, #{p_max ≥ value})`. -/
def partition_score (prims : List (PrimB α)) (dim : Fin 3) (value : α) : ℕ :=
  max (prims.countP fun p => decide (p.p_min.nth dim ≤ value))
      (prims.countP fun p => decide (value ≤ p.p_max.nth dim))

/-- The split-direction choice of `construct`: first the axis of maximum
extent if its score beats the threshold, otherwise the axis of best
score. -/
def chooseDim (sx sy sz t : ℕ) (extent : V3 (FF α)) : Fin 3 :=
  if FF.lt extent.y extent.x = true ∧ FF.lt extent.z extent.x = true then
    if sx < t then 0
    else if sx < sy ∧ sx < sz then 0 else if sy < sz then 1 else 2
  else if FF.lt extent.z extent.y = true then
    if sy < t then 1
    else if sx < sy ∧ sx < sz then 0 else if sy < sz then 1 else 2
  else
    if sz < t then 2
    else if sx < sy ∧ sx < sz then 0 else if sy < sz then 1 else 2

/-- `construct` of `kdtree.rs`: make a leaf below 16 objects or when no
median split scores below `⌊n · SCORE_THRESHOLD⌋`; otherwise split at the
chosen axis's median, sending a primitive left when `p_min[d] ≤ value`
and right when `p_max[d] ≥ value` (straddlers go to both sides). -/
def construct (objects : List (PrimB α)) (indices : List ℕ) : KdNode α :=
  if indices.length < 16 then .Leaf indices
  else
    let prims := primsOf objects indices
    let m := kdSplitVals prims
    let sx := partition_score prims 0 m.x
    let sy := partition_score prims 1 m.y
    let sz := partition_score prims 2 m.z
    let threshold := Nat.floor ((indices.length : α) * SCORE_THRESHOLD)
    if hs : threshold ≤ min (min sx sy) sz then .Leaf indices
    else
      let bounds := prims.foldl (fun b p => b.merge p.bbox) BoundingBox.default
      let extent : V3 (FF α) :=
        ⟨FF.sub bounds.p_max.x bounds.p_min.x,
         FF.sub bounds.p_max.y bounds.p_min.y,
         FF.sub bounds.p_max.z bounds.p_min.z⟩
      let d := chooseDim sx sy sz threshold extent
      let v := m.nth d
      KdNode.Split d v
        (construct objects (indices.filter fun i =>
          decide ((objects.getD i defaultPrimB).p_min.nth d ≤ v)))
        (construct objects (indices.filter fun i =>
          decide (v ≤ (objects.getD i defaultPrimB).p_max.nth d)))
termination_by indices.length
decreasing_by
  · unfold_let at hs ⊢
    have hth : ∀ n : ℕ, Nat.floor ((n : α) * SCORE_THRESHOLD) ≤ n := by
      intro n
      have h1 : (n : α) * SCORE_THRESHOLD ≤ (n : α) := by
        refine mul_le_of_le_one_right (by positivity) ?_
        rw [show (SCORE_THRESHOLD : α) =
          7656119366529843 / 9007199254740992 from rfl]
        rw [div_le_one (by norm_num)]
        norm_num
      exact le_trans (Nat.floor_le_floor h1) (le_of_eq (Nat.floor_natCast n))
    have hcd : ∀ (prims : List (PrimB α)) (m : V3 α) (t : ℕ) (e : V3 (FF α)),
        min (min (partition_score prims 0 m.x) (partition_score prims 1 m.y))
          (partition_score prims 2 m.z) < t →
        partition_score prims
            (chooseDim (partition_score prims 0 m.x)
              (partition_score prims 1 m.y) (partition_score prims 2 m.z) t e)
            (m.nth (chooseDim (partition_score prims 0 m.x)
              (partition_score prims 1 m.y) (partition_score prims 2 m.z)
              t e)) < t := by
      intro prims m t e h
      unfold chooseDim
      split_ifs <;> simp only [V3.nth] <;> omega
    have hfl : ∀ (d2 : Fin 3) (v2 : α) (P : ℕ → Bool),
        partition_score (primsOf objects indices) d2 v2 < indices.length →
        ((∀ i, P i = true →
            decide ((objects.getD i defaultPrimB).p_min.nth d2 ≤ v2) = true) ∨
          (∀ i, P i = true →
            decide (v2 ≤ (objects.getD i defaultPrimB).p_max.nth d2) = true)) →
        (indices.filter P).length < indices.length := by
      intro d2 v2 P hscore hside
      have hcount : (indices.filter P).length = indices.countP P :=
        (List.countP_eq_length_filter P indices).symm
      have hmap : ∀ Q : PrimB α → Bool,
          indices.countP (fun i => Q (objects.getD i defaultPrimB)) =
            (primsOf objects indices).countP Q := by
        intro Q
        rw [primsOf, List.countP_map]
        rfl
      rw [hcount]
      rcases hside with h2 | h2
      · have hle : indices.countP P ≤
            indices.countP (fun i =>
              decide ((objects.getD i defaultPrimB).p_min.nth d2 ≤ v2)) :=
          List.countP_mono_left (fun i _ h3 => h2 i h3)
        refine lt_of_le_of_lt (le_trans hle ?_) hscore
        rw [hmap (fun p => decide (p.p_min.nth d2 ≤ v2))]
        exact le_max_left _ _
      · have hle : indices.countP P ≤
            indices.countP (fun i =>
              decide (v2 ≤ (objects.getD i defaultPrimB).p_max.nth d2)) :=
          List.countP_mono_left (fun i _ h3 => h2 i h3)
        refine lt_of_le_of_lt (le_trans hle ?_) hscore
        rw [hmap (fun p => decide (v2 ≤ p.p_max.nth d2))]
        exact le_max_right _ _
    refine hfl _ _ _ ?_ (Or.inl fun i h => h)
    exact lt_of_lt_of_le (hcd _ _ _ _ (by omega)) (hth _)
  · unfold_let at hs ⊢
    have hth : ∀ n : ℕ, Nat.floor ((n : α) * SCORE_THRESHOLD) ≤ n := by
      intro n
      have h1 : (n : α) * SCORE_THRESHOLD ≤ (n : α) := by
        refine mul_le_of_le_one_right (by positivity) ?_
        rw [show (SCORE_THRESHOLD : α) =
          7656119366529843 / 9007199254740992 from rfl]
        rw [div_le_one (by norm_num)]
        norm_num
      exact le_trans (Nat.floor_le_floor h1) (le_of_eq (Nat.floor_natCast n))
    have hcd : ∀ (prims : List (PrimB α)) (m : V3 α) (t : ℕ) (e : V3 (FF α)),
        min (min (partition_score prims 0 m.x) (partition_score prims 1 m.y))
          (partition_score prims 2 m.z) < t →
        partition_score prims
            (chooseDim (partition_score prims 0 m.x)
              (partition_score prims 1 m.y) (partition_score prims 2 m.z) t e)
            (m.nth (chooseDim (partition_score prims 0 m.x)
              (partition_score prims 1 m.y) (partition_score prims 2 m.z)
              t e)) < t := by
      intro prims m t e h
      unfold chooseDim
      split_ifs <;> simp only [V3.nth] <;> omega
    have hfl : ∀ (d2 : Fin 3) (v2 : α) (P : ℕ → Bool),
        partition_score (primsOf objects indices) d2 v2 < indices.length →
        ((∀ i, P i = true →
            decide ((objects.getD i defaultPrimB).p_min.nth d2 ≤ v2) = true) ∨
          (∀ i, P i = true →
            decide (v2 ≤ (objects.getD i defaultPrimB).p_max.nth d2) = true)) →
        (indices.filter P).length < indices.length := by
      intro d2 v2 P hscore hside
      have hcount : (indices.filter P).length = indices.countP P :=
        (List.countP_eq_length_filter P indices).symm
      have hmap : ∀ Q : PrimB α → Bool,
          indices.countP (fun i => Q (objects.getD i defaultPrimB)) =
            (primsOf objects indices).countP Q := by
        intro Q
        rw [primsOf, List.countP_map]
        rfl
      rw [hcount]
      rcases hside with h2 | h2
      · have hle : indices.countP P ≤
            indices.countP (fun i =>
              decide ((objects.getD i defaultPrimB).p_min.nth d2 ≤ v2)) :=
          List.countP_mono_left (fun i _ h3 => h2 i h3)
        refine lt_of_le_of_lt (le_trans hle ?_) hscore
        rw [hmap (fun p => decide (p.p_min.nth d2 ≤ v2))]
        exact le_max_left _ _
      · have hle : indices.countP P ≤
            indices.countP (fun i =>
              decide (v2 ≤ (objects.getD i defaultPrimB).p_max.nth d2)) :=
          List.countP_mono_left (fun i _ h3 => h2 i h3)
        refine lt_of_le_of_lt (le_trans hle ?_) hscore
        rw [hmap (fun p => decide (v2 ≤ p.p_max.nth d2))]
        exact le_max_right _ _
    refine hfl _ _ _ ?_ (Or.inr fun i h => h)
    exact lt_of_lt_of_le (hcd _ _ _ _ (by omega)) (hth _)

/-- `KdTree::intersect_subtree`.  The record is its hit time (`f64`,
modelled `FF α`); `t_min` is also an `f64` since the recursion passes
`t_split` for it. -/
def intersect_subtree (objects : List (PrimB α)) :
    KdNode α → BoundingBox α → Ray α → FF α → FF α → Bool × FF α
  | .Leaf is, _, ray, t_min, rec => primsFold (primsOf objects is) ray t_min rec
  | .Split d v l r, bbox, ray, t_min, rec =>
      let bi := bbox.intersect ray
      let t_split := FF.div (FF.fin (v - ray.origin.nth d))
        (FF.fin (ray.dir.nth d))
      let left_first := ray.origin.nth d < v ∨
        (ray.origin.nth d = v ∧ ray.dir.nth d ≤ 0)
      let bs := bbox.split d v
      let first := if left_first then l else r
      let second := if left_first then r else l
      let bfirst := if left_first then bs.1 else bs.2
      let bsecond := if left_first then bs.2 else bs.1
      if FF.lt (FF.fmin bi.2 rec) t_split = true ∨
          FF.le t_split (FF.fin 0) = true then
        intersect_subtree objects first bfirst ray t_min rec
      else if FF.lt t_split (FF.fmax bi.1 t_min) = true then
        intersect_subtree objects second bsecond ray t_min rec
      else
        let h1 := intersect_subtree objects first bfirst ray t_min rec
        if h1.1 = true ∧ FF.lt h1.2 t_split = true then (true, h1.2)
        else
          let h2 := intersect_subtree objects second bsecond ray t_split h1.2
          (h1.1 || h2.1, h2.2)
termination_by n _ _ _ _ => sizeOf n
decreasing_by
  all_goals unfold_let
  all_goals split <;> · simp only [KdNode.Split.sizeOf_spec]; omega

/-- `KdTree` of `kdtree.rs`. -/
structure KdTree (α : Type) where
  root : KdNode α
  objects : List (PrimB α)
  bounds : BoundingBox α

/-- `KdTree::new`: construct from the full index range, bounds by merging
all bounding boxes into the default box. -/
def KdTree.new (objects : List (PrimB α)) : KdTree α :=
  { root := construct objects (List.range objects.length)
    objects := objects
    bounds := objects.foldl (fun b p => b.merge p.bbox) BoundingBox.default }

/-- `Shape::intersect` for `KdTree`: prune with the root bounding box,
then recurse. -/
def KdTree.intersect (kd : KdTree α) (ray : Ray α) (t_min : α)
    (rec : FF α) : Bool × FF α :=
  let bi := kd.bounds.intersect ray
  if FF.lt (FF.fmin bi.2 rec) (FF.fmax bi.1 (FF.fin t_min)) = true then
    (false, rec)
  else intersect_subtree kd.objects kd.root kd.bounds ray (FF.fin t_min) rec

/-- Membership of a point in an `FF` box (IEEE `≤` on every axis). -/
def inBox (b : BoundingBox α) (p : V3 α) : Prop :=
  ∀ d : Fin 3, FF.le (b.p_min.nth d) (FF.fin (p.nth d)) = true ∧
    FF.le (FF.fin (p.nth d)) (b.p_max.nth d) = true

/-- The structural facts about `construct`'s output that the traversal
equivalence needs: a split node's children receive every index whose
box is on their side of the plane, and only indices of the parent. -/
inductive NodeOK (objects : List (PrimB α)) : KdNode α → List ℕ → Prop where
  | leaf (is : List ℕ) : NodeOK objects (.Leaf is) is
  | split (d : Fin 3) (v : α) (l r : KdNode α) (ls rs is : List ℕ)
      (hl : ∀ i ∈ is, (objects.getD i defaultPrimB).p_min.nth d ≤ v → i ∈ ls)
      (hr : ∀ i ∈ is, v ≤ (objects.getD i defaultPrimB).p_max.nth d → i ∈ rs)
      (hls : ls ⊆ is) (hrs : rs ⊆ is)
      (hokl : NodeOK objects l ls) (hokr : NodeOK objects r rs) :
      NodeOK objects (.Split d v l r) is

/-- All six coordinates of a box are non-`NaN`. -/
def boxOk (b : BoundingBox α) : Prop :=
  ∀ d : Fin 3, b.p_min.nth d ≠ FF.nan ∧ b.p_max.nth d ≠ FF.nan

/-- The traversal contract: `out` leaves the record alone when it reports
`false`, reports a genuine in-window hit of the node's primitives when it
reports `true`, and is at most every in-window hit whose position lies in
the node's cell box. -/
def KdInv (objects : List (PrimB α)) (ray : Ray α) (out : Bool × FF α)
    (is : List ℕ) (bbox : BoundingBox α) (a : α) (rec : FF α) : Prop :=
  (out.1 = false → out.2 = rec) ∧
  (out.1 = true → ∃ i ∈ is, ∃ t ∈ (objects.getD i defaultPrimB).hits ray,
    a ≤ t ∧ FF.lt (FF.fin t) rec = true ∧ out.2 = FF.fin t) ∧
  (∀ i ∈ is, ∀ t ∈ (objects.getD i defaultPrimB).hits ray, a ≤ t →
    FF.lt (FF.fin t) rec = true → inBox bbox (ray.at t) →
    FF.le out.2 (FF.fin t) = true)
end KdDefs

/-! ### C1 counterexample data -/

/-- First primitive: flat box at `x = 0`, hit at `t = 1`. -/
def c1P1 : PrimB ℚ := ⟨⟨0, 0, 0⟩, ⟨0, 1, 1⟩, fun _ => [1]⟩

/-- Second primitive: flat box at `x = 1`, never hit. -/
def c1P2 : PrimB ℚ := ⟨⟨1, 0, 0⟩, ⟨1, 1, 1⟩, fun _ => []⟩

def c1Objs : List (PrimB ℚ) := [c1P1, c1P2]

/-- A ray grazing the scene along the plane `x = 0`, shooting down the
`z` axis: `dir.x = dir.y = 0` makes the slab method divide by zero. -/
def c1Ray : Ray ℚ := ⟨⟨0, 0, 2⟩, ⟨0, 0, -1⟩⟩

/-- Witness primitive: unit box hit at `t = 1`. -/
def c1W : PrimB ℚ := ⟨⟨0, 0, 0⟩, ⟨1, 1, 1⟩, fun _ => [1]⟩

/-- Witness ray: diagonal, all direction components nonzero. -/
def c1WRay : Ray ℚ := ⟨⟨-1, -1, -1⟩, ⟨1, 1, 1⟩⟩

section V3Thms

variable {α : Type} [LinearOrderedField α]

theorem V3.add_def (a b : V3 α) : a + b = ⟨a.x + b.x, a.y + b.y, a.z + b.z⟩ := rfl

theorem V3.sub_def (a b : V3 α) : a - b = ⟨a.x - b.x, a.y - b.y, a.z - b.z⟩ := rfl

theorem V3.neg_def (a : V3 α) : -a = ⟨-a.x, -a.y, -a.z⟩ := rfl
end V3Thms

theorem ff_lt_fin_mono {α : Type} [LinearOrderedField α] {s s' : α} {w : FF α}
    (h : FF.lt (FF.fin s) w = true) (hle : s' ≤ s) :
    FF.lt (FF.fin s') w = true := by
  cases w <;> simp_all [FF.lt]
  exact lt_of_le_of_lt hle h

/-- The quadratic of `Sphere::intersect` expands the squared length of the
ray point. -/
theorem sphere_quadratic (ray : Ray ℝ) (t : ℝ) :
    (ray.at t).length2 =
      ray.dir.length2 * t ^ 2 + (2 * ray.dir.dot ray.origin) * t +
        (ray.origin.length2 - 1) + 1 := by
  simp only [Ray.at, V3.length2, V3.dot, V3.add_def, V3.smul]
  ring

theorem quad_root_of_eq {a b c s t : ℝ} (ha : a ≠ 0) (hs : s ^ 2 = b ^ 2 - 4 * a * c)
    (ht : t = (-b + s) / (2 * a) ∨ t = (-b - s) / (2 * a)) :
    a * t ^ 2 + b * t + c = 0 := by
  rcases ht with ht | ht <;> subst ht <;> field_simp <;> nlinarith [hs]

theorem quad_eq_of_root {a b c s t : ℝ} (ha : a ≠ 0) (hs : s ^ 2 = b ^ 2 - 4 * a * c)
    (ht : a * t ^ 2 + b * t + c = 0) :
    t = (-b + s) / (2 * a) ∨ t = (-b - s) / (2 * a) := by
  have key : (t - (-b + s) / (2 * a)) * (t - (-b - s) / (2 * a)) = 0 := by
    field_simp
    linear_combination (4 * a) * ht - hs
  rcases mul_eq_zero.mp key with h | h
  · exact Or.inl (by linarith [sub_eq_zero.mp h])
  · exact Or.inr (by linarith [sub_eq_zero.mp h])

theorem quad_disc_nonneg {a b c t : ℝ} (ht : a * t ^ 2 + b * t + c = 0) :
    0 ≤ b ^ 2 - 4 * a * c := by
  have h : b ^ 2 - 4 * a * c = (2 * a * t + b) ^ 2 := by
    linear_combination (-4 * a) * ht
  rw [h]
  positivity

theorem V3.length2_nonneg (v : V3 ℝ) : 0 ≤ v.length2 := by
  have h : v.length2 = v.x ^ 2 + v.y ^ 2 + v.z ^ 2 := by
    simp only [V3.length2]
    ring
  rw [h]
  positivity

theorem V3.ext3 {α : Type} {a b : V3 α} (hx : a.x = b.x) (hy : a.y = b.y)
    (hz : a.z = b.z) : a = b := by
  cases a
  cases b
  cases hx
  cases hy
  cases hz
  rfl

theorem V3.length2_pos {v : V3 ℝ} (hv : v ≠ V3.zero) : 0 < v.length2 := by
  rcases lt_or_eq_of_le v.length2_nonneg with h | h
  · exact h
  · exfalso
    apply hv
    simp only [V3.length2] at h
    have hx : v.x = 0 := by nlinarith [sq_nonneg v.x, sq_nonneg v.y, sq_nonneg v.z]
    have hy : v.y = 0 := by nlinarith [sq_nonneg v.x, sq_nonneg v.y, sq_nonneg v.z]
    have hz : v.z = 0 := by nlinarith [sq_nonneg v.x, sq_nonneg v.y, sq_nonneg v.z]
    exact V3.ext3 hx hy hz

theorem V3.normalize_of_length2_one {v : V3 ℝ} (hv : v.length2 = 1) :
    v.normalize = v := by
  have h1 : v.norm = 1 := by rw [V3.norm, hv, Real.sqrt_one]
  unfold V3.normalize
  rw [h1]
  cases v
  simp only [V3.smul, inv_one, one_mul]

/-- Root selection of `Sphere::intersect`: when it reports a time, that time
is the closest sphere hit at or after `t_min`; when it reports none, there
is no sphere hit at or after `t_min`. -/
theorem sphereT_spec (ray : Ray ℝ) (t_min : ℝ) (hdir : ray.dir ≠ V3.zero) :
    (∀ t, sphereT ray t_min = some t →
        sphereHitAt ray t ∧ t_min ≤ t ∧
          ∀ t', sphereHitAt ray t' → t_min ≤ t' → t ≤ t') ∧
    (sphereT ray t_min = none → ∀ t', sphereHitAt ray t' → ¬ t_min ≤ t') := by
  have ha : 0 < ray.dir.length2 := V3.length2_pos hdir
  simp only [sphereT]
  set a := ray.dir.length2 with ha_def
  set b := 2 * ray.dir.dot ray.origin with hb_def
  set c := ray.origin.length2 - 1 with hc_def
  have hane : a ≠ 0 := ne_of_gt ha
  have hhit : ∀ t, sphereHitAt ray t ↔ a * t ^ 2 + b * t + c = 0 := by
    intro t
    rw [sphereHitAt, sphere_quadratic ray t, ← ha_def, ← hb_def, ← hc_def]
    constructor <;> intro h <;> linarith
  by_cases hd : b * b - 4 * a * c < 0
  · simp only [if_pos hd]
    refine ⟨by intro t h; exact absurd h (by simp), ?_⟩
    intro _ t' hhit' _
    rw [hhit t'] at hhit'
    have := quad_disc_nonneg hhit'
    nlinarith
  · have hd0 : 0 ≤ b * b - 4 * a * c := not_lt.mp hd
    simp only [if_neg hd]
    set ds := Real.sqrt (b * b - 4 * a * c) with hds_def
    have hds0 : 0 ≤ ds := Real.sqrt_nonneg _
    have hds2 : ds ^ 2 = b ^ 2 - 4 * a * c := by
      rw [hds_def, Real.sq_sqrt hd0]
      ring
    set tp := (-b + ds) / (2 * a) with htp_def
    set tm := (-b - ds) / (2 * a) with htm_def
    have hroot_iff : ∀ t, sphereHitAt ray t ↔ (t = tp ∨ t = tm) := by
      intro t
      rw [hhit t]
      constructor
      · intro h
        exact quad_eq_of_root hane hds2 h
      · intro h
        exact quad_root_of_eq hane hds2 h
    have htmtp : tm ≤ tp := by
      rw [htp_def, htm_def]
      have h2a : (0:ℝ) < 2 * a := by linarith
      apply (div_le_div_iff_of_pos_right h2a).mpr
      linarith
    by_cases h1 : tm < t_min
    · by_cases h2 : tp < t_min
      · simp only [if_pos h1, if_pos h2]
        refine ⟨by intro t h; exact absurd h (by simp), ?_⟩
        intro _ t' hhit' hge
        rcases (hroot_iff t').mp hhit' with rfl | rfl <;> linarith
      · simp only [if_pos h1, if_neg h2]
        refine ⟨?_, by intro h; exact absurd h (by simp)⟩
        intro t ht
        obtain rfl : tp = t := by simpa using ht
        refine ⟨(hroot_iff tp).mpr (Or.inl rfl), not_lt.mp h2, ?_⟩
        intro t' hhit' hge
        rcases (hroot_iff t').mp hhit' with rfl | rfl
        · exact le_refl _
        · exact absurd hge (not_le.mpr h1)
    · simp only [if_neg h1]
      refine ⟨?_, by intro h; exact absurd h (by simp)⟩
      intro t ht
      obtain rfl : tm = t := by simpa using ht
      refine ⟨(hroot_iff tm).mpr (Or.inr rfl), not_lt.mp h1, ?_⟩
      intro t' hhit' hge
      rcases (hroot_iff t').mp hhit' with rfl | rfl
      · exact htmtp
      · exact le_refl _

/-- Contract of `Sphere::intersect`: it mutates the record (returning true)
exactly when the sphere is hit in the window `[t_min, record.time)`, and in
that case sets the time to the closest such hit and the normal to the
normalized hit point. -/
theorem sphere_intersect_spec (ray : Ray ℝ) (t_min : ℝ) (rec : HitRec ℝ)
    (hdir : ray.dir ≠ V3.zero) :
    ((sphere_intersect ray t_min rec).1 = false →
      (sphere_intersect ray t_min rec).2 = rec) ∧
    ((sphere_intersect ray t_min rec).1 = true →
      ∃ t, (sphere_intersect ray t_min rec).2 = ⟨FF.fin t, (ray.at t).normalize⟩ ∧
        sphereHitAt ray t ∧ t_min ≤ t ∧ FF.lt (FF.fin t) rec.time = true) ∧
    ((∃ t, sphereHitAt ray t ∧ t_min ≤ t ∧ FF.lt (FF.fin t) rec.time = true) →
      (sphere_intersect ray t_min rec).1 = true) := by
  obtain ⟨hsome, hnone⟩ := sphereT_spec ray t_min hdir
  unfold sphere_intersect
  rcases hT : sphereT ray t_min with _ | t
  · refine ⟨fun _ => rfl, by simp, ?_⟩
    rintro ⟨t', h1, h2, _⟩
    exact absurd h2 (hnone hT t' h1)
  · obtain ⟨hhit, hge, hmin⟩ := hsome t hT
    by_cases hlt : FF.lt (FF.fin t) rec.time = true
    · simp only [hlt, if_true]
      exact ⟨fun h => absurd h (by simp), fun _ => ⟨t, rfl, hhit, hge, hlt⟩,
        fun _ => trivial⟩
    · simp only [Bool.not_eq_true] at hlt
      simp only [hlt, Bool.false_eq_true, if_false]
      refine ⟨fun _ => trivial, fun h => absurd h (by simp), ?_⟩
      rintro ⟨t', h1, h2, h3⟩
      have hmono := ff_lt_fin_mono h3 (hmin t' h1 h2)
      rw [hlt] at hmono
      exact absurd hmono (by simp)

/-- C3: the sphere intersector solves the quadratic and picks the smaller
admissible root (`sphereT`); for a ray starting outside the closed unit
ball with `t_min ≥ 0`, a reported hit has positive time, lies on the unit
sphere within `1e-9`, and the stored normal is the (unit) hit point. -/
theorem c3_sphere_hit_unit (ray : Ray ℝ) (t_min : ℝ) (rec : HitRec ℝ)
    (hdir : ray.dir ≠ V3.zero) (hout : 1 < ray.origin.length2) (htm : 0 ≤ t_min)
    (htrue : (sphere_intersect ray t_min rec).1 = true) :
    ∃ t, (sphere_intersect ray t_min rec).2.time = FF.fin t ∧ 0 < t ∧
      |(ray.at t).norm - 1| ≤ 1e-9 ∧
      (sphere_intersect ray t_min rec).2.normal = ray.at t := by
  obtain ⟨_, hsound, _⟩ := sphere_intersect_spec ray t_min rec hdir
  obtain ⟨t, heq, hhit, hge, _⟩ := hsound htrue
  have hl2 : (ray.at t).length2 = 1 := hhit
  have hnorm1 : (ray.at t).norm = 1 := by rw [V3.norm, hl2, Real.sqrt_one]
  have htpos : 0 < t := by
    rcases lt_or_eq_of_le (le_trans htm hge) with h | h
    · exact h
    · exfalso
      have h0 : ray.at 0 = ray.origin := by
        apply V3.ext3 <;> simp [Ray.at, V3.smul, V3.add_def]
      rw [← h, h0] at hl2
      linarith
  exact ⟨t, by rw [heq], htpos, by rw [hnorm1]; norm_num,
    by rw [heq]; exact V3.normalize_of_length2_one hl2⟩

/-- Witness for C3 at the concrete ray from `(0,0,10)` toward `(0,0,-1)`. -/
theorem c3_sphere_hit_unit_witness :
    (V3.mk (0:ℝ) 0 (-1) ≠ V3.zero) ∧ (1:ℝ) < (V3.mk (0:ℝ) 0 10).length2 ∧
    (∃ t, (sphere_intersect ⟨⟨0,0,10⟩, ⟨0,0,-1⟩⟩ 0 HitRec.new).2.time = FF.fin t ∧
      0 < t ∧ |(Ray.at ⟨⟨0,0,10⟩, ⟨0,0,-1⟩⟩ t).norm - 1| ≤ 1e-9 ∧
      (sphere_intersect ⟨⟨0,0,10⟩, ⟨0,0,-1⟩⟩ 0 HitRec.new).2.normal =
        Ray.at ⟨⟨0,0,10⟩, ⟨0,0,-1⟩⟩ t) := by
  have hdir : (V3.mk (0:ℝ) 0 (-1)) ≠ V3.zero := by
    intro h
    have hz := congrArg V3.z h
    norm_num [V3.zero] at hz
  have hsqrt : Real.sqrt 4 = 2 := by
    rw [show (4:ℝ) = 2 ^ 2 by norm_num, Real.sqrt_sq (by norm_num : (0:ℝ) ≤ 2)]
  have hT : sphereT ⟨⟨0,0,10⟩, ⟨0,0,-1⟩⟩ 0 = some 9 := by
    simp only [sphereT, V3.length2, V3.dot]
    norm_num [hsqrt]
  have htrue : (sphere_intersect ⟨⟨0,0,10⟩, ⟨0,0,-1⟩⟩ 0 HitRec.new).1 = true := by
    unfold sphere_intersect
    rw [hT]
    simp [FF.lt, HitRec.new]
  exact ⟨hdir, by norm_num [V3.length2],
    c3_sphere_hit_unit _ _ _ hdir (by norm_num [V3.length2]) le_rfl htrue⟩

theorem FF.lt_fin_fin {α : Type} [LinearOrderedField α] (a b : α) :
    FF.lt (FF.fin a) (FF.fin b) = decide (a < b) := rfl

theorem FF.div_fin_fin {α : Type} [LinearOrderedField α] (a b : α) (hb : b ≠ 0) :
    FF.div (FF.fin a) (FF.fin b) = FF.fin (a / b) := by
  simp [FF.div, hb]

theorem V3.nth_at (ray : Ray ℝ) (t : ℝ) (dim : Fin 3) :
    (ray.at t).nth dim = ray.origin.nth dim + t * ray.dir.nth dim := by
  fin_cases dim <;> simp [Ray.at, V3.nth, V3.add_def, V3.smul]

theorem slab_mem_neg {o d lo hi t : ℝ} (hneg : d < 0)
    (hlo : lo * d = 1/2 - o) (hhi : hi * d = -(1:ℝ)/2 - o) :
    (lo ≤ t ∧ t ≤ hi) ↔ |o + t * d| ≤ 1/2 := by
  rw [abs_le]
  constructor
  · rintro ⟨h1, h2⟩
    have p1 : (t - lo) * d ≤ 0 :=
      mul_nonpos_of_nonneg_of_nonpos (by linarith) (le_of_lt hneg)
    have p2 : (hi - t) * d ≤ 0 :=
      mul_nonpos_of_nonneg_of_nonpos (by linarith) (le_of_lt hneg)
    constructor <;> nlinarith
  · rintro ⟨h1, h2⟩
    constructor
    · by_contra hc
      push_neg at hc
      have hp : (lo - t) * d < 0 := mul_neg_of_pos_of_neg (by linarith) hneg
      nlinarith
    · by_contra hc
      push_neg at hc
      have hp : (t - hi) * d < 0 := mul_neg_of_pos_of_neg (by linarith) hneg
      nlinarith

theorem slab_strict_neg {o d lo hi t : ℝ} (hneg : d < 0)
    (hlo : lo * d = 1/2 - o) (hhi : hi * d = -(1:ℝ)/2 - o)
    (h1 : lo < t) (h2 : t < hi) : |o + t * d| < 1/2 := by
  rw [abs_lt]
  have p1 : (t - lo) * d < 0 := mul_neg_of_pos_of_neg (by linarith) hneg
  have p2 : (hi - t) * d < 0 := mul_neg_of_pos_of_neg (by linarith) hneg
  constructor <;> nlinarith

theorem slab_mem_pos {o d lo hi t : ℝ} (hpos : 0 < d)
    (hlo : lo * d = -(1:ℝ)/2 - o) (hhi : hi * d = 1/2 - o) :
    (lo ≤ t ∧ t ≤ hi) ↔ |o + t * d| ≤ 1/2 := by
  rw [abs_le]
  constructor
  · rintro ⟨h1, h2⟩
    have p1 : 0 ≤ (t - lo) * d := mul_nonneg (by linarith) (le_of_lt hpos)
    have p2 : 0 ≤ (hi - t) * d := mul_nonneg (by linarith) (le_of_lt hpos)
    constructor <;> nlinarith
  · rintro ⟨h1, h2⟩
    constructor
    · by_contra hc
      push_neg at hc
      have hp : 0 < (lo - t) * d := mul_pos (by linarith) hpos
      nlinarith
    · by_contra hc
      push_neg at hc
      have hp : 0 < (t - hi) * d := mul_pos (by linarith) hpos
      nlinarith

theorem slab_strict_pos {o d lo hi t : ℝ} (hpos : 0 < d)
    (hlo : lo * d = -(1:ℝ)/2 - o) (hhi : hi * d = 1/2 - o)
    (h1 : lo < t) (h2 : t < hi) : |o + t * d| < 1/2 := by
  rw [abs_lt]
  have p1 : 0 < (t - lo) * d := mul_pos (by linarith) hpos
  have p2 : 0 < (hi - t) * d := mul_pos (by linarith) hpos
  constructor <;> nlinarith

/-- The slab interval of `compute_interval(dim)` in `Cube::intersect`, for a
direction with nonzero component along `dim`. -/
theorem cubeInterval_spec (ray : Ray ℝ) (dim : Fin 3) (hd : ray.dir.nth dim ≠ 0) :
    ∃ lo hi slo shi, cubeInterval ray dim =
        (FF.fin lo, FF.fin hi, V3.setNth V3.zero dim slo, V3.setNth V3.zero dim shi) ∧
      lo ≤ hi ∧ (slo = 1 ∨ slo = -1) ∧ (shi = 1 ∨ shi = -1) ∧
      (ray.at lo).nth dim = slo / 2 ∧ (ray.at hi).nth dim = shi / 2 ∧
      (∀ t, (lo ≤ t ∧ t ≤ hi) ↔ |(ray.at t).nth dim| ≤ 1/2) ∧
      (∀ t, lo < t → t < hi → |(ray.at t).nth dim| < 1/2) := by
  set o := ray.origin.nth dim with ho
  set d := ray.dir.nth dim with hdd
  have hxat : ∀ t : ℝ, (ray.at t).nth dim = o + t * d := fun t => V3.nth_at ray t dim
  have hc1 : ((-(1:ℝ)/2 - o) / d) * d = -(1:ℝ)/2 - o := div_mul_cancel₀ _ hd
  have hc2 : (((1:ℝ)/2 - o) / d) * d = (1:ℝ)/2 - o := div_mul_cancel₀ _ hd
  have hdiff : ((1:ℝ)/2 - o) / d - (-(1:ℝ)/2 - o) / d = 1 / d := by
    rw [div_sub_div_same]
    norm_num
  rcases lt_or_gt_of_ne hd with hneg | hpos
  · have hinv : 1 / d < 0 := one_div_neg.mpr hneg
    have hlt : ((1:ℝ)/2 - o) / d < (-(1:ℝ)/2 - o) / d := by linarith
    refine ⟨((1:ℝ)/2 - o) / d, (-(1:ℝ)/2 - o) / d, 1, -1, ?_, le_of_lt hlt,
      Or.inl rfl, Or.inr rfl, ?_, ?_, ?_, ?_⟩
    · simp only [cubeInterval]
      rw [← ho, ← hdd, FF.div_fin_fin _ _ hd, FF.div_fin_fin _ _ hd, FF.lt_fin_fin]
      rw [if_pos (decide_eq_true hlt)]
    · rw [hxat]
      linarith [hc2]
    · rw [hxat]
      linarith [hc1]
    · intro t
      rw [hxat]
      exact slab_mem_neg hneg hc2 hc1
    · intro t h1 h2
      rw [hxat]
      exact slab_strict_neg hneg hc2 hc1 h1 h2
  · have hinv : 0 < 1 / d := one_div_pos.mpr hpos
    have hlt : (-(1:ℝ)/2 - o) / d < ((1:ℝ)/2 - o) / d := by linarith
    refine ⟨(-(1:ℝ)/2 - o) / d, ((1:ℝ)/2 - o) / d, -1, 1, ?_, le_of_lt hlt,
      Or.inr rfl, Or.inl rfl, ?_, ?_, ?_, ?_⟩
    · simp only [cubeInterval]
      rw [← ho, ← hdd, FF.div_fin_fin _ _ hd, FF.div_fin_fin _ _ hd, FF.lt_fin_fin]
      rw [if_neg (by simp only [decide_eq_true_eq]; exact not_lt.mpr (le_of_lt hlt))]
    · rw [hxat]
      linarith [hc1]
    · rw [hxat]
      linarith [hc2]
    · intro t
      rw [hxat]
      exact slab_mem_pos hpos hc1 hc2
    · intro t h1 h2
      rw [hxat]
      exact slab_strict_pos hpos hc1 hc2 h1 h2

theorem pick_start_spec (a b c : ℝ) (na nb nc : V3 ℝ) :
    ∃ m nm, (if (FF.lt (FF.fin b) (FF.fin a) && FF.lt (FF.fin c) (FF.fin a)) = true
        then (FF.fin a, na)
        else if FF.lt (FF.fin c) (FF.fin b) = true then (FF.fin b, nb)
        else (FF.fin c, nc)) = (FF.fin m, nm) ∧
      m = max a (max b c) ∧
      ((m = a ∧ nm = na) ∨ (m = b ∧ nm = nb) ∨ (m = c ∧ nm = nc)) := by
  simp only [FF.lt_fin_fin, Bool.and_eq_true, decide_eq_true_eq]
  by_cases h1 : b < a ∧ c < a
  · rw [if_pos h1]
    refine ⟨a, na, rfl, ?_, Or.inl ⟨rfl, rfl⟩⟩
    rw [max_eq_left (max_le (le_of_lt h1.1) (le_of_lt h1.2))]
  · rw [if_neg h1]
    push_neg at h1
    by_cases h2 : c < b
    · rw [if_pos (by simpa using h2)]
      refine ⟨b, nb, rfl, ?_, Or.inr (Or.inl ⟨rfl, rfl⟩)⟩
      have hab : a ≤ b := by
        by_cases hba : b < a
        · linarith [h1 hba]
        · exact not_lt.mp hba
      rw [max_eq_left (le_of_lt h2), max_eq_right hab]
    · rw [if_neg (by simpa using h2)]
      refine ⟨c, nc, rfl, ?_, Or.inr (Or.inr ⟨rfl, rfl⟩)⟩
      have hbc : b ≤ c := not_lt.mp h2
      have hac : a ≤ c := by
        by_cases hba : b < a
        · exact h1 hba
        · linarith [not_lt.mp hba]
      rw [max_eq_right hbc, max_eq_right hac]

theorem pick_end_spec (a b c : ℝ) (na nb nc : V3 ℝ) :
    ∃ m nm, (if (FF.lt (FF.fin a) (FF.fin b) && FF.lt (FF.fin a) (FF.fin c)) = true
        then (FF.fin a, na)
        else if FF.lt (FF.fin b) (FF.fin c) = true then (FF.fin b, nb)
        else (FF.fin c, nc)) = (FF.fin m, nm) ∧
      m = min a (min b c) ∧
      ((m = a ∧ nm = na) ∨ (m = b ∧ nm = nb) ∨ (m = c ∧ nm = nc)) := by
  simp only [FF.lt_fin_fin, Bool.and_eq_true, decide_eq_true_eq]
  by_cases h1 : a < b ∧ a < c
  · rw [if_pos h1]
    refine ⟨a, na, rfl, ?_, Or.inl ⟨rfl, rfl⟩⟩
    rw [min_eq_left (le_min (le_of_lt h1.1) (le_of_lt h1.2))]
  · rw [if_neg h1]
    push_neg at h1
    by_cases h2 : b < c
    · rw [if_pos (by simpa using h2)]
      refine ⟨b, nb, rfl, ?_, Or.inr (Or.inl ⟨rfl, rfl⟩)⟩
      have hba : b ≤ a := by
        by_cases hab : a < b
        · linarith [h1 hab]
        · exact not_lt.mp hab
      rw [min_eq_left (le_of_lt h2), min_eq_right hba]
    · rw [if_neg (by simpa using h2)]
      refine ⟨c, nc, rfl, ?_, Or.inr (Or.inr ⟨rfl, rfl⟩)⟩
      have hcb : c ≤ b := not_lt.mp h2
      have hca : c ≤ a := by
        by_cases hab : a < b
        · exact h1 hab
        · linarith [not_lt.mp hab]
      rw [min_eq_right hcb, min_eq_right hca]

theorem V3.nth_zero {α : Type} (v : V3 α) : v.nth 0 = v.x := rfl

theorem V3.nth_one {α : Type} (v : V3 α) : v.nth 1 = v.y := rfl

theorem V3.nth_two {α : Type} (v : V3 α) : v.nth 2 = v.z := rfl

/-- Contract of `Cube::intersect` for rays with no axis-parallel direction
component: it mutates the record (returning true) exactly when the cube
boundary is hit in the window `[t_min, record.time)`; a reported hit lies on
the boundary and the stored normal is the outward axis-aligned unit normal
of a face containing the hit point. -/
theorem cube_intersect_spec (ray : Ray ℝ) (t_min : ℝ) (rec : HitRec ℝ)
    (hdx : ray.dir.x ≠ 0) (hdy : ray.dir.y ≠ 0) (hdz : ray.dir.z ≠ 0) :
    ((cube_intersect ray t_min rec).1 = false →
      (cube_intersect ray t_min rec).2 = rec) ∧
    ((cube_intersect ray t_min rec).1 = true →
      ∃ t dim s, (cube_intersect ray t_min rec).2 =
          ⟨FF.fin t, V3.setNth V3.zero dim s⟩ ∧
        cubeHitAt ray t ∧ t_min ≤ t ∧ FF.lt (FF.fin t) rec.time = true ∧
        (s = 1 ∨ s = -1) ∧ (ray.at t).nth dim = s / 2) ∧
    ((∃ t, cubeHitAt ray t ∧ t_min ≤ t ∧ FF.lt (FF.fin t) rec.time = true) →
      (cube_intersect ray t_min rec).1 = true) := by
  obtain ⟨lox, hix, sx1, sx2, hXeq, hXle, hsx1, hsx2, hXlo, hXhi, hXmem, hXstrict⟩ :=
    cubeInterval_spec ray 0 hdx
  obtain ⟨loy, hiy, sy1, sy2, hYeq, hYle, hsy1, hsy2, hYlo, hYhi, hYmem, hYstrict⟩ :=
    cubeInterval_spec ray 1 hdy
  obtain ⟨loz, hiz, sz1, sz2, hZeq, hZle, hsz1, hsz2, hZlo, hZhi, hZmem, hZstrict⟩ :=
    cubeInterval_spec ray 2 hdz
  obtain ⟨st, nst, hSpick, hSmax, hScase⟩ :=
    pick_start_spec lox loy loz (V3.setNth V3.zero 0 sx1) (V3.setNth V3.zero 1 sy1)
      (V3.setNth V3.zero 2 sz1)
  obtain ⟨en, nen, hEpick, hEmin, hEcase⟩ :=
    pick_end_spec hix hiy hiz (V3.setNth V3.zero 0 sx2) (V3.setNth V3.zero 1 sy2)
      (V3.setNth V3.zero 2 sz2)
  have hmem : ∀ t, (st ≤ t ∧ t ≤ en) ↔ inCube (ray.at t) := by
    intro t
    rw [hSmax, hEmin, max_le_iff, max_le_iff, le_min_iff, le_min_iff]
    unfold inCube
    rw [← V3.nth_zero, ← V3.nth_one, ← V3.nth_two]
    constructor
    · rintro ⟨⟨h1, h2, h3⟩, h4, h5, h6⟩
      exact ⟨(hXmem t).mp ⟨h1, h4⟩, (hYmem t).mp ⟨h2, h5⟩, (hZmem t).mp ⟨h3, h6⟩⟩
    · rintro ⟨h1, h2, h3⟩
      obtain ⟨a1, a2⟩ := (hXmem t).mpr h1
      obtain ⟨b1, b2⟩ := (hYmem t).mpr h2
      obtain ⟨c1, c2⟩ := (hZmem t).mpr h3
      exact ⟨⟨a1, b1, c1⟩, a2, b2, c2⟩
  have hlox_st : lox ≤ st := by rw [hSmax]; exact le_max_left _ _
  have hloy_st : loy ≤ st := by
    rw [hSmax]; exact le_trans (le_max_left _ _) (le_max_right _ _)
  have hloz_st : loz ≤ st := by
    rw [hSmax]; exact le_trans (le_max_right _ _) (le_max_right _ _)
  have hen_hix : en ≤ hix := by rw [hEmin]; exact min_le_left _ _
  have hen_hiy : en ≤ hiy := by
    rw [hEmin]; exact le_trans (min_le_right _ _) (min_le_left _ _)
  have hen_hiz : en ≤ hiz := by
    rw [hEmin]; exact le_trans (min_le_right _ _) (min_le_right _ _)
  have hstrict : ∀ t, st < t → t < en → ¬ cubeHitAt ray t := by
    intro t h1 h2 hc
    have hx := hXstrict t (lt_of_le_of_lt hlox_st h1) (lt_of_lt_of_le h2 hen_hix)
    have hy := hYstrict t (lt_of_le_of_lt hloy_st h1) (lt_of_lt_of_le h2 hen_hiy)
    have hz := hZstrict t (lt_of_le_of_lt hloz_st h1) (lt_of_lt_of_le h2 hen_hiz)
    rw [V3.nth_zero] at hx
    rw [V3.nth_one] at hy
    rw [V3.nth_two] at hz
    rcases hc.2 with h | h | h <;> linarith [le_of_eq h]
  have hboundary_cases : ∀ t, cubeHitAt ray t →
      (st ≤ t ∧ t ≤ en) ∧ (t = st ∨ t = en) := by
    intro t ht
    have hm := (hmem t).mpr ht.1
    refine ⟨hm, ?_⟩
    rcases lt_or_eq_of_le hm.1 with h1 | h1
    · rcases lt_or_eq_of_le hm.2 with h2 | h2
      · exact absurd ht (hstrict t h1 h2)
      · exact Or.inr h2
    · exact Or.inl h1.symm
  have habs_half : ∀ s : ℝ, (s = 1 ∨ s = -1) → |s / 2| = 1/2 := by
    rintro s (rfl | rfl) <;> norm_num
  have hst_boundary : st ≤ en → cubeHitAt ray st := by
    intro hse
    refine ⟨(hmem st).mp ⟨le_refl _, hse⟩, ?_⟩
    rw [← V3.nth_zero, ← V3.nth_one, ← V3.nth_two]
    rcases hScase with ⟨h, _⟩ | ⟨h, _⟩ | ⟨h, _⟩
    · exact Or.inl (by rw [h, hXlo]; exact habs_half _ hsx1)
    · exact Or.inr (Or.inl (by rw [h, hYlo]; exact habs_half _ hsy1))
    · exact Or.inr (Or.inr (by rw [h, hZlo]; exact habs_half _ hsz1))
  have hen_boundary : st ≤ en → cubeHitAt ray en := by
    intro hse
    refine ⟨(hmem en).mp ⟨hse, le_refl _⟩, ?_⟩
    rw [← V3.nth_zero, ← V3.nth_one, ← V3.nth_two]
    rcases hEcase with ⟨h, _⟩ | ⟨h, _⟩ | ⟨h, _⟩
    · exact Or.inl (by rw [h, hXhi]; exact habs_half _ hsx2)
    · exact Or.inr (Or.inl (by rw [h, hYhi]; exact habs_half _ hsy2))
    · exact Or.inr (Or.inr (by rw [h, hZhi]; exact habs_half _ hsz2))
  have hst_normal : ∃ dim s, nst = V3.setNth V3.zero dim s ∧ (s = 1 ∨ s = -1) ∧
      (ray.at st).nth dim = s / 2 := by
    rcases hScase with ⟨h, hn⟩ | ⟨h, hn⟩ | ⟨h, hn⟩
    · exact ⟨0, sx1, hn, hsx1, by rw [h, hXlo]⟩
    · exact ⟨1, sy1, hn, hsy1, by rw [h, hYlo]⟩
    · exact ⟨2, sz1, hn, hsz1, by rw [h, hZlo]⟩
  have hen_normal : ∃ dim s, nen = V3.setNth V3.zero dim s ∧ (s = 1 ∨ s = -1) ∧
      (ray.at en).nth dim = s / 2 := by
    rcases hEcase with ⟨h, hn⟩ | ⟨h, hn⟩ | ⟨h, hn⟩
    · exact ⟨0, sx2, hn, hsx2, by rw [h, hXhi]⟩
    · exact ⟨1, sy2, hn, hsy2, by rw [h, hYhi]⟩
    · exact ⟨2, sz2, hn, hsz2, by rw [h, hZhi]⟩
  simp only [cube_intersect, hXeq, hYeq, hZeq]
  rw [hSpick, hEpick]
  by_cases h1 : (FF.lt (FF.fin en) (FF.fin st) || FF.lt (FF.fin en) (FF.fin t_min)) = true
  · rw [if_pos h1]
    simp only [FF.lt_fin_fin, Bool.or_eq_true, decide_eq_true_eq] at h1
    refine ⟨fun _ => rfl, fun h => absurd h (by simp), ?_⟩
    rintro ⟨t₀, hhit, hge, _⟩
    obtain ⟨⟨hm1, hm2⟩, _⟩ := hboundary_cases t₀ hhit
    rcases h1 with h | h <;> linarith
  · rw [if_neg h1]
    simp only [FF.lt_fin_fin, Bool.or_eq_true, decide_eq_true_eq, not_or] at h1
    obtain ⟨hns, hnt⟩ := h1
    have hse : st ≤ en := not_lt.mp hns
    have hent : t_min ≤ en := not_lt.mp hnt
    by_cases h2 : FF.lt (FF.fin st) (FF.fin t_min) = true
    · rw [if_pos h2]
      simp only [FF.lt_fin_fin, decide_eq_true_eq] at h2
      by_cases h3 : FF.lt (FF.fin en) rec.time = true
      · rw [if_pos h3]
        refine ⟨fun h => absurd h (by simp), fun _ => ?_, fun _ => rfl⟩
        obtain ⟨dim, s, hn, hs, hcoord⟩ := hen_normal
        exact ⟨en, dim, s, by rw [hn], hen_boundary hse, hent, h3, hs, hcoord⟩
      · rw [if_neg h3]
        refine ⟨fun _ => rfl, fun h => absurd h (by simp), ?_⟩
        rintro ⟨t₀, hhit, hge, hw⟩
        obtain ⟨⟨hm1, hm2⟩, hcases⟩ := hboundary_cases t₀ hhit
        rcases hcases with rfl | rfl
        · linarith
        · exact absurd hw h3
    · rw [if_neg h2]
      simp only [FF.lt_fin_fin, decide_eq_true_eq, not_lt] at h2
      by_cases h3 : FF.lt (FF.fin st) rec.time = true
      · rw [if_pos h3]
        refine ⟨fun h => absurd h (by simp), fun _ => ?_, fun _ => rfl⟩
        obtain ⟨dim, s, hn, hs, hcoord⟩ := hst_normal
        exact ⟨st, dim, s, by rw [hn], hst_boundary hse, h2, h3, hs, hcoord⟩
      · rw [if_neg h3]
        refine ⟨fun _ => rfl, fun h => absurd h (by simp), ?_⟩
        rintro ⟨t₀, hhit, hge, hw⟩
        obtain ⟨⟨hm1, hm2⟩, _⟩ := hboundary_cases t₀ hhit
        exact absurd (ff_lt_fin_mono hw hm1) h3

theorem V3.dot_at (normal : V3 ℝ) (ray : Ray ℝ) (t : ℝ) :
    V3.dot (ray.at t) normal =
      V3.dot normal ray.origin + t * V3.dot normal ray.dir := by
  simp only [Ray.at, V3.dot, V3.add_def, V3.smul]
  ring

/-- Contract of `Plane::intersect` for rays that are not near-parallel to
the plane (`|normal • dir| ≥ 1e-8`). -/
theorem plane_intersect_spec (normal : V3 ℝ) (value : ℝ) (ray : Ray ℝ)
    (t_min : ℝ) (rec : HitRec ℝ) (hcos : 1e-8 ≤ |V3.dot normal ray.dir|) :
    ((plane_intersect normal value ray t_min rec).1 = false →
      (plane_intersect normal value ray t_min rec).2 = rec) ∧
    ((plane_intersect normal value ray t_min rec).1 = true →
      ∃ t, (plane_intersect normal value ray t_min rec).2 =
          ⟨FF.fin t, V3.smul (-(if 0 ≤ V3.dot normal ray.dir then (1:ℝ) else -1))
            normal.normalize⟩ ∧
        planeHitAt normal value ray t ∧ t_min ≤ t ∧
        FF.lt (FF.fin t) rec.time = true) ∧
    ((∃ t, planeHitAt normal value ray t ∧ t_min ≤ t ∧
        FF.lt (FF.fin t) rec.time = true) →
      (plane_intersect normal value ray t_min rec).1 = true) := by
  have hne : V3.dot normal ray.dir ≠ 0 := by
    intro h
    rw [h] at hcos
    norm_num at hcos
  have huniq : ∀ t, planeHitAt normal value ray t ↔
      t = (value - V3.dot normal ray.origin) / V3.dot normal ray.dir := by
    intro t
    rw [planeHitAt, V3.dot_at, eq_div_iff hne]
    constructor <;> intro h <;> linarith [mul_comm t (V3.dot normal ray.dir)]
  simp only [plane_intersect]
  rw [if_neg (not_lt.mpr hcos)]
  by_cases hc : t_min ≤ (value - V3.dot normal ray.origin) / V3.dot normal ray.dir ∧
      FF.lt (FF.fin ((value - V3.dot normal ray.origin) / V3.dot normal ray.dir))
        rec.time = true
  · rw [if_pos hc]
    refine ⟨fun h => absurd h (by simp), fun _ => ?_, fun _ => rfl⟩
    exact ⟨_, rfl, (huniq _).mpr rfl, hc.1, hc.2⟩
  · rw [if_neg hc]
    refine ⟨fun _ => rfl, fun h => absurd h (by simp), ?_⟩
    rintro ⟨t, hhit, hge, hw⟩
    obtain rfl := (huniq t).mp hhit
    exact absurd ⟨hge, hw⟩ hc

/-- C2 counterexample: `c2Ray` is a unit-direction ray that hits the plane
`x • (0,0,1) = 0` at `c2T ∈ [0, ∞)`, yet `Plane::intersect` returns false
and leaves the record unchanged, because `|normal • dir| < 1e-8` is treated
as parallel. -/
theorem c2_plane_near_parallel_counterexample :
    V3.length2 c2Ray.dir = 1 ∧
    planeHitAt ⟨0, 0, 1⟩ 0 c2Ray c2T ∧ 0 ≤ c2T ∧
    FF.lt (FF.fin c2T) (HitRec.new (α := ℝ)).time = true ∧
    plane_intersect ⟨0, 0, 1⟩ 0 c2Ray 0 HitRec.new = (false, HitRec.new) := by
  refine ⟨?_, ?_, ?_, ?_, ?_⟩
  · norm_num [c2Ray, V3.length2]
  · norm_num [planeHitAt, c2Ray, c2T, V3.dot, Ray.at, V3.add_def, V3.smul]
  · norm_num [c2T]
  · simp [HitRec.new, FF.lt]
  · simp only [plane_intersect]
    rw [if_pos]
    norm_num [c2Ray, V3.dot]
    rw [abs_of_pos (by norm_num)]
    norm_num

/-- C2 (amended): for the closed-form primitives cited by the claim
(sphere; plane away from its `1e-8` near-parallel cutoff; cube for rays
with no zero direction component), `intersect(ray, t_min, record)` returns
true and mutates the record iff the primitive surface is hit at some
`t ∈ [t_min, record.time)`; a reported time is such a hit with
`record.time` strictly decreased to it, the stored normal is the unit
surface normal there (outward for sphere and cube, viewer-facing for the
plane), and on a false return the record is unchanged. -/
theorem c2_intersect_contract :
    (∀ (ray : Ray ℝ) (t_min : ℝ) (rec : HitRec ℝ), ray.dir ≠ V3.zero →
      ((sphere_intersect ray t_min rec).1 = false →
        (sphere_intersect ray t_min rec).2 = rec) ∧
      ((sphere_intersect ray t_min rec).1 = true →
        ∃ t, (sphere_intersect ray t_min rec).2 =
            ⟨FF.fin t, (ray.at t).normalize⟩ ∧
          sphereHitAt ray t ∧ t_min ≤ t ∧ FF.lt (FF.fin t) rec.time = true) ∧
      ((∃ t, sphereHitAt ray t ∧ t_min ≤ t ∧ FF.lt (FF.fin t) rec.time = true) →
        (sphere_intersect ray t_min rec).1 = true)) ∧
    (∀ (normal : V3 ℝ) (value : ℝ) (ray : Ray ℝ) (t_min : ℝ) (rec : HitRec ℝ),
      1e-8 ≤ |V3.dot normal ray.dir| →
      ((plane_intersect normal value ray t_min rec).1 = false →
        (plane_intersect normal value ray t_min rec).2 = rec) ∧
      ((plane_intersect normal value ray t_min rec).1 = true →
        ∃ t, (plane_intersect normal value ray t_min rec).2 =
            ⟨FF.fin t, V3.smul (-(if 0 ≤ V3.dot normal ray.dir then (1:ℝ) else -1))
              normal.normalize⟩ ∧
          planeHitAt normal value ray t ∧ t_min ≤ t ∧
          FF.lt (FF.fin t) rec.time = true) ∧
      ((∃ t, planeHitAt normal value ray t ∧ t_min ≤ t ∧
          FF.lt (FF.fin t) rec.time = true) →
        (plane_intersect normal value ray t_min rec).1 = true)) ∧
    (∀ (ray : Ray ℝ) (t_min : ℝ) (rec : HitRec ℝ),
      ray.dir.x ≠ 0 → ray.dir.y ≠ 0 → ray.dir.z ≠ 0 →
      ((cube_intersect ray t_min rec).1 = false →
        (cube_intersect ray t_min rec).2 = rec) ∧
      ((cube_intersect ray t_min rec).1 = true →
        ∃ t dim s, (cube_intersect ray t_min rec).2 =
            ⟨FF.fin t, V3.setNth V3.zero dim s⟩ ∧
          cubeHitAt ray t ∧ t_min ≤ t ∧ FF.lt (FF.fin t) rec.time = true ∧
          (s = 1 ∨ s = -1) ∧ (ray.at t).nth dim = s / 2) ∧
      ((∃ t, cubeHitAt ray t ∧ t_min ≤ t ∧ FF.lt (FF.fin t) rec.time = true) →
        (cube_intersect ray t_min rec).1 = true)) :=
  ⟨fun ray t_min rec h => sphere_intersect_spec ray t_min rec h,
   fun n v ray t_min rec h => plane_intersect_spec n v ray t_min rec h,
   fun ray t_min rec hx hy hz => cube_intersect_spec ray t_min rec hx hy hz⟩

/-- Witness for C2: the plane `y = -1` (normal `(0,1,0)`, value `-1`) and
the downward ray from the origin satisfy the non-parallel hypothesis, and
the contract's completeness direction reports the hit at `t = 1`. -/
theorem c2_intersect_contract_witness :
    (1e-8 ≤ |V3.dot (V3.mk (0:ℝ) 1 0) (V3.mk (0:ℝ) (-1) 0)|) ∧
    (plane_intersect ⟨0, 1, 0⟩ (-1) ⟨⟨0, 0, 0⟩, ⟨0, -1, 0⟩⟩ 0 HitRec.new).1 = true := by
  have hcos : (1e-8 : ℝ) ≤ |V3.dot (V3.mk (0:ℝ) 1 0) (V3.mk (0:ℝ) (-1) 0)| := by
    norm_num [V3.dot]
  refine ⟨hcos, ?_⟩
  apply (c2_intersect_contract.2.1 ⟨0, 1, 0⟩ (-1) ⟨⟨0, 0, 0⟩, ⟨0, -1, 0⟩⟩ 0
    HitRec.new hcos).2.2
  refine ⟨1, ?_, by norm_num, by simp [HitRec.new, FF.lt]⟩
  norm_num [planeHitAt, V3.dot, Ray.at, V3.add_def, V3.smul]

/-- C4 (amended): `sample_f` returns `none` exactly on total internal
reflection in the transmitted branch — in particular, samples whose PDF
involves a vanishing denominator are still returned as `some`. -/
theorem c4_sample_f_none_iff_tir (m : Material) (n wo : V3 ℝ) (coin : Bool)
    (u : ℝ) (circ disc : ℝ × ℝ) :
    Material.sample_f m n wo coin u circ disc = none ↔
      (coin = false ∧ m.transparent = true ∧ 1 < m.tirSin2 n wo u circ) := by
  unfold Material.sample_f
  rcases coin with _ | _
  · rcases htr : m.transparent with _ | _
    · simp [htr]
    · simp only [htr, Bool.not_true, Bool.false_eq_true, if_false, if_true]
      by_cases htir : 1 < m.tirSin2 n wo u circ
      · simp [htir]
      · simp [htir]
  · simp

/-- C4 counterexample: a diffuse sample with `wo = -n` and disc draw
`(0,0)` yields `wi = n`, so the returned PDF's specular term divides by
`‖wi + wo‖ = 0` (inside `normalize`) and by `4 |h • wo| = 0`, yet
`sample_f` returns `some` rather than discarding the sample. -/
theorem c4_zero_denominator_counterexample :
    ∃ wi p, Material.sample_f (Material.diffuse ⟨1, 0, 0⟩) ⟨0, 0, 1⟩ ⟨0, 0, -1⟩
        false 1 (1, 0) (0, 0) = some (wi, p) ∧
      V3.norm (wi + ⟨0, 0, -1⟩) = 0 ∧
      |V3.dot (V3.normalize (wi + ⟨0, 0, -1⟩)) ⟨0, 0, -1⟩| = 0 := by
  have hns : V3.normalize ⟨(0:ℝ), -1, 0⟩ = ⟨0, -1, 0⟩ := by
    unfold V3.normalize V3.norm
    norm_num [V3.length2, V3.smul]
  have hwi : local_to_world ⟨0, 0, 1⟩ ⟨(0:ℝ), 0, Real.sqrt (1 - 0 * 0 - 0 * 0)⟩ =
      (⟨0, 0, 1⟩ : V3 ℝ) := by
    unfold local_to_world
    rw [if_neg (by norm_num)]
    rw [show (⟨0, -(1:ℝ), 0⟩ : V3 ℝ) = ⟨(0:ℝ), -1, 0⟩ from rfl, hns]
    apply V3.ext3 <;> norm_num [V3.cross, V3.smul, V3.add_def]
  have hzero : (⟨(0:ℝ), 0, 1⟩ : V3 ℝ) + ⟨0, 0, -1⟩ = ⟨0, 0, 0⟩ := by
    apply V3.ext3 <;> norm_num [V3.add_def]
  have hnorm0 : V3.norm (⟨(0:ℝ), 0, 0⟩ : V3 ℝ) = 0 := by
    unfold V3.norm
    norm_num [V3.length2]
  have hnormalize0 : V3.normalize (⟨(0:ℝ), 0, 0⟩ : V3 ℝ) = ⟨0, 0, 0⟩ := by
    unfold V3.normalize
    norm_num [hnorm0, V3.smul]
  have heval : ∃ p, Material.sample_f (Material.diffuse ⟨1, 0, 0⟩) ⟨0, 0, 1⟩
      ⟨0, 0, -1⟩ false 1 (1, 0) (0, 0) = some (⟨0, 0, 1⟩, p) := by
    unfold Material.sample_f
    simp only [Material.diffuse, Bool.not_false, Bool.false_eq_true, if_false, if_true]
    rw [hwi]
    exact ⟨_, rfl⟩
  obtain ⟨p, hp⟩ := heval
  refine ⟨⟨0, 0, 1⟩, p, hp, by rw [hzero, hnorm0], ?_⟩
  rw [hzero, hnormalize0]
  norm_num [V3.dot]

theorem vsum_aux (ps : List (V3 ℝ)) (acc : V3 ℝ) :
    ps.foldl (· + ·) acc =
      ⟨acc.x + (ps.map V3.x).sum, acc.y + (ps.map V3.y).sum,
       acc.z + (ps.map V3.z).sum⟩ := by
  induction ps generalizing acc with
  | nil => simp
  | cons a l ih =>
      rw [List.foldl_cons, ih]
      apply V3.ext3 <;> simp [V3.add_def] <;> ring

theorem vsum_components (ps : List (V3 ℝ)) :
    vsum ps = ⟨(ps.map V3.x).sum, (ps.map V3.y).sum, (ps.map V3.z).sum⟩ := by
  rw [vsum, vsum_aux]
  apply V3.ext3 <;> simp [V3.zero]

theorem length2_sum_split (m : V3 ℝ) (ps : List (V3 ℝ)) :
    (ps.map (fun s => (s - m).length2)).sum =
      (ps.map (fun s => (s.x - m.x) ^ 2)).sum +
      (ps.map (fun s => (s.y - m.y) ^ 2)).sum +
      (ps.map (fun s => (s.z - m.z) ^ 2)).sum := by
  induction ps with
  | nil => simp
  | cons a l ih =>
      simp only [List.map_cons, List.sum_cons, ih]
      simp only [V3.length2, V3.sub_def]
      ring

theorem variance_fold (L : List (List (V3 ℝ))) (a b : ℝ) :
    L.foldl (fun acc ps => (acc.1 + Buffer.pixVariance ps, acc.2 + 1)) (a, b) =
      (a + (L.map Buffer.pixVariance).sum, b + L.length) := by
  induction L generalizing a b with
  | nil => simp
  | cons p l ih =>
      rw [List.foldl_cons, ih]
      simp
      constructor
      · ring
      · ring

theorem pixVariance_eq_channels (ps : List (V3 ℝ)) :
    Buffer.pixVariance ps =
      scalarVariance (ps.map V3.x) + scalarVariance (ps.map V3.y) +
        scalarVariance (ps.map V3.z) := by
  unfold Buffer.pixVariance scalarVariance
  simp only [vsum_components, List.length_map, List.map_map]
  have hx : ∀ c : ℝ, ((ps.map V3.x).sum / (ps.length : ℝ)) = c →
      True := fun _ _ => trivial
  have hmean : ∀ (l : List ℝ), l.sum / (ps.length : ℝ) =
      ((ps.length : ℝ))⁻¹ * l.sum := by
    intro l
    rw [div_eq_mul_inv, mul_comm]
  rw [length2_sum_split]
  simp only [Function.comp_def]
  rw [hmean (ps.map V3.x), hmean (ps.map V3.y), hmean (ps.map V3.z)]
  simp only [V3.smul]
  rw [add_div, add_div]

/-- C6 (amended): `Buffer::variance` is the mean over pixels of the sum of
the three per-channel sample variances (equivalently `Σ‖s - mean‖²/(n-1)`),
not the variance of the scalar color magnitudes.  The `2 ≤ n` hypothesis
marks the domain on which the exact real model reflects the `f64` code
(with fewer than two samples the code divides `0/0`). -/
theorem c6_variance_eq_channel_variances (samples : List (List (V3 ℝ)))
    (h : ∀ ps ∈ samples, 2 ≤ ps.length) :
    Buffer.variance samples =
      ((samples.map (fun ps => scalarVariance (ps.map V3.x) +
        scalarVariance (ps.map V3.y) + scalarVariance (ps.map V3.z))).sum) /
        (samples.length : ℝ) := by
  clear h
  unfold Buffer.variance
  rw [variance_fold]
  simp only [zero_add]
  congr 1
  exact congrArg List.sum (List.map_congr_left fun ps _ => pixVariance_eq_channels ps)

/-- C6 counterexample: for one pixel with samples `(1,0,0)` and `(0,1,0)`
the code returns 1 (vector variance) while the claimed variance of the
color magnitudes is 0. -/
theorem c6_counterexample :
    Buffer.variance [[⟨1, 0, 0⟩, ⟨0, 1, 0⟩]] = 1 ∧
    specMagVariance [[⟨1, 0, 0⟩, ⟨0, 1, 0⟩]] = 0 ∧
    Buffer.variance [[⟨1, 0, 0⟩, ⟨0, 1, 0⟩]] ≠
      specMagVariance [[⟨1, 0, 0⟩, ⟨0, 1, 0⟩]] := by
  have hc : Buffer.variance [[⟨1, 0, 0⟩, ⟨0, 1, 0⟩]] = 1 := by
    unfold Buffer.variance Buffer.pixVariance vsum
    norm_num [V3.add_def, V3.sub_def, V3.smul, V3.length2, V3.zero]
  have hs : specMagVariance [[⟨1, 0, 0⟩, ⟨0, 1, 0⟩]] = 0 := by
    have h1 : V3.norm ⟨(1:ℝ), 0, 0⟩ = 1 := by
      unfold V3.norm
      norm_num [V3.length2]
    have h2 : V3.norm ⟨(0:ℝ), 1, 0⟩ = 1 := by
      unfold V3.norm
      norm_num [V3.length2]
    unfold specMagVariance scalarVariance
    norm_num [h1, h2]
  exact ⟨hc, hs, by rw [hc, hs]; norm_num⟩

/-- Witness for C6 (amended) at a one-pixel, two-sample buffer. -/
theorem c6_variance_witness :
    (∀ ps ∈ [[V3.mk (1:ℝ) 0 0, V3.mk (0:ℝ) 1 0]], 2 ≤ ps.length) ∧
    Buffer.variance [[⟨1, 0, 0⟩, ⟨0, 1, 0⟩]] =
      (([[V3.mk (1:ℝ) 0 0, V3.mk (0:ℝ) 1 0]].map
        (fun ps => scalarVariance (ps.map V3.x) + scalarVariance (ps.map V3.y) +
          scalarVariance (ps.map V3.z))).sum) / 1 := by
  have h : ∀ ps ∈ [[V3.mk (1:ℝ) 0 0, V3.mk (0:ℝ) 1 0]], 2 ≤ ps.length := by
    intro ps hps
    simp only [List.mem_singleton] at hps
    subst hps
    simp
  refine ⟨h, ?_⟩
  have := c6_variance_eq_channel_variances [[⟨1, 0, 0⟩, ⟨0, 1, 0⟩]] h
  simpa using this

theorem objIntersect_fold (o : SceneObj) (ray : Ray ℝ) (t_min : ℝ) (cur : FF ℝ)
    (l : List ℝ) (acc : Option ℝ)
    (hacc : ∀ b, acc = some b → t_min ≤ b ∧ FF.lt (FF.fin b) cur = true) :
    (∀ b, l.foldl (fun best t =>
        if t_min ≤ t ∧ FF.lt (FF.fin t) cur = true ∧
            (∀ c, best = some c → t < c) then some t else best) acc = some b →
      (t_min ≤ b ∧ FF.lt (FF.fin b) cur = true) ∧ (b ∈ l ∨ acc = some b)) ∧
    (∀ t ∈ l, t_min ≤ t → FF.lt (FF.fin t) cur = true →
      ∃ b, l.foldl (fun best t =>
        if t_min ≤ t ∧ FF.lt (FF.fin t) cur = true ∧
            (∀ c, best = some c → t < c) then some t else best) acc = some b ∧ b ≤ t) ∧
    (∀ b0, acc = some b0 →
      ∃ b, l.foldl (fun best t =>
        if t_min ≤ t ∧ FF.lt (FF.fin t) cur = true ∧
            (∀ c, best = some c → t < c) then some t else best) acc = some b ∧ b ≤ b0) := by
  induction l generalizing acc with
  | nil =>
      refine ⟨?_, ?_, ?_⟩
      · intro b hb
        exact ⟨hacc b hb, Or.inr hb⟩
      · intro t ht
        simp at ht
      · intro b0 hb0
        exact ⟨b0, hb0, le_refl _⟩
  | cons a l ih =>
      by_cases hcond : t_min ≤ a ∧ FF.lt (FF.fin a) cur = true ∧
          (∀ c, acc = some c → a < c)
      · have hstep : ∀ best, best = acc →
            (if t_min ≤ a ∧ FF.lt (FF.fin a) cur = true ∧
              (∀ c, best = some c → a < c) then some a else best) = some a := by
          intro best hb
          subst hb
          rw [if_pos hcond]
        obtain ⟨ih1, ih2, ih3⟩ := ih (some a)
          (by intro b hb; cases hb; exact ⟨hcond.1, hcond.2.1⟩)
        rw [List.foldl_cons, hstep acc rfl] at *
        refine ⟨?_, ?_, ?_⟩
        · intro b hb
          obtain ⟨hq, hmem⟩ := ih1 b hb
          rcases hmem with h | h
          · exact ⟨hq, Or.inl (List.mem_cons_of_mem _ h)⟩
          · cases h
            exact ⟨hq, Or.inl (List.mem_cons_self _ _)⟩
        · intro t ht htm hcur
          rcases List.mem_cons.mp ht with rfl | ht'
          · exact ih3 t rfl
          · exact ih2 t ht' htm hcur
        · intro b0 hb0
          obtain ⟨b, hb, hle⟩ := ih3 a rfl
          refine ⟨b, hb, le_trans hle ?_⟩
          exact le_of_lt (hcond.2.2 b0 hb0)
      · have hstep : (if t_min ≤ a ∧ FF.lt (FF.fin a) cur = true ∧
            (∀ c, acc = some c → a < c) then some a else acc) = acc := by
          rw [if_neg hcond]
        obtain ⟨ih1, ih2, ih3⟩ := ih acc hacc
        rw [List.foldl_cons, hstep] at *
        refine ⟨?_, ?_, ?_⟩
        · intro b hb
          obtain ⟨hq, hmem⟩ := ih1 b hb
          rcases hmem with h | h
          · exact ⟨hq, Or.inl (List.mem_cons_of_mem _ h)⟩
          · exact ⟨hq, Or.inr h⟩
        · intro t ht htm hcur
          rcases List.mem_cons.mp ht with heq | ht'
          · -- the head was skipped: some earlier accumulator is at most `t`
            subst heq
            have hex : ∃ c, acc = some c ∧ c ≤ t := by
              rcases hq : acc with _ | c
              · exfalso
                apply hcond
                refine ⟨htm, hcur, ?_⟩
                intro d hd
                rw [hq] at hd
                exact Option.noConfusion hd
              · by_cases hlt : t < c
                · exfalso
                  apply hcond
                  refine ⟨htm, hcur, ?_⟩
                  intro d hd
                  rw [hq] at hd
                  injection hd with hd'
                  rw [← hd']
                  exact hlt
                · exact ⟨c, rfl, not_lt.mp hlt⟩
            obtain ⟨c, hc, hlec⟩ := hex
            obtain ⟨b, hb, hble⟩ := ih3 c hc
            exact ⟨b, hb, le_trans hble hlec⟩
          · exact ih2 t ht' htm hcur
        · exact ih3

theorem FF.lt_fin_pinf {α : Type} [LinearOrderedField α] (a : α) :
    FF.lt (FF.fin a) FF.pinf = true := rfl

theorem objIntersect_spec (o : SceneObj) (ray : Ray ℝ) (t_min : ℝ) (cur : FF ℝ) :
    (∀ b, objIntersect o ray t_min cur = some b →
      (t_min ≤ b ∧ FF.lt (FF.fin b) cur = true) ∧ b ∈ o.hits ray) ∧
    (∀ t ∈ o.hits ray, t_min ≤ t → FF.lt (FF.fin t) cur = true →
      ∃ b, objIntersect o ray t_min cur = some b ∧ b ≤ t) := by
  obtain ⟨h1, h2, _⟩ := objIntersect_fold o ray t_min cur (o.hits ray) none
    (fun b hb => Option.noConfusion hb)
  refine ⟨fun b hb => ?_, h2⟩
  obtain ⟨hq, hmem⟩ := h1 b hb
  rcases hmem with h | h
  · exact ⟨hq, h⟩
  · exact Option.noConfusion h

theorem sceneHits_cons (o : SceneObj) (objs : List SceneObj) (ray : Ray ℝ) :
    sceneHits (o :: objs) ray = o.hits ray ++ sceneHits objs ray := by
  simp [sceneHits]

theorem getClosestHit_fold (objs : List SceneObj) (ray : Ray ℝ) (acc : Option ℝ)
    (hacc : ∀ b, acc = some b → EPSILON ≤ b) :
    (∀ b, objs.foldl (fun acc o =>
        match objIntersect o ray EPSILON
            (match acc with | none => FF.pinf | some t => FF.fin t) with
        | some t => some t
        | none => acc) acc = some b →
      EPSILON ≤ b ∧ (b ∈ sceneHits objs ray ∨ acc = some b)) ∧
    (∀ t ∈ sceneHits objs ray, EPSILON ≤ t →
      ∃ b, objs.foldl (fun acc o =>
        match objIntersect o ray EPSILON
            (match acc with | none => FF.pinf | some t => FF.fin t) with
        | some t => some t
        | none => acc) acc = some b ∧ b ≤ t) ∧
    (∀ b0, acc = some b0 →
      ∃ b, objs.foldl (fun acc o =>
        match objIntersect o ray EPSILON
            (match acc with | none => FF.pinf | some t => FF.fin t) with
        | some t => some t
        | none => acc) acc = some b ∧ b ≤ b0) := by
  induction objs generalizing acc with
  | nil =>
      refine ⟨?_, ?_, ?_⟩
      · intro b hb
        exact ⟨hacc b hb, Or.inr hb⟩
      · intro t ht
        simp [sceneHits] at ht
      · intro b0 hb0
        exact ⟨b0, hb0, le_refl _⟩
  | cons o objs ih =>
      set cur := (match acc with | none => FF.pinf | some t => FF.fin t) with hcur
      obtain ⟨os1, os2⟩ := objIntersect_spec o ray EPSILON cur
      rcases hinner : objIntersect o ray EPSILON cur with _ | t'
      all_goals (
        first
        | (have hacc' : ∀ b, acc = some b → EPSILON ≤ b := hacc)
        | skip)
      · -- inner intersect found nothing: accumulator unchanged
        obtain ⟨ih1, ih2, ih3⟩ := ih acc hacc
        have hfold : (o :: objs).foldl (fun acc o =>
            match objIntersect o ray EPSILON
                (match acc with | none => FF.pinf | some t => FF.fin t) with
            | some t => some t
            | none => acc) acc = objs.foldl (fun acc o =>
            match objIntersect o ray EPSILON
                (match acc with | none => FF.pinf | some t => FF.fin t) with
            | some t => some t
            | none => acc) acc := by
          rw [List.foldl_cons, ← hcur, hinner]
        rw [hfold]
        refine ⟨?_, ?_, ih3⟩
        · intro b hb
          obtain ⟨he, hmem⟩ := ih1 b hb
          refine ⟨he, ?_⟩
          rcases hmem with h | h
          · exact Or.inl (by rw [sceneHits_cons]; exact List.mem_append_right _ h)
          · exact Or.inr h
        · intro t ht hte
          rw [sceneHits_cons] at ht
          rcases List.mem_append.mp ht with hto | hts
          · -- a hit of `o` at time `t ≥ EPSILON` but the inner call found
            -- nothing: the window must exclude it, so `acc` is at most `t`
            rcases hq : acc with _ | b0
            · exfalso
              rw [hq] at hcur
              obtain ⟨b, hb, _⟩ := os2 t hto hte (by rw [hcur]; exact FF.lt_fin_pinf t)
              rw [hinner] at hb
              exact Option.noConfusion hb
            · rw [hq] at hcur
              by_cases hlt : t < b0
              · exfalso
                obtain ⟨b, hb, _⟩ := os2 t hto hte
                  (by rw [hcur, FF.lt_fin_fin]; exact decide_eq_true hlt)
                rw [hinner] at hb
                exact Option.noConfusion hb
              · obtain ⟨b, hb, hble⟩ := ih3 b0 hq
                rw [hq] at hb
                exact ⟨b, hb, le_trans hble (not_lt.mp hlt)⟩
          · exact ih2 t hts hte
      · -- inner intersect found `t'`: accumulator becomes `some t'`
        have ht'q := (os1 t' hinner).1
        have ht'mem := (os1 t' hinner).2
        obtain ⟨ih1, ih2, ih3⟩ := ih (some t') (by
          intro b hb
          injection hb with hb'
          rw [← hb']
          exact ht'q.1)
        have hfold : (o :: objs).foldl (fun acc o =>
            match objIntersect o ray EPSILON
                (match acc with | none => FF.pinf | some t => FF.fin t) with
            | some t => some t
            | none => acc) acc = objs.foldl (fun acc o =>
            match objIntersect o ray EPSILON
                (match acc with | none => FF.pinf | some t => FF.fin t) with
            | some t => some t
            | none => acc) (some t') := by
          rw [List.foldl_cons, ← hcur, hinner]
        rw [hfold]
        refine ⟨?_, ?_, ?_⟩
        · intro b hb
          obtain ⟨he, hmem⟩ := ih1 b hb
          refine ⟨he, ?_⟩
          rcases hmem with h | h
          · exact Or.inl (by rw [sceneHits_cons]; exact List.mem_append_right _ h)
          · injection h with h'
            rw [← h']
            exact Or.inl (by rw [sceneHits_cons]; exact List.mem_append_left _ ht'mem)
        · intro t ht hte
          rw [sceneHits_cons] at ht
          rcases List.mem_append.mp ht with hto | hts
          · rcases hq : acc with _ | b0
            · rw [hq] at hcur
              obtain ⟨b, hb, hble⟩ := os2 t hto hte (by rw [hcur]; exact FF.lt_fin_pinf t)
              rw [hinner] at hb
              injection hb with hb'
              obtain ⟨c, hc, hcle⟩ := ih3 t' rfl
              exact ⟨c, hc, le_trans hcle (by rw [hb']; exact hble)⟩
            · rw [hq] at hcur
              by_cases hlt : t < b0
              · obtain ⟨b, hb, hble⟩ := os2 t hto hte
                  (by rw [hcur, FF.lt_fin_fin]; exact decide_eq_true hlt)
                rw [hinner] at hb
                injection hb with hb'
                obtain ⟨c, hc, hcle⟩ := ih3 t' rfl
                exact ⟨c, hc, le_trans hcle (by rw [hb']; exact hble)⟩
              · -- t' < b0 ≤ t by the window, so the new accumulator is below t
                have ht'lt : t' < b0 := by
                  have := ht'q.2
                  rw [hcur, FF.lt_fin_fin] at this
                  exact of_decide_eq_true this
                obtain ⟨c, hc, hcle⟩ := ih3 t' rfl
                exact ⟨c, hc, le_trans hcle (le_trans (le_of_lt ht'lt) (not_lt.mp hlt))⟩
          · exact ih2 t hts hte
        · intro b0 hb0
          rw [hb0] at hcur
          have ht'lt : t' < b0 := by
            have := ht'q.2
            rw [hcur, FF.lt_fin_fin] at this
            exact of_decide_eq_true this
          obtain ⟨c, hc, hcle⟩ := ih3 t' rfl
          exact ⟨c, hc, le_trans hcle (le_of_lt ht'lt)⟩

theorem getClosestHit_spec (objs : List SceneObj) (ray : Ray ℝ) :
    (∀ b, getClosestHit objs ray = some b →
      EPSILON ≤ b ∧ b ∈ sceneHits objs ray ∧
        ∀ t ∈ sceneHits objs ray, EPSILON ≤ t → b ≤ t) ∧
    (getClosestHit objs ray = none → ∀ t ∈ sceneHits objs ray, ¬ EPSILON ≤ t) := by
  obtain ⟨h1, h2, _⟩ := getClosestHit_fold objs ray none
    (fun b hb => Option.noConfusion hb)
  unfold getClosestHit
  constructor
  · intro b hb
    obtain ⟨he, hmem⟩ := h1 b hb
    rcases hmem with h | h
    · refine ⟨he, h, ?_⟩
      intro t ht hte
      obtain ⟨c, hc, hcle⟩ := h2 t ht hte
      rw [hb] at hc
      injection hc with hc'
      rw [hc']
      exact hcle
    · exact Option.noConfusion h
  · intro hnone t ht hte
    obtain ⟨c, hc, _⟩ := h2 t ht hte
    rw [hnone] at hc
    exact Option.noConfusion hc

theorem ff_lt_fin_antimono {w : FF ℝ} {b t : ℝ}
    (h : FF.lt w (FF.fin t) = false) (hle : b ≤ t) :
    FF.lt w (FF.fin b) = false := by
  cases w <;> simp_all [FF.lt]
  linarith

/-- C5 (amended): in `sample_lights`, for every non-ambient light the
contribution `bsdf ⊙ intensity · (wi • n)` is added iff the shadow ray
finds no occluder at a time at or before the light's distance (ties with
the light's exact distance block the light); when the light's distance is
infinite (directional lights) the contribution is added iff the shadow ray
hits nothing at all. -/
theorem c5_shadow_test (bsdf : V3 ℝ → V3 ℝ) (mcolor : V3 ℝ)
    (objs : List SceneObj) (l : Light) (pos n : V3 ℝ)
    (hna : l.isAmbient = false) :
    ((∀ t ∈ sceneHits objs ⟨pos, (l.illuminate pos).2.1⟩, EPSILON ≤ t →
        FF.lt (l.illuminate pos).2.2 (FF.fin t) = true) →
      lightContrib bsdf mcolor objs l pos n =
        lightTerm bsdf (l.illuminate pos).1 (l.illuminate pos).2.1 n) ∧
    ((∃ t ∈ sceneHits objs ⟨pos, (l.illuminate pos).2.1⟩, EPSILON ≤ t ∧
        FF.lt (l.illuminate pos).2.2 (FF.fin t) = false) →
      lightContrib bsdf mcolor objs l pos n = V3.zero) ∧
    ((l.illuminate pos).2.2 = FF.pinf →
      lightContrib bsdf mcolor objs l pos n =
        (match getClosestHit objs ⟨pos, (l.illuminate pos).2.1⟩ with
         | none => lightTerm bsdf (l.illuminate pos).1 (l.illuminate pos).2.1 n
         | some _ => V3.zero)) := by
  obtain ⟨hsome, hnone⟩ := getClosestHit_spec objs ⟨pos, (l.illuminate pos).2.1⟩
  have hbody : lightContrib bsdf mcolor objs l pos n =
      (match getClosestHit objs ⟨pos, (l.illuminate pos).2.1⟩ with
       | none => lightTerm bsdf (l.illuminate pos).1 (l.illuminate pos).2.1 n
       | some t =>
           if FF.lt (l.illuminate pos).2.2 (FF.fin t) = true then
             lightTerm bsdf (l.illuminate pos).1 (l.illuminate pos).2.1 n
           else V3.zero) := by
    cases l
    · rfl
    · exact absurd hna (by simp [Light.isAmbient])
    · rfl
    · rfl
  refine ⟨?_, ?_, ?_⟩
  · intro hall
    rw [hbody]
    rcases hg : getClosestHit objs ⟨pos, (l.illuminate pos).2.1⟩ with _ | b
    · rfl
    · obtain ⟨he, hmem, _⟩ := hsome b hg
      show (if FF.lt (l.illuminate pos).2.2 (FF.fin b) = true then
          lightTerm bsdf (l.illuminate pos).1 (l.illuminate pos).2.1 n
        else V3.zero) = _
      rw [if_pos (hall b hmem he)]
  · rintro ⟨t, ht, hte, hlt⟩
    rw [hbody]
    rcases hg : getClosestHit objs ⟨pos, (l.illuminate pos).2.1⟩ with _ | b
    · exact absurd hte (hnone hg t ht)
    · obtain ⟨_, _, hmin⟩ := hsome b hg
      show (if FF.lt (l.illuminate pos).2.2 (FF.fin b) = true then
          lightTerm bsdf (l.illuminate pos).1 (l.illuminate pos).2.1 n
        else V3.zero) = V3.zero
      rw [if_neg (by rw [ff_lt_fin_antimono hlt (hmin t ht hte)]; simp)]
  · intro hinf
    rw [hbody]
    rcases hg : getClosestHit objs ⟨pos, (l.illuminate pos).2.1⟩ with _ | b
    · rfl
    · show (if FF.lt (l.illuminate pos).2.2 (FF.fin b) = true then
          lightTerm bsdf (l.illuminate pos).1 (l.illuminate pos).2.1 n
        else V3.zero) = V3.zero
      rw [if_neg (by rw [hinf]; simp [FF.lt])]

theorem c5_hg (ray : Ray ℝ) :
    getClosestHit [SceneObj.mk (fun _ => [5])] ray = some 5 := by
  simp only [getClosestHit, objIntersect, List.foldl_cons, List.foldl_nil]
  rw [if_pos ⟨by norm_num [EPSILON], by simp [FF.lt], fun b hb => nomatch hb⟩]

theorem c5_len : (V3.norm (⟨0, 0, 5⟩ - V3.zero : V3 ℝ)) = 5 := by
  simp only [V3.norm, V3.sub_def, V3.zero, V3.length2]
  rw [show (5:ℝ) - 0 = 5 by norm_num, show (0:ℝ) - 0 = 0 by norm_num,
    show (0:ℝ)*0 + 0*0 + 5*5 = 5^2 by ring, Real.sqrt_sq (by norm_num : (0:ℝ) ≤ 5)]

/-- C5 (counterexample to the claim's strict reading): a point light at
distance exactly 5 with the single occluder's hit time also exactly 5:
`sample_lights` contributes nothing, while the claim's "no occluder
strictly closer than the light" reading would add the full light term. -/
theorem c5_tie_counterexample :
    sampleLights (fun _ => ⟨1, 1, 1⟩) ⟨1, 1, 1⟩ [SceneObj.mk (fun _ => [5])]
        [Light.point ⟨25, 25, 25⟩ ⟨0, 0, 5⟩] V3.zero ⟨0, 0, 1⟩ = V3.zero ∧
    sampleLightsNoStrictOccluder (fun _ => ⟨1, 1, 1⟩) ⟨1, 1, 1⟩
        [SceneObj.mk (fun _ => [5])]
        [Light.point ⟨25, 25, 25⟩ ⟨0, 0, 5⟩] V3.zero ⟨0, 0, 1⟩ = ⟨1, 1, 1⟩ ∧
    (V3.zero : V3 ℝ) ≠ ⟨1, 1, 1⟩ := by
  refine ⟨?_, ?_, by simp [V3.zero]⟩
  · simp only [sampleLights, List.foldl_cons, List.foldl_nil, lightContrib,
      Light.illuminate, c5_hg]
    rw [if_neg (by rw [c5_len]; simp [FF.lt])]
    simp [V3.zero, V3.add_def]
  · simp only [sampleLightsNoStrictOccluder, List.foldl_cons, List.foldl_nil,
      lightContribNoStrictOccluder, Light.illuminate, c5_hg]
    rw [if_neg (by rw [c5_len]; simp [FF.lt])]
    rw [c5_len]
    apply V3.ext3 <;>
      simp [lightTerm, V3.smul, V3.cmul, V3.dot, V3.sub_def, V3.zero, V3.add_def] <;>
      norm_num

theorem c5_shadow_test_witness :
    (Light.directional ⟨1, 1, 1⟩ ⟨0, 0, -1⟩).isAmbient = false ∧
    lightContrib (fun _ => ⟨1, 1, 1⟩) ⟨1, 1, 1⟩ []
        (Light.directional ⟨1, 1, 1⟩ ⟨0, 0, -1⟩) V3.zero ⟨0, 0, 1⟩ =
      lightTerm (fun _ => ⟨1, 1, 1⟩)
        ((Light.directional ⟨1, 1, 1⟩ ⟨0, 0, -1⟩).illuminate V3.zero).1
        ((Light.directional ⟨1, 1, 1⟩ ⟨0, 0, -1⟩).illuminate V3.zero).2.1
        ⟨0, 0, 1⟩ := by
  refine ⟨rfl, ?_⟩
  exact (c5_shadow_test (fun _ => ⟨1, 1, 1⟩) ⟨1, 1, 1⟩ []
    (Light.directional ⟨1, 1, 1⟩ ⟨0, 0, -1⟩) V3.zero ⟨0, 0, 1⟩ rfl).2.2 rfl

theorem specRMax_fold (ps : List (Photon × ℝ)) (acc : ℝ) :
    ps.foldl (fun a p => max a (Real.sqrt p.2)) (Real.sqrt acc) =
      Real.sqrt (ps.foldl (fun a p => max a p.2) acc) := by
  induction ps generalizing acc with
  | nil => rfl
  | cons p ps ih =>
      have hm : Monotone Real.sqrt := fun a b h => Real.sqrt_le_sqrt h
      simp only [List.foldl_cons]
      rw [← hm.map_max, ih]

theorem specRMax_sqrt (ps : List (Photon × ℝ)) :
    specRMax ps = Real.sqrt (maxDistSquared ps) := by
  have h := specRMax_fold ps 0
  rw [Real.sqrt_zero] at h
  exact h

theorem maxDistSquared_nonneg (ps : List (Photon × ℝ)) :
    0 ≤ maxDistSquared ps := by
  have h : ∀ (l : List (Photon × ℝ)) (acc : ℝ),
      acc ≤ l.foldl (fun a p => max a p.2) acc := by
    intro l
    induction l with
    | nil => exact fun _ => le_refl _
    | cons p ps ih =>
        intro acc
        exact le_trans (le_max_left acc p.2) (ih (max acc p.2))
  exact h ps 0

/-- C9 (amended): the photon gather normalises the summed
`bsdf ⊙ power` by `π · r_max²` exactly as the spec says (the code's
`max_dist_squared` equals the square of the farthest photon distance),
but `CLOSEST_N_PHOTONS` is `10`, not approximately `100`. -/
theorem c9_photon_gather (bsdf : V3 ℝ → V3 ℝ) (ps : List (Photon × ℝ)) :
    gatherIndirect bsdf ps = specGatherIndirect bsdf ps ∧
      CLOSEST_N_PHOTONS = 10 := by
  constructor
  · unfold gatherIndirect specGatherIndirect
    rw [specRMax_sqrt, Real.mul_self_sqrt (maxDistSquared_nonneg ps)]
  · rfl

/-- C9 (counterexample): `CLOSEST_N_PHOTONS` is `10`, which is not
approximately `100` (not even within `[90, 110]`). -/
theorem c9_counterexample :
    CLOSEST_N_PHOTONS = 10 ∧
      ¬(90 ≤ CLOSEST_N_PHOTONS ∧ CLOSEST_N_PHOTONS ≤ 110) := by
  decide

theorem c10_arith (w h x0 y0 : ℕ) (hx : x0 + 1 < w) (hy : y0 + 1 < h) :
    y0 * w + x0 < w * h ∧ y0 * w + x0 + 1 < w * h ∧
    (y0 + 1) * w + x0 < w * h ∧ (y0 + 1) * w + x0 + 1 < w * h := by
  have hble : (y0 + 2) * w ≤ h * w := Nat.mul_le_mul_right _ (by omega)
  have e1 : (y0 + 1) * w = y0 * w + w := by ring
  have e2 : (y0 + 2) * w = y0 * w + (w + w) := by ring
  have e3 : w * h = h * w := Nat.mul_comm w h
  rw [e2] at hble
  rw [e1, e3]
  refine ⟨by linarith, by linarith, by linarith, by linarith⟩

/-- C10 (amended): under the `Hdri::new` invariant, the bilinear lookup's
four pixel accesses are in bounds provided the clamped cell corner
`(x0, y0)` is strictly interior (`x0 + 1 < width` and `y0 + 1 < height`);
at the right or bottom border the fourth index reaches `width · height`
and the access panics. -/
theorem c10_hdri_access (e : Hdri) (dir : V3 ℝ) (hv : e.valid)
    (hx : (e.cell dir).1 + 1 < e.width) (hy : (e.cell dir).2 + 1 < e.height) :
    (e.indices dir).1 < e.buf.length ∧
    (e.indices dir).2.1 < e.buf.length ∧
    (e.indices dir).2.2.1 < e.buf.length ∧
    (e.indices dir).2.2.2 < e.buf.length := by
  obtain ⟨hlen, _, _⟩ := hv
  rw [hlen]
  exact c10_arith e.width e.height (e.cell dir).1 (e.cell dir).2 hx hy

theorem c10_normalize_neg : (V3.normalize ⟨-1, 0, 0⟩ : V3 ℝ) = ⟨-1, 0, 0⟩ := by
  have h1 : (V3.length2 (⟨-1, 0, 0⟩ : V3 ℝ) : ℝ) = 1 := by norm_num [V3.length2]
  apply V3.ext3 <;>
    simp [V3.normalize, V3.norm, h1, Real.sqrt_one, V3.smul]

theorem c10_atan2_neg : atan2 (0 : ℝ) (-1) = Real.pi := by
  simp only [atan2]
  rw [if_neg (by norm_num), if_pos ⟨by norm_num, le_refl (0:ℝ)⟩]
  norm_num [Real.arctan_zero]

theorem c10_xy_neg :
    Hdri.xy (Hdri.mk 2 2 (List.replicate 4 V3.zero)) ⟨-1, 0, 0⟩ =
      (1, 1 / 2) := by
  have hpi := Real.pi_ne_zero
  simp only [Hdri.xy, c10_normalize_neg]
  rw [Prod.mk.injEq]
  constructor
  · rw [c10_atan2_neg]
    rw [show Real.pi + Real.pi = 2 * Real.pi by ring]
    rw [div_self (by positivity : (2 : ℝ) * Real.pi ≠ 0)]
    norm_num
  · rw [Real.arccos_zero]
    rw [show Real.pi / 2 / Real.pi = 1 / 2 by field_simp; ring]
    norm_num

theorem c10_cell_neg :
    Hdri.cell (Hdri.mk 2 2 (List.replicate 4 V3.zero)) ⟨-1, 0, 0⟩ = (1, 0) := by
  simp only [Hdri.cell, c10_xy_neg]
  rw [Prod.mk.injEq]
  constructor
  · rw [Nat.floor_one]
    rfl
  · rw [Nat.floor_eq_zero.mpr (by norm_num)]
    rfl

/-- C10 (counterexample): the valid 2×2 HDRI and the nonzero direction
`(-1, 0, 0)` drive the bilinear lookup to cell corner `(x0, y0) = (1, 0)`,
whose fourth index `(y0+1)·width + x0 + 1 = 4` equals `width·height`:
the access `buf[4]` is out of bounds and `get_color` panics. -/
theorem c10_counterexample :
    (Hdri.mk 2 2 (List.replicate 4 V3.zero)).valid ∧
    (⟨-1, 0, 0⟩ : V3 ℝ) ≠ V3.zero ∧
    Hdri.indices (Hdri.mk 2 2 (List.replicate 4 V3.zero)) ⟨-1, 0, 0⟩ =
      (1, 2, 3, 4) ∧
    ¬ (Hdri.indices (Hdri.mk 2 2 (List.replicate 4 V3.zero)) ⟨-1, 0, 0⟩).2.2.2 <
        (Hdri.mk 2 2 (List.replicate 4 V3.zero)).buf.length := by
  have hidx : Hdri.indices (Hdri.mk 2 2 (List.replicate 4 V3.zero)) ⟨-1, 0, 0⟩ =
      (1, 2, 3, 4) := by
    simp only [Hdri.indices, c10_cell_neg]
  refine ⟨⟨by simp [Hdri.valid], by norm_num, by norm_num⟩, ?_, hidx, ?_⟩
  · intro h
    have := congrArg V3.x h
    simp [V3.zero] at this
  · rw [hidx]
    simp

theorem c10_normalize_pos : (V3.normalize ⟨1, 0, 0⟩ : V3 ℝ) = ⟨1, 0, 0⟩ := by
  have h1 : (V3.length2 (⟨1, 0, 0⟩ : V3 ℝ) : ℝ) = 1 := by norm_num [V3.length2]
  apply V3.ext3 <;>
    simp [V3.normalize, V3.norm, h1, Real.sqrt_one, V3.smul]

theorem c10_cell_pos :
    Hdri.cell (Hdri.mk 2 2 (List.replicate 4 V3.zero)) ⟨1, 0, 0⟩ = (0, 0) := by
  have hxy : Hdri.xy (Hdri.mk 2 2 (List.replicate 4 V3.zero)) ⟨1, 0, 0⟩ =
      (1 / 2, 1 / 2) := by
    have hpi := Real.pi_ne_zero
    simp only [Hdri.xy, c10_normalize_pos]
    rw [Prod.mk.injEq]
    constructor
    · rw [show atan2 (0:ℝ) 1 = 0 by
        simp only [atan2]
        rw [if_pos (by norm_num)]
        norm_num [Real.arctan_zero]]
      rw [show (0:ℝ) + Real.pi = Real.pi by ring]
      rw [show Real.pi / (2 * Real.pi) = 1 / 2 by field_simp; ring]
      norm_num
    · rw [Real.arccos_zero]
      rw [show Real.pi / 2 / Real.pi = 1 / 2 by field_simp; ring]
      norm_num
  simp only [Hdri.cell, hxy]
  rw [Prod.mk.injEq]
  constructor <;> · rw [Nat.floor_eq_zero.mpr (by norm_num)]; rfl

theorem c10_hdri_access_witness :
    (Hdri.mk 2 2 (List.replicate 4 V3.zero)).valid ∧
    (Hdri.cell (Hdri.mk 2 2 (List.replicate 4 V3.zero)) ⟨1, 0, 0⟩).1 + 1 < 2 ∧
    (Hdri.cell (Hdri.mk 2 2 (List.replicate 4 V3.zero)) ⟨1, 0, 0⟩).2 + 1 < 2 ∧
    ((Hdri.indices (Hdri.mk 2 2 (List.replicate 4 V3.zero)) ⟨1, 0, 0⟩).1 <
        (Hdri.mk 2 2 (List.replicate 4 V3.zero)).buf.length ∧
      (Hdri.indices (Hdri.mk 2 2 (List.replicate 4 V3.zero)) ⟨1, 0, 0⟩).2.1 <
        (Hdri.mk 2 2 (List.replicate 4 V3.zero)).buf.length ∧
      (Hdri.indices (Hdri.mk 2 2 (List.replicate 4 V3.zero)) ⟨1, 0, 0⟩).2.2.1 <
        (Hdri.mk 2 2 (List.replicate 4 V3.zero)).buf.length ∧
      (Hdri.indices (Hdri.mk 2 2 (List.replicate 4 V3.zero)) ⟨1, 0, 0⟩).2.2.2 <
        (Hdri.mk 2 2 (List.replicate 4 V3.zero)).buf.length) := by
  have hv : (Hdri.mk 2 2 (List.replicate 4 V3.zero)).valid :=
    ⟨by simp [Hdri.valid], by norm_num, by norm_num⟩
  have hx : (Hdri.cell (Hdri.mk 2 2 (List.replicate 4 V3.zero)) ⟨1, 0, 0⟩).1 + 1 < 2 := by
    rw [c10_cell_pos]
    norm_num
  have hy : (Hdri.cell (Hdri.mk 2 2 (List.replicate 4 V3.zero)) ⟨1, 0, 0⟩).2 + 1 < 2 := by
    rw [c10_cell_pos]
    norm_num
  exact ⟨hv, hx, hy, c10_hdri_access _ _ hv hx hy⟩

section FFLemmas

variable {α : Type} [LinearOrderedField α]

theorem FF.lt_left_ne_nan {x y : FF α} (h : FF.lt x y = true) : x ≠ FF.nan := by
  cases x <;> simp_all [FF.lt]

theorem FF.lt_right_ne_nan {x y : FF α} (h : FF.lt x y = true) : y ≠ FF.nan := by
  cases x <;> cases y <;> simp_all [FF.lt]

theorem FF.le_left_ne_nan {x y : FF α} (h : FF.le x y = true) : x ≠ FF.nan := by
  cases x <;> simp_all [FF.le]

theorem FF.le_right_ne_nan {x y : FF α} (h : FF.le x y = true) : y ≠ FF.nan := by
  cases x <;> cases y <;> simp_all [FF.le]

theorem FF.le_refl_ok {x : FF α} (h : x ≠ FF.nan) : FF.le x x = true := by
  cases x <;> simp_all [FF.le]

theorem FF.le_of_lt {x y : FF α} (h : FF.lt x y = true) : FF.le x y = true := by
  cases x <;> cases y <;> simp_all [FF.lt, FF.le] <;> linarith

theorem FF.le_trans {x y z : FF α} (h1 : FF.le x y = true)
    (h2 : FF.le y z = true) : FF.le x z = true := by
  cases x <;> cases y <;> cases z <;> simp_all [FF.le] <;> linarith

theorem FF.lt_of_lt_of_le {x y z : FF α} (h1 : FF.lt x y = true)
    (h2 : FF.le y z = true) : FF.lt x z = true := by
  cases x <;> cases y <;> cases z <;> simp_all [FF.lt, FF.le] <;> linarith

theorem FF.lt_of_le_of_lt {x y z : FF α} (h1 : FF.le x y = true)
    (h2 : FF.lt y z = true) : FF.lt x z = true := by
  cases x <;> cases y <;> cases z <;> simp_all [FF.lt, FF.le] <;> linarith

theorem FF.not_lt_iff {x y : FF α} (hx : x ≠ FF.nan) (hy : y ≠ FF.nan) :
    FF.lt x y = false ↔ FF.le y x = true := by
  cases x <;> cases y <;> simp_all [FF.lt, FF.le] <;> constructor <;>
    intro h <;> linarith

theorem FF.not_le_iff {x y : FF α} (hx : x ≠ FF.nan) (hy : y ≠ FF.nan) :
    FF.le x y = false ↔ FF.lt y x = true := by
  cases x <;> cases y <;> simp_all [FF.lt, FF.le] <;> constructor <;>
    intro h <;> linarith

theorem FF.le_antisymm_ok {x y : FF α} (h1 : FF.le x y = true)
    (h2 : FF.le y x = true) : x = y := by
  cases x <;> cases y <;> simp_all [FF.le]
  linarith

theorem FF.fmin_ne_nan {x y : FF α} (hx : x ≠ FF.nan) (hy : y ≠ FF.nan) :
    FF.fmin x y ≠ FF.nan := by
  cases x <;> cases y <;> simp_all [FF.fmin] <;> (try split) <;> simp

theorem FF.fmax_ne_nan {x y : FF α} (hx : x ≠ FF.nan) (hy : y ≠ FF.nan) :
    FF.fmax x y ≠ FF.nan := by
  cases x <;> cases y <;> simp_all [FF.fmax] <;> (try split) <;> simp

theorem FF.fmin_le_left {x y : FF α} (hx : x ≠ FF.nan) (hy : y ≠ FF.nan) :
    FF.le (FF.fmin x y) x = true := by
  cases x <;> cases y <;> simp_all [FF.fmin] <;> (try split) <;>
    simp_all [FF.lt, FF.le] <;> linarith

theorem FF.fmin_le_right {x y : FF α} (hx : x ≠ FF.nan) (hy : y ≠ FF.nan) :
    FF.le (FF.fmin x y) y = true := by
  cases x <;> cases y <;> simp_all [FF.fmin] <;> (try split) <;>
    simp_all [FF.lt, FF.le] <;> linarith

theorem FF.left_le_fmax {x y : FF α} (hx : x ≠ FF.nan) (hy : y ≠ FF.nan) :
    FF.le x (FF.fmax x y) = true := by
  cases x <;> cases y <;> simp_all [FF.fmax] <;> (try split) <;>
    simp_all [FF.lt, FF.le] <;> linarith

theorem FF.right_le_fmax {x y : FF α} (hx : x ≠ FF.nan) (hy : y ≠ FF.nan) :
    FF.le y (FF.fmax x y) = true := by
  cases x <;> cases y <;> simp_all [FF.fmax] <;> (try split) <;>
    simp_all [FF.lt, FF.le] <;> linarith

theorem FF.le_fmin {x y c : FF α} (h1 : FF.le c x = true)
    (h2 : FF.le c y = true) : FF.le c (FF.fmin x y) = true := by
  cases x <;> cases y <;> cases c <;> simp_all [FF.fmin] <;> (try split) <;>
    simp_all [FF.lt, FF.le] <;> linarith

theorem FF.fmax_le {x y c : FF α} (h1 : FF.le x c = true)
    (h2 : FF.le y c = true) : FF.le (FF.fmax x y) c = true := by
  cases x <;> cases y <;> cases c <;> simp_all [FF.fmax] <;> (try split) <;>
    simp_all [FF.lt, FF.le] <;> linarith

theorem FF.fmin_cases (x y : FF α) : FF.fmin x y = x ∨ FF.fmin x y = y := by
  cases x <;> cases y <;> simp only [FF.fmin] <;> (try split) <;> simp

theorem FF.fmax_cases (x y : FF α) : FF.fmax x y = x ∨ FF.fmax x y = y := by
  cases x <;> cases y <;> simp only [FF.fmax] <;> (try split) <;> simp

theorem FF.lt_fin_iff (a b : α) : FF.lt (FF.fin a) (FF.fin b) = true ↔ a < b := by
  simp [FF.lt]

theorem FF.le_fin_iff (a b : α) : FF.le (FF.fin a) (FF.fin b) = true ↔ a ≤ b := by
  simp [FF.le]
end FFLemmas

section KdThms

variable {α : Type} [LinearOrderedField α] [FloorRing α]

theorem chooseDim_score_lt (prims : List (PrimB α)) (m : V3 α) (t : ℕ)
    (e : V3 (FF α))
    (h : min (min (partition_score prims 0 m.x) (partition_score prims 1 m.y))
      (partition_score prims 2 m.z) < t) :
    partition_score prims
        (chooseDim (partition_score prims 0 m.x) (partition_score prims 1 m.y)
          (partition_score prims 2 m.z) t e)
        (m.nth (chooseDim (partition_score prims 0 m.x)
          (partition_score prims 1 m.y) (partition_score prims 2 m.z) t e)) <
      t := by
  unfold chooseDim
  split_ifs <;> simp only [V3.nth] <;> omega

theorem kd_threshold_le (n : ℕ) :
    Nat.floor ((n : α) * SCORE_THRESHOLD) ≤ n := by
  have h1 : (n : α) * SCORE_THRESHOLD ≤ (n : α) := by
    refine mul_le_of_le_one_right (by positivity) ?_
    unfold SCORE_THRESHOLD
    rw [div_le_one (by norm_num)]
    norm_num
  exact le_trans (Nat.floor_le_floor h1) (le_of_eq (Nat.floor_natCast n))

theorem kd_filter_length_lt (objects : List (PrimB α)) (indices : List ℕ)
    (d : Fin 3) (v : α) (P : ℕ → Bool)
    (hscore : partition_score (primsOf objects indices) d v < indices.length)
    (hside : (∀ i, P i = true →
        decide ((objects.getD i defaultPrimB).p_min.nth d ≤ v) = true) ∨
      (∀ i, P i = true →
        decide (v ≤ (objects.getD i defaultPrimB).p_max.nth d) = true)) :
    (indices.filter P).length < indices.length := by
  have hcount : (indices.filter P).length = indices.countP P :=
    (List.countP_eq_length_filter P indices).symm
  have hmap : ∀ Q : PrimB α → Bool,
      indices.countP (fun i => Q (objects.getD i defaultPrimB)) =
        (primsOf objects indices).countP Q := by
    intro Q
    rw [primsOf, List.countP_map]
    rfl
  rw [hcount]
  rcases hside with hs | hs
  · have hle : indices.countP P ≤
        indices.countP (fun i =>
          decide ((objects.getD i defaultPrimB).p_min.nth d ≤ v)) :=
      List.countP_mono_left (fun i _ h => hs i h)
    refine lt_of_le_of_lt (le_trans hle ?_) hscore
    rw [hmap (fun p => decide (p.p_min.nth d ≤ v))]
    exact le_max_left _ _
  · have hle : indices.countP P ≤
        indices.countP (fun i =>
          decide (v ≤ (objects.getD i defaultPrimB).p_max.nth d)) :=
      List.countP_mono_left (fun i _ h => hs i h)
    refine lt_of_le_of_lt (le_trans hle ?_) hscore
    rw [hmap (fun p => decide (v ≤ p.p_max.nth d))]
    exact le_max_right _ _

theorem construct_ok (objects : List (PrimB α)) (indices : List ℕ) :
    NodeOK objects (construct objects indices) indices := by
  have H : ∀ (n : ℕ) (indices : List ℕ), indices.length = n →
      NodeOK objects (construct objects indices) indices := by
    intro n
    induction n using Nat.strong_induction_on with
    | _ n ih =>
      intro indices hn
      rw [construct]
      split
      · exact NodeOK.leaf indices
      · dsimp only
        split
        · exact NodeOK.leaf indices
        · apply NodeOK.split
          case hokl =>
            refine ih _ ?_ _ rfl
            rw [← hn]
            refine kd_filter_length_lt objects indices _ _ _ ?_ (Or.inl fun i h => h)
            exact lt_of_lt_of_le
              (chooseDim_score_lt _ _ _ _ (by omega)) (kd_threshold_le _)
          case hokr =>
            refine ih _ ?_ _ rfl
            rw [← hn]
            refine kd_filter_length_lt objects indices _ _ _ ?_ (Or.inr fun i h => h)
            exact lt_of_lt_of_le
              (chooseDim_score_lt _ _ _ _ (by omega)) (kd_threshold_le _)
          case hl =>
            intro i hi hle
            exact List.mem_filter.mpr ⟨hi, decide_eq_true hle⟩
          case hr =>
            intro i hi hle
            exact List.mem_filter.mpr ⟨hi, decide_eq_true hle⟩
          case hls => exact fun i hi => (List.mem_filter.mp hi).1
          case hrs => exact fun i hi => (List.mem_filter.mp hi).1
  exact H indices.length indices rfl

theorem primBest_fold (ray : Ray α) (tm cur : FF α) (l : List α)
    (acc : Option α)
    (hacc : ∀ b, acc = some b →
      FF.le tm (FF.fin b) = true ∧ FF.lt (FF.fin b) cur = true) :
    (∀ b, l.foldl (fun best t =>
        if FF.le tm (FF.fin t) = true ∧ FF.lt (FF.fin t) cur = true ∧
            (∀ c, best = some c → t < c) then some t else best) acc = some b →
      (FF.le tm (FF.fin b) = true ∧ FF.lt (FF.fin b) cur = true) ∧
        (b ∈ l ∨ acc = some b)) ∧
    (∀ t ∈ l, FF.le tm (FF.fin t) = true → FF.lt (FF.fin t) cur = true →
      ∃ b, l.foldl (fun best t =>
        if FF.le tm (FF.fin t) = true ∧ FF.lt (FF.fin t) cur = true ∧
            (∀ c, best = some c → t < c) then some t else best) acc = some b ∧
        b ≤ t) ∧
    (∀ b0, acc = some b0 →
      ∃ b, l.foldl (fun best t =>
        if FF.le tm (FF.fin t) = true ∧ FF.lt (FF.fin t) cur = true ∧
            (∀ c, best = some c → t < c) then some t else best) acc = some b ∧
        b ≤ b0) := by
  induction l generalizing acc with
  | nil =>
      refine ⟨?_, ?_, ?_⟩
      · intro b hb
        exact ⟨hacc b hb, Or.inr hb⟩
      · intro t ht
        simp at ht
      · intro b0 hb0
        exact ⟨b0, hb0, le_refl _⟩
  | cons a l ih =>
      by_cases hcond : FF.le tm (FF.fin a) = true ∧ FF.lt (FF.fin a) cur = true ∧
          (∀ c, acc = some c → a < c)
      · have hstep : (if FF.le tm (FF.fin a) = true ∧
              FF.lt (FF.fin a) cur = true ∧
              (∀ c, acc = some c → a < c) then some a else acc) = some a := by
          rw [if_pos hcond]
        obtain ⟨ih1, ih2, ih3⟩ := ih (some a)
          (by intro b hb; cases hb; exact ⟨hcond.1, hcond.2.1⟩)
        rw [List.foldl_cons, hstep] at *
        refine ⟨?_, ?_, ?_⟩
        · intro b hb
          obtain ⟨hq, hmem⟩ := ih1 b hb
          rcases hmem with h | h
          · exact ⟨hq, Or.inl (List.mem_cons_of_mem _ h)⟩
          · cases h
            exact ⟨hq, Or.inl (List.mem_cons_self _ _)⟩
        · intro t ht htm hcur
          rcases List.mem_cons.mp ht with rfl | ht2
          · exact ih3 t rfl
          · exact ih2 t ht2 htm hcur
        · intro b0 hb0
          obtain ⟨b, hb, hle⟩ := ih3 a rfl
          exact ⟨b, hb, le_trans hle (le_of_lt (hcond.2.2 b0 hb0))⟩
      · have hstep : (if FF.le tm (FF.fin a) = true ∧
              FF.lt (FF.fin a) cur = true ∧
              (∀ c, acc = some c → a < c) then some a else acc) = acc := by
          rw [if_neg hcond]
        obtain ⟨ih1, ih2, ih3⟩ := ih acc hacc
        rw [List.foldl_cons, hstep] at *
        refine ⟨?_, ?_, ?_⟩
        · intro b hb
          obtain ⟨hq, hmem⟩ := ih1 b hb
          rcases hmem with h | h
          · exact ⟨hq, Or.inl (List.mem_cons_of_mem _ h)⟩
          · exact ⟨hq, Or.inr h⟩
        · intro t ht htm hcur
          rcases List.mem_cons.mp ht with heq | ht2
          · subst heq
            have hex : ∃ c, acc = some c ∧ c ≤ t := by
              rcases hq : acc with _ | c
              · exfalso
                apply hcond
                refine ⟨htm, hcur, ?_⟩
                intro d hd
                rw [hq] at hd
                exact Option.noConfusion hd
              · by_cases hlt : t < c
                · exfalso
                  apply hcond
                  refine ⟨htm, hcur, ?_⟩
                  intro d hd
                  rw [hq] at hd
                  injection hd with hd2
                  rw [← hd2]
                  exact hlt
                · exact ⟨c, rfl, not_lt.mp hlt⟩
            obtain ⟨c, hc, hlec⟩ := hex
            obtain ⟨b, hb, hble⟩ := ih3 c hc
            exact ⟨b, hb, le_trans hble hlec⟩
          · exact ih2 t ht2 htm hcur
        · exact ih3

theorem primBest_spec (p : PrimB α) (ray : Ray α) (tm cur : FF α) :
    (∀ b, primBest p ray tm cur = some b →
      (FF.le tm (FF.fin b) = true ∧ FF.lt (FF.fin b) cur = true) ∧
        b ∈ p.hits ray) ∧
    (∀ t ∈ p.hits ray, FF.le tm (FF.fin t) = true →
      FF.lt (FF.fin t) cur = true →
      ∃ b, primBest p ray tm cur = some b ∧ b ≤ t) := by
  obtain ⟨h1, h2, _⟩ := primBest_fold ray tm cur (p.hits ray) none
    (fun b hb => Option.noConfusion hb)
  unfold primBest
  refine ⟨fun b hb => ?_, h2⟩
  obtain ⟨hq, hmem⟩ := h1 b hb
  rcases hmem with h | h
  · exact ⟨hq, h⟩
  · exact Option.noConfusion h

theorem primIntersect_spec (p : PrimB α) (ray : Ray α) (tm cur : FF α) :
    ((primIntersect p ray tm cur).1 = false →
      (primIntersect p ray tm cur).2 = cur) ∧
    ((primIntersect p ray tm cur).1 = true →
      ∃ t ∈ p.hits ray, FF.le tm (FF.fin t) = true ∧
        FF.lt (FF.fin t) cur = true ∧ (primIntersect p ray tm cur).2 = FF.fin t) ∧
    (∀ t ∈ p.hits ray, FF.le tm (FF.fin t) = true →
      FF.lt (FF.fin t) cur = true →
      FF.le (primIntersect p ray tm cur).2 (FF.fin t) = true) := by
  obtain ⟨h1, h2⟩ := primBest_spec p ray tm cur
  refine ⟨?_, ?_, ?_⟩
  · intro hb
    unfold primIntersect at hb ⊢
    rcases hq : primBest p ray tm cur with _ | b
    · rfl
    · rw [hq] at hb
      exact absurd hb (by simp)
  · intro hb
    unfold primIntersect at hb ⊢
    rcases hq : primBest p ray tm cur with _ | b
    · rw [hq] at hb
      exact absurd hb (by simp)
    · obtain ⟨⟨htm2, hcur2⟩, hmem⟩ := h1 b hq
      exact ⟨b, hmem, htm2, hcur2, rfl⟩
  · intro t ht htm hcur
    obtain ⟨b, hb, hble⟩ := h2 t ht htm hcur
    unfold primIntersect
    rw [hb]
    exact (FF.le_fin_iff b t).mpr hble

theorem kdFold_fold (ray : Ray α) (tm : FF α) (ps : List (PrimB α))
    (b0 : Bool) (r0 : FF α) (hw : r0 = FF.pinf ∨ ∃ a, r0 = FF.fin a) :
    ((((ps.foldl (fun acc p =>
          ((acc.1 || (primIntersect p ray tm acc.2).1),
            (primIntersect p ray tm acc.2).2)) (b0, r0)).2 = r0 ∧
        (ps.foldl (fun acc p =>
          ((acc.1 || (primIntersect p ray tm acc.2).1),
            (primIntersect p ray tm acc.2).2)) (b0, r0)).1 = b0) ∨
      (∃ p ∈ ps, ∃ t ∈ p.hits ray, FF.le tm (FF.fin t) = true ∧
        FF.lt (FF.fin t) r0 = true ∧
        (ps.foldl (fun acc p =>
          ((acc.1 || (primIntersect p ray tm acc.2).1),
            (primIntersect p ray tm acc.2).2)) (b0, r0)).2 = FF.fin t ∧
        (ps.foldl (fun acc p =>
          ((acc.1 || (primIntersect p ray tm acc.2).1),
            (primIntersect p ray tm acc.2).2)) (b0, r0)).1 = true)) ∧
    (∀ p ∈ ps, ∀ t ∈ p.hits ray, FF.le tm (FF.fin t) = true →
      FF.lt (FF.fin t) r0 = true →
      FF.le (ps.foldl (fun acc p =>
          ((acc.1 || (primIntersect p ray tm acc.2).1),
            (primIntersect p ray tm acc.2).2)) (b0, r0)).2 (FF.fin t) = true)) := by
  induction ps generalizing b0 r0 with
  | nil =>
      refine ⟨Or.inl ⟨rfl, rfl⟩, ?_⟩
      intro p hp
      simp at hp
  | cons p ps ih =>
      have hspec := primIntersect_spec p ray tm r0
      have hw2 : (primIntersect p ray tm r0).2 = FF.pinf ∨
          ∃ a, (primIntersect p ray tm r0).2 = FF.fin a := by
        rcases hb : (primIntersect p ray tm r0).1
        · rw [hspec.1 hb]
          exact hw
        · obtain ⟨t, _, _, _, h2⟩ := hspec.2.1 hb
          exact Or.inr ⟨t, h2⟩
      have hr2nan : (primIntersect p ray tm r0).2 ≠ FF.nan := by
        rcases hw2 with h | ⟨a, h⟩ <;> simp [h]
      obtain ⟨ihG1, ihG2⟩ := ih (b0 || (primIntersect p ray tm r0).1)
        (primIntersect p ray tm r0).2 hw2
      simp only [List.foldl_cons]
      have hmono : FF.le (ps.foldl (fun acc p =>
            ((acc.1 || (primIntersect p ray tm acc.2).1),
              (primIntersect p ray tm acc.2).2))
            (b0 || (primIntersect p ray tm r0).1,
              (primIntersect p ray tm r0).2)).2
          (primIntersect p ray tm r0).2 = true := by
        rcases ihG1 with ⟨he, _⟩ | ⟨q, _, t, _, _, hlt, he, _⟩
        · rw [he]
          exact FF.le_refl_ok hr2nan
        · rw [he]
          exact FF.le_of_lt hlt
      constructor
      · rcases ihG1 with ⟨he, hb⟩ | ⟨q, hq, t, ht, htm, hlt, he, hbt⟩
        · rcases Bool.eq_false_or_eq_true ((primIntersect p ray tm r0).1) with
            hb1 | hb1
          · obtain ⟨t, ht, htm, hlt, h2⟩ := hspec.2.1 hb1
            refine Or.inr ⟨p, List.mem_cons_self _ _, t, ht, htm, hlt, ?_, ?_⟩
            · rw [he, h2]
            · rw [hb, hb1, Bool.or_true]
          · refine Or.inl ⟨?_, ?_⟩
            · rw [he, hspec.1 hb1]
            · rw [hb, hb1, Bool.or_false]
        · have hler0 : FF.le (primIntersect p ray tm r0).2 r0 = true := by
            rcases Bool.eq_false_or_eq_true ((primIntersect p ray tm r0).1) with
              hb1 | hb1
            · obtain ⟨u, _, _, hltu, h2⟩ := hspec.2.1 hb1
              rw [h2]
              exact FF.le_of_lt hltu
            · rw [hspec.1 hb1]
              exact FF.le_refl_ok (by rcases hw with h | ⟨a, h⟩ <;> simp [h])
          exact Or.inr ⟨q, List.mem_cons_of_mem _ hq, t, ht, htm,
            FF.lt_of_lt_of_le hlt hler0, he, hbt⟩
      · intro q hq t ht htm hlt
        rcases List.mem_cons.mp hq with rfl | hq2
        · exact FF.le_trans hmono (hspec.2.2 t ht htm hlt)
        · by_cases hc : FF.lt (FF.fin t) (primIntersect p ray tm r0).2 = true
          · exact ihG2 q hq2 t ht htm hc
          · have hle2 : FF.le (primIntersect p ray tm r0).2 (FF.fin t) = true :=
              (FF.not_lt_iff (by simp) hr2nan).mp (Bool.eq_false_iff.mpr hc)
            exact FF.le_trans hmono hle2

theorem primsFold_spec (ray : Ray α) (tm : FF α) (ps : List (PrimB α))
    (rec : FF α) (hw : rec = FF.pinf ∨ ∃ a, rec = FF.fin a) :
    ((primsFold ps ray tm rec).1 = false → (primsFold ps ray tm rec).2 = rec) ∧
    ((primsFold ps ray tm rec).1 = true →
      ∃ p ∈ ps, ∃ t ∈ p.hits ray, FF.le tm (FF.fin t) = true ∧
        FF.lt (FF.fin t) rec = true ∧ (primsFold ps ray tm rec).2 = FF.fin t) ∧
    (∀ p ∈ ps, ∀ t ∈ p.hits ray, FF.le tm (FF.fin t) = true →
      FF.lt (FF.fin t) rec = true →
      FF.le (primsFold ps ray tm rec).2 (FF.fin t) = true) := by
  obtain ⟨hG1, hG2⟩ := kdFold_fold ray tm ps false rec hw
  refine ⟨?_, ?_, hG2⟩
  · intro hb
    rcases hG1 with ⟨he, _⟩ | ⟨q, hq, t, ht, htm, hlt, he, hbt⟩
    · exact he
    · rw [show primsFold ps ray tm rec = ps.foldl (fun acc p =>
        ((acc.1 || (primIntersect p ray tm acc.2).1),
          (primIntersect p ray tm acc.2).2)) (false, rec) from rfl] at hb
      rw [hbt] at hb
      exact Bool.noConfusion hb
  · intro hb
    rcases hG1 with ⟨_, hb0⟩ | ⟨q, hq, t, ht, htm, hlt, he, hbt⟩
    · rw [show primsFold ps ray tm rec = ps.foldl (fun acc p =>
        ((acc.1 || (primIntersect p ray tm acc.2).1),
          (primIntersect p ray tm acc.2).2)) (false, rec) from rfl] at hb
      rw [hb0] at hb
      exact Bool.noConfusion hb
    · exact ⟨q, hq, t, ht, htm, hlt, he⟩

theorem FF.sub_ninf_fin (o : α) : FF.sub FF.ninf (FF.fin o) = FF.ninf := rfl

theorem FF.sub_pinf_fin (o : α) : FF.sub FF.pinf (FF.fin o) = FF.pinf := rfl

theorem FF.sub_fin_fin (a o : α) :
    FF.sub (FF.fin a) (FF.fin o) = FF.fin (a - o) := by
  simp [FF.sub, FF.add, FF.neg, sub_eq_add_neg]

theorem FF.div_ninf_fin (d : α) :
    FF.div FF.ninf (FF.fin d) = if 0 ≤ d then FF.ninf else FF.pinf := rfl

theorem FF.div_pinf_fin (d : α) :
    FF.div FF.pinf (FF.fin d) = if 0 ≤ d then FF.pinf else FF.ninf := rfl

theorem slab_bridge (lo hi : FF α) (o dd t p : α) (hd : dd ≠ 0)
    (hlo : FF.le lo (FF.fin p) = true) (hhi : FF.le (FF.fin p) hi = true)
    (hp : p = o + t * dd) :
    FF.le (FF.fmin (FF.div (FF.sub lo (FF.fin o)) (FF.fin dd))
        (FF.div (FF.sub hi (FF.fin o)) (FF.fin dd))) (FF.fin t) = true ∧
    FF.le (FF.fin t) (FF.fmax (FF.div (FF.sub lo (FF.fin o)) (FF.fin dd))
        (FF.div (FF.sub hi (FF.fin o)) (FF.fin dd))) = true := by
  have hker : ∀ s1 s2 : FF α, s1 ≠ FF.nan → s2 ≠ FF.nan →
      ((FF.le s1 (FF.fin t) = true ∧ FF.le (FF.fin t) s2 = true) ∨
        (FF.le s2 (FF.fin t) = true ∧ FF.le (FF.fin t) s1 = true)) →
      FF.le (FF.fmin s1 s2) (FF.fin t) = true ∧
        FF.le (FF.fin t) (FF.fmax s1 s2) = true := by
    intro s1 s2 h1 h2 h
    rcases h with ⟨ha, hb⟩ | ⟨ha, hb⟩
    · exact ⟨FF.le_trans (FF.fmin_le_left h1 h2) ha,
        FF.le_trans hb (FF.right_le_fmax h1 h2)⟩
    · exact ⟨FF.le_trans (FF.fmin_le_right h1 h2) ha,
        FF.le_trans hb (FF.left_le_fmax h1 h2)⟩
  cases lo with
  | nan => simp [FF.le] at hlo
  | pinf => simp [FF.le] at hlo
  | ninf =>
      cases hi with
      | nan => simp [FF.le] at hhi
      | ninf => simp [FF.le] at hhi
      | pinf =>
          rw [FF.sub_ninf_fin, FF.sub_pinf_fin, FF.div_ninf_fin, FF.div_pinf_fin]
          rcases le_or_lt 0 dd with h0 | h0
          · rw [if_pos h0, if_pos h0]
            exact hker _ _ (by simp) (by simp)
              (Or.inl ⟨by simp [FF.le], by simp [FF.le]⟩)
          · rw [if_neg (not_le.mpr h0), if_neg (not_le.mpr h0)]
            exact hker _ _ (by simp) (by simp)
              (Or.inr ⟨by simp [FF.le], by simp [FF.le]⟩)
      | fin h =>
          have hph : p ≤ h := by simpa [FF.le] using hhi
          rw [FF.sub_ninf_fin, FF.sub_fin_fin, FF.div_ninf_fin,
            FF.div_fin_fin _ _ hd]
          rcases le_or_lt 0 dd with h0 | h0
          · have hdd : 0 < dd := lt_of_le_of_ne h0 (Ne.symm hd)
            rw [if_pos h0]
            refine hker _ _ (by simp) (by simp)
              (Or.inl ⟨by simp [FF.le], ?_⟩)
            rw [FF.le_fin_iff, le_div_iff hdd]
            linarith
          · rw [if_neg (not_le.mpr h0)]
            refine hker _ _ (by simp) (by simp)
              (Or.inr ⟨?_, by simp [FF.le]⟩)
            rw [FF.le_fin_iff, div_le_iff_of_neg h0]
            linarith
  | fin l =>
      have hlp : l ≤ p := by simpa [FF.le] using hlo
      cases hi with
      | nan => simp [FF.le] at hhi
      | ninf => simp [FF.le] at hhi
      | pinf =>
          rw [FF.sub_fin_fin, FF.sub_pinf_fin, FF.div_fin_fin _ _ hd,
            FF.div_pinf_fin]
          rcases le_or_lt 0 dd with h0 | h0
          · have hdd : 0 < dd := lt_of_le_of_ne h0 (Ne.symm hd)
            rw [if_pos h0]
            refine hker _ _ (by simp) (by simp)
              (Or.inl ⟨?_, by simp [FF.le]⟩)
            rw [FF.le_fin_iff, div_le_iff hdd]
            linarith
          · rw [if_neg (not_le.mpr h0)]
            refine hker _ _ (by simp) (by simp)
              (Or.inr ⟨by simp [FF.le], ?_⟩)
            rw [FF.le_fin_iff, le_div_iff_of_neg h0]
            linarith
      | fin h =>
          have hph : p ≤ h := by simpa [FF.le] using hhi
          rw [FF.sub_fin_fin, FF.sub_fin_fin, FF.div_fin_fin _ _ hd,
            FF.div_fin_fin _ _ hd]
          rcases le_or_lt 0 dd with h0 | h0
          · have hdd : 0 < dd := lt_of_le_of_ne h0 (Ne.symm hd)
            refine hker _ _ (by simp) (by simp) (Or.inl ⟨?_, ?_⟩)
            · rw [FF.le_fin_iff, div_le_iff hdd]
              linarith
            · rw [FF.le_fin_iff, le_div_iff hdd]
              linarith
          · refine hker _ _ (by simp) (by simp) (Or.inr ⟨?_, ?_⟩)
            · rw [FF.le_fin_iff, div_le_iff_of_neg h0]
              linarith
            · rw [FF.le_fin_iff, le_div_iff_of_neg h0]
              linarith

theorem FF.sub_ne_nan (x : FF α) (o : α) (hx : x ≠ FF.nan) :
    FF.sub x (FF.fin o) ≠ FF.nan := by
  cases x <;> simp_all [FF.sub, FF.add, FF.neg]

theorem FF.div_ne_nan (x : FF α) (d : α) (hx : x ≠ FF.nan) (hd : d ≠ 0) :
    FF.div x (FF.fin d) ≠ FF.nan := by
  cases x <;> simp_all [FF.div] <;> split <;> simp_all

theorem slab_ne_nan (b : BoundingBox α) (ray : Ray α) (d : Fin 3)
    (hd : ray.dir.nth d ≠ 0) (hb : boxOk b) :
    (b.slab ray d).1 ≠ FF.nan ∧ (b.slab ray d).2 ≠ FF.nan := by
  refine ⟨FF.fmin_ne_nan ?_ ?_, FF.fmax_ne_nan ?_ ?_⟩ <;>
    first
      | exact FF.div_ne_nan _ _ (FF.sub_ne_nan _ _ ((hb d).1)) hd
      | exact FF.div_ne_nan _ _ (FF.sub_ne_nan _ _ ((hb d).2)) hd

theorem intersect_ne_nan (b : BoundingBox α) (ray : Ray α)
    (hd : ∀ d : Fin 3, ray.dir.nth d ≠ 0) (hb : boxOk b) :
    (b.intersect ray).1 ≠ FF.nan ∧ (b.intersect ray).2 ≠ FF.nan := by
  constructor
  · exact FF.fmax_ne_nan (FF.fmax_ne_nan (slab_ne_nan b ray 0 (hd 0) hb).1
      (slab_ne_nan b ray 1 (hd 1) hb).1) (slab_ne_nan b ray 2 (hd 2) hb).1
  · exact FF.fmin_ne_nan (FF.fmin_ne_nan (slab_ne_nan b ray 0 (hd 0) hb).2
      (slab_ne_nan b ray 1 (hd 1) hb).2) (slab_ne_nan b ray 2 (hd 2) hb).2

theorem V3.nth_add (a b : V3 α) (d : Fin 3) :
    (a + b).nth d = a.nth d + b.nth d := by
  fin_cases d <;> rfl

theorem V3.nth_smul (k : α) (a : V3 α) (d : Fin 3) :
    (V3.smul k a).nth d = k * a.nth d := by
  fin_cases d <;> rfl

theorem rayAt_nth (r : Ray α) (t : α) (d : Fin 3) :
    (r.at t).nth d = r.origin.nth d + t * r.dir.nth d := by
  rw [Ray.at, V3.nth_add, V3.nth_smul]

theorem box_bridge (b : BoundingBox α) (ray : Ray α) (t : α)
    (hd : ∀ d : Fin 3, ray.dir.nth d ≠ 0)
    (hin : inBox b (ray.at t)) :
    FF.le (b.intersect ray).1 (FF.fin t) = true ∧
    FF.le (FF.fin t) (b.intersect ray).2 = true := by
  have hax : ∀ d : Fin 3, FF.le (b.slab ray d).1 (FF.fin t) = true ∧
      FF.le (FF.fin t) (b.slab ray d).2 = true := by
    intro d
    exact slab_bridge (b.p_min.nth d) (b.p_max.nth d) (ray.origin.nth d)
      (ray.dir.nth d) t ((ray.at t).nth d) (hd d) (hin d).1 (hin d).2
      (rayAt_nth ray t d)
  exact ⟨FF.fmax_le (FF.fmax_le (hax 0).1 (hax 1).1) (hax 2).1,
    FF.le_fmin (FF.le_fmin (hax 0).2 (hax 1).2) (hax 2).2⟩

theorem V3.nth_setNth {β : Type} (w : V3 β) (i j : Fin 3) (a : β) :
    (w.setNth i a).nth j = if j = i then a else w.nth j := by
  fin_cases i <;> fin_cases j <;> simp [V3.setNth, V3.nth]

theorem boxOk_split (b : BoundingBox α) (hb : boxOk b) (k : Fin 3) (v : α) :
    boxOk (b.split k v).1 ∧ boxOk (b.split k v).2 := by
  constructor <;> intro d <;>
    simp only [BoundingBox.split, V3.nth_setNth] <;>
    constructor <;> (try split) <;> simp_all [boxOk] <;>
    first
      | exact (hb d).1
      | exact (hb d).2

theorem inBox_split_left (b : BoundingBox α) (k : Fin 3) (v : α) (pos : V3 α)
    (hin : inBox b pos) (hk : pos.nth k ≤ v) : inBox (b.split k v).1 pos := by
  intro d
  simp only [BoundingBox.split, V3.nth_setNth]
  refine ⟨(hin d).1, ?_⟩
  split
  · exact (FF.le_fin_iff _ _).mpr (by rename_i h; rw [h]; exact hk)
  · exact (hin d).2

theorem inBox_split_right (b : BoundingBox α) (k : Fin 3) (v : α) (pos : V3 α)
    (hin : inBox b pos) (hk : v ≤ pos.nth k) : inBox (b.split k v).2 pos := by
  intro d
  simp only [BoundingBox.split, V3.nth_setNth]
  refine ⟨?_, (hin d).2⟩
  split
  · exact (FF.le_fin_iff _ _).mpr (by rename_i h; rw [h]; exact hk)
  · exact (hin d).1

theorem inBox_split_left_nth (b : BoundingBox α) (k : Fin 3) (v : α)
    (pos : V3 α) (hin : inBox (b.split k v).1 pos) : pos.nth k ≤ v := by
  have := (hin k).2
  simp only [BoundingBox.split, V3.nth_setNth, if_pos rfl] at this
  exact (FF.le_fin_iff _ _).mp this

theorem inBox_split_right_nth (b : BoundingBox α) (k : Fin 3) (v : α)
    (pos : V3 α) (hin : inBox (b.split k v).2 pos) : v ≤ pos.nth k := by
  have := (hin k).1
  simp only [BoundingBox.split, V3.nth_setNth, if_pos rfl] at this
  exact (FF.le_fin_iff _ _).mp this

theorem far_time (o dd v t : α) (hd : dd ≠ 0)
    (hlf : o < v ∨ (o = v ∧ dd ≤ 0)) (hk : v ≤ o + t * dd) :
    (0 < (v - o) / dd ∧ (v - o) / dd ≤ t) ∨
      (t ≤ (v - o) / dd ∧ (v - o) / dd ≤ 0) := by
  rcases hlf with hov | ⟨hov, hdle⟩
  · rcases lt_or_gt_of_ne hd with hneg | hpos
    · right
      constructor
      · rw [le_div_iff_of_neg hneg]
        linarith
      · rw [div_nonpos_iff]
        exact Or.inl ⟨by linarith, le_of_lt hneg⟩
    · left
      constructor
      · exact div_pos (by linarith) hpos
      · rw [div_le_iff hpos]
        linarith
  · have hneg : dd < 0 := lt_of_le_of_ne hdle hd
    have hts : (v - o) / dd = 0 := by
      rw [hov]
      simp
    right
    rw [hts]
    exact ⟨by nlinarith, le_refl 0⟩

theorem near_time (o dd v t : α) (hd : dd ≠ 0)
    (hlf : o < v ∨ (o = v ∧ dd ≤ 0)) (hk : o + t * dd ≤ v) :
    (0 < (v - o) / dd → t ≤ (v - o) / dd) ∧
      ((v - o) / dd ≤ 0 → (v - o) / dd ≤ t) := by
  rcases hlf with hov | ⟨hov, hdle⟩
  · rcases lt_or_gt_of_ne hd with hneg | hpos
    · have hts : (v - o) / dd < 0 := div_neg_of_pos_of_neg (by linarith) hneg
      refine ⟨fun h => absurd h (by linarith), fun _ => ?_⟩
      rw [div_le_iff_of_neg hneg]
      linarith
    · have hts : 0 < (v - o) / dd := div_pos (by linarith) hpos
      refine ⟨fun _ => ?_, fun h => absurd h (by linarith)⟩
      rw [le_div_iff hpos]
      linarith
  · have hneg : dd < 0 := lt_of_le_of_ne hdle hd
    have hts : (v - o) / dd = 0 := by
      rw [hov]
      simp
    rw [hts]
    exact ⟨fun h => absurd h (lt_irrefl 0), fun _ => by nlinarith⟩

theorem notLeftFirst (o dd v : α) (hd : dd ≠ 0)
    (hnlf : ¬(o < v ∨ (o = v ∧ dd ≤ 0))) :
    (-o) < (-v) ∨ ((-o) = (-v) ∧ (-dd) ≤ 0) := by
  push_neg at hnlf
  obtain ⟨h1, h2⟩ := hnlf
  rcases eq_or_lt_of_le h1 with heq | hlt
  · exact Or.inr ⟨by rw [heq], by linarith [h2 heq.symm]⟩
  · exact Or.inl (by linarith)

theorem neg_ts_eq (o dd v : α) : ((-v) - (-o)) / (-dd) = (v - o) / dd := by
  rw [show (-v) - (-o) = -(v - o) by ring, neg_div_neg_eq]

theorem far_time_r (o dd v t : α) (hd : dd ≠ 0)
    (hnlf : ¬(o < v ∨ (o = v ∧ dd ≤ 0))) (hk : o + t * dd ≤ v) :
    (0 < (v - o) / dd ∧ (v - o) / dd ≤ t) ∨
      (t ≤ (v - o) / dd ∧ (v - o) / dd ≤ 0) := by
  have h := far_time (-o) (-dd) (-v) t (by simpa using hd)
    (notLeftFirst o dd v hd hnlf) (by linarith)
  rw [neg_ts_eq] at h
  exact h

theorem near_time_r (o dd v t : α) (hd : dd ≠ 0)
    (hnlf : ¬(o < v ∨ (o = v ∧ dd ≤ 0))) (hk : v ≤ o + t * dd) :
    (0 < (v - o) / dd → t ≤ (v - o) / dd) ∧
      ((v - o) / dd ≤ 0 → (v - o) / dd ≤ t) := by
  have h := near_time (-o) (-dd) (-v) t (by simpa using hd)
    (notLeftFirst o dd v hd hnlf) (by linarith)
  rw [neg_ts_eq] at h
  exact h

theorem PrimB.bbox_min_nth (p : PrimB α) (d : Fin 3) :
    (PrimB.bbox p).p_min.nth d = FF.fin (p.p_min.nth d) := by
  fin_cases d <;> rfl

theorem PrimB.bbox_max_nth (p : PrimB α) (d : Fin 3) :
    (PrimB.bbox p).p_max.nth d = FF.fin (p.p_max.nth d) := by
  fin_cases d <;> rfl

theorem corner_case (o dd v t a : α) (hd : dd ≠ 0)
    (hts0 : (v - o) / dd ≤ 0) (hta : t ≤ (v - o) / dd) (ha : 0 ≤ a)
    (hat : a ≤ t) : t = 0 ∧ v = o := by
  have ht0 : t = 0 := le_antisymm (le_trans hta hts0) (le_trans ha hat)
  have hts : (v - o) / dd = 0 := le_antisymm hts0 (ht0 ▸ hta)
  rcases div_eq_zero_iff.mp hts with h | h
  · exact ⟨ht0, by linarith [sub_eq_zero.mp h]⟩
  · exact absurd h hd

theorem split_core (objects : List (PrimB α)) (ray : Ray α)
    (F S : KdNode α) (Fis Sis is : List ℕ) (bbox bF bS : BoundingBox α)
    (hFsub : Fis ⊆ is) (hSsub : Sis ⊆ is)
    (ts a : α) (ha : 0 ≤ a) (rec : FF α)
    (hw : rec = FF.pinf ∨ ∃ w, rec = FF.fin w)
    (hbinan : (bbox.intersect ray).1 ≠ FF.nan)
    (hbmaxnan : (bbox.intersect ray).2 ≠ FF.nan)
    (hbridge : ∀ t : α, inBox bbox (ray.at t) →
      FF.le (bbox.intersect ray).1 (FF.fin t) = true ∧
      FF.le (FF.fin t) (bbox.intersect ray).2 = true)
    (hcover : ∀ t : α, inBox bbox (ray.at t) →
      inBox bF (ray.at t) ∨ inBox bS (ray.at t))
    (hfar : ∀ t : α, inBox bS (ray.at t) →
      (0 < ts ∧ ts ≤ t) ∨ (t ≤ ts ∧ ts ≤ 0))
    (hnear : ∀ t : α, inBox bF (ray.at t) →
      (0 < ts → t ≤ ts) ∧ (ts ≤ 0 → ts ≤ t))
    (hcorner : ∀ t : α, inBox bbox (ray.at t) → inBox bS (ray.at t) →
      t ≤ ts → ts ≤ 0 → a ≤ t → inBox bF (ray.at t))
    (hprimF : ∀ i ∈ is, ∀ t ∈ (objects.getD i defaultPrimB).hits ray,
      inBox bF (ray.at t) → i ∈ Fis)
    (hprimS : ∀ i ∈ is, ∀ t ∈ (objects.getD i defaultPrimB).hits ray,
      inBox bS (ray.at t) → i ∈ Sis)
    (IHF : ∀ a2 : α, 0 ≤ a2 → ∀ r2 : FF α,
      (r2 = FF.pinf ∨ ∃ w, r2 = FF.fin w) →
      KdInv objects ray (intersect_subtree objects F bF ray (FF.fin a2) r2)
        Fis bF a2 r2)
    (IHS : ∀ a2 : α, 0 ≤ a2 → ∀ r2 : FF α,
      (r2 = FF.pinf ∨ ∃ w, r2 = FF.fin w) →
      KdInv objects ray (intersect_subtree objects S bS ray (FF.fin a2) r2)
        Sis bS a2 r2) :
    KdInv objects ray
      (if FF.lt (FF.fmin (bbox.intersect ray).2 rec) (FF.fin ts) = true ∨
          FF.le (FF.fin ts) (FF.fin 0) = true then
        intersect_subtree objects F bF ray (FF.fin a) rec
      else if FF.lt (FF.fin ts)
          (FF.fmax (bbox.intersect ray).1 (FF.fin a)) = true then
        intersect_subtree objects S bS ray (FF.fin a) rec
      else if (intersect_subtree objects F bF ray (FF.fin a) rec).1 = true ∧
          FF.lt (intersect_subtree objects F bF ray (FF.fin a) rec).2
            (FF.fin ts) = true then
        (true, (intersect_subtree objects F bF ray (FF.fin a) rec).2)
      else
        ((intersect_subtree objects F bF ray (FF.fin a) rec).1 ||
          (intersect_subtree objects S bS ray (FF.fin ts)
            (intersect_subtree objects F bF ray (FF.fin a) rec).2).1,
          (intersect_subtree objects S bS ray (FF.fin ts)
            (intersect_subtree objects F bF ray (FF.fin a) rec).2).2))
      is bbox a rec := by
  obtain ⟨F1, F2, F3⟩ := IHF a ha rec hw
  have hreclnan : rec ≠ FF.nan := by
    rcases hw with h | ⟨w, h⟩ <;> simp [h]
  by_cases hC1 : FF.lt (FF.fmin (bbox.intersect ray).2 rec) (FF.fin ts) = true ∨
      FF.le (FF.fin ts) (FF.fin 0) = true
  · rw [if_pos hC1]
    refine ⟨F1, ?_, ?_⟩
    · intro hb
      obtain ⟨i, hi, t, ht, hat, hlt, he⟩ := F2 hb
      exact ⟨i, hFsub hi, t, ht, hat, hlt, he⟩
    · intro i hi t ht hat hlt hin
      rcases hcover t hin with hF | hS
      · exact F3 i (hprimF i hi t ht hF) t ht hat hlt hF
      · rcases hfar t hS with ⟨hts_pos, htst⟩ | ⟨htts, hts0⟩
        · exfalso
          rcases hC1 with hC1a | hC1b
          · rcases FF.fmin_cases (bbox.intersect ray).2 rec with hm | hm
            · rw [hm] at hC1a
              have h2 := FF.lt_of_le_of_lt (hbridge t hin).2 hC1a
              have h3 := (FF.lt_fin_iff _ _).mp h2
              linarith
            · rw [hm] at hC1a
              have h2 := FF.lt_of_lt_of_le hlt (FF.le_of_lt hC1a)
              have h3 := (FF.lt_fin_iff _ _).mp h2
              linarith
          · have h3 := (FF.le_fin_iff _ _).mp hC1b
            linarith
        · have hF := hcorner t hin hS htts hts0 hat
          exact F3 i (hprimF i hi t ht hF) t ht hat hlt hF
  · rw [if_neg hC1]
    push_neg at hC1
    obtain ⟨hC1a, hC1b⟩ := hC1
    have hts_pos : 0 < ts := by
      have h := Bool.eq_false_iff.mpr hC1b
      simp only [FF.le, decide_eq_false_iff_not] at h
      exact not_le.mp h
    by_cases hC2 : FF.lt (FF.fin ts)
        (FF.fmax (bbox.intersect ray).1 (FF.fin a)) = true
    · rw [if_pos hC2]
      obtain ⟨S1, S2, S3⟩ := IHS a ha rec hw
      refine ⟨S1, ?_, ?_⟩
      · intro hb
        obtain ⟨i, hi, t, ht, hat, hlt, he⟩ := S2 hb
        exact ⟨i, hSsub hi, t, ht, hat, hlt, he⟩
      · intro i hi t ht hat hlt hin
        rcases hcover t hin with hF | hS
        · exfalso
          have hn := (hnear t hF).1 hts_pos
          rcases FF.fmax_cases (bbox.intersect ray).1 (FF.fin a) with hm | hm
          · rw [hm] at hC2
            have h2 := FF.lt_of_lt_of_le hC2 (hbridge t hin).1
            have h3 := (FF.lt_fin_iff _ _).mp h2
            linarith
          · rw [hm] at hC2
            have h3 := (FF.lt_fin_iff _ _).mp hC2
            linarith
        · exact S3 i (hprimS i hi t ht hS) t ht hat hlt hS
    · rw [if_neg hC2]
      have hfmaxnan : FF.fmax (bbox.intersect ray).1 (FF.fin a) ≠ FF.nan :=
        FF.fmax_ne_nan hbinan (by simp)
      have hC2b : FF.le (FF.fmax (bbox.intersect ray).1 (FF.fin a))
          (FF.fin ts) = true :=
        (FF.not_lt_iff (by simp) hfmaxnan).mp (Bool.eq_false_iff.mpr hC2)
      have hats : a ≤ ts := (FF.le_fin_iff _ _).mp
        (FF.le_trans (FF.right_le_fmax hbinan (by simp)) hC2b)
      have hwF : (intersect_subtree objects F bF ray (FF.fin a) rec).2 =
          FF.pinf ∨
          ∃ w, (intersect_subtree objects F bF ray (FF.fin a) rec).2 =
            FF.fin w := by
        rcases Bool.eq_false_or_eq_true
            ((intersect_subtree objects F bF ray (FF.fin a) rec).1) with
          hb | hb
        · obtain ⟨i, hi, t, ht, hat, hlt, he⟩ := F2 hb
          exact Or.inr ⟨t, he⟩
        · rw [F1 hb]
          exact hw
      have hFnan : (intersect_subtree objects F bF ray (FF.fin a) rec).2 ≠
          FF.nan := by
        rcases hwF with h | ⟨w, h⟩ <;> simp [h]
      have hFle : FF.le (intersect_subtree objects F bF ray (FF.fin a) rec).2
          rec = true := by
        rcases Bool.eq_false_or_eq_true
            ((intersect_subtree objects F bF ray (FF.fin a) rec).1) with
          hb | hb
        · obtain ⟨i, hi, t, ht, hat, hlt, he⟩ := F2 hb
          rw [he]
          exact FF.le_of_lt hlt
        · rw [F1 hb]
          exact FF.le_refl_ok hreclnan
      by_cases hE : (intersect_subtree objects F bF ray (FF.fin a) rec).1 =
            true ∧
          FF.lt (intersect_subtree objects F bF ray (FF.fin a) rec).2
            (FF.fin ts) = true
      · rw [if_pos hE]
        obtain ⟨hb1, hltts⟩ := hE
        obtain ⟨i, hi, t0, ht0, hat0, hlt0, he0⟩ := F2 hb1
        refine ⟨fun h => Bool.noConfusion h, ?_, ?_⟩
        · intro _
          exact ⟨i, hFsub hi, t0, ht0, hat0, hlt0, he0⟩
        · intro i2 hi2 t ht hat hlt hin
          show FF.le (intersect_subtree objects F bF ray (FF.fin a) rec).2
            (FF.fin t) = true
          rcases hcover t hin with hF | hS
          · exact F3 i2 (hprimF i2 hi2 t ht hF) t ht hat hlt hF
          · rcases hfar t hS with ⟨_, htst⟩ | ⟨htts, hts0⟩
            · exact FF.le_of_lt (FF.lt_of_lt_of_le hltts
                ((FF.le_fin_iff _ _).mpr htst))
            · exact absurd hts_pos (by linarith)
      · rw [if_neg hE]
        obtain ⟨S1, S2, S3⟩ := IHS ts (le_of_lt hts_pos)
          (intersect_subtree objects F bF ray (FF.fin a) rec).2 hwF
        have hSmono : FF.le (intersect_subtree objects S bS ray (FF.fin ts)
            (intersect_subtree objects F bF ray (FF.fin a) rec).2).2
            (intersect_subtree objects F bF ray (FF.fin a) rec).2 = true := by
          rcases Bool.eq_false_or_eq_true
              ((intersect_subtree objects S bS ray (FF.fin ts)
                (intersect_subtree objects F bF ray (FF.fin a) rec).2).1) with
            hb | hb
          · obtain ⟨_, _, t2, _, _, hlt2, he2⟩ := S2 hb
            rw [he2]
            exact FF.le_of_lt hlt2
          · rw [S1 hb]
            exact FF.le_refl_ok hFnan
        refine ⟨?_, ?_, ?_⟩
        · intro hb
          obtain ⟨h1, h2⟩ := Bool.or_eq_false_iff.mp hb
          show (intersect_subtree objects S bS ray (FF.fin ts)
            (intersect_subtree objects F bF ray (FF.fin a) rec).2).2 = rec
          rw [S1 h2, F1 h1]
        · intro hb
          rcases Bool.eq_false_or_eq_true
              ((intersect_subtree objects S bS ray (FF.fin ts)
                (intersect_subtree objects F bF ray (FF.fin a) rec).2).1) with
            hbS | hbS
          · obtain ⟨i, hi, t2, ht2, htst2, hlt2, he2⟩ := S2 hbS
            refine ⟨i, hSsub hi, t2, ht2, le_trans hats htst2,
              FF.lt_of_lt_of_le hlt2 hFle, he2⟩
          · have hbF : (intersect_subtree objects F bF ray (FF.fin a) rec).1 =
                true := by
              rcases Bool.or_eq_true_iff.mp hb with h | h
              · exact h
              · exact absurd h (by rw [hbS]; simp)
            obtain ⟨i, hi, t0, ht0, hat0, hlt0, he0⟩ := F2 hbF
            refine ⟨i, hFsub hi, t0, ht0, hat0, hlt0, ?_⟩
            show (intersect_subtree objects S bS ray (FF.fin ts)
              (intersect_subtree objects F bF ray (FF.fin a) rec).2).2 =
              FF.fin t0
            rw [S1 hbS, he0]
        · intro i hi t ht hat hlt hin
          show FF.le (intersect_subtree objects S bS ray (FF.fin ts)
            (intersect_subtree objects F bF ray (FF.fin a) rec).2).2
            (FF.fin t) = true
          rcases hcover t hin with hF | hS
          · exact FF.le_trans hSmono
              (F3 i (hprimF i hi t ht hF) t ht hat hlt hF)
          · rcases hfar t hS with ⟨_, htst⟩ | ⟨_, hts0⟩
            · by_cases hlt2 : FF.lt (FF.fin t)
                  (intersect_subtree objects F bF ray (FF.fin a) rec).2 = true
              · exact S3 i (hprimS i hi t ht hS) t ht htst hlt2 hS
              · exact FF.le_trans hSmono
                  ((FF.not_lt_iff (by simp) hFnan).mp
                    (Bool.eq_false_iff.mpr hlt2))
            · exact absurd hts_pos (by linarith)

theorem subtree_invariant (objects : List (PrimB α)) (ray : Ray α)
    (hdir : ∀ d : Fin 3, ray.dir.nth d ≠ 0)
    (hbounded : ∀ i : ℕ, ∀ t ∈ (objects.getD i defaultPrimB).hits ray,
      inBox (objects.getD i defaultPrimB).bbox (ray.at t))
    {node : KdNode α} {is : List ℕ} (hok : NodeOK objects node is) :
    ∀ bbox : BoundingBox α, boxOk bbox → ∀ a : α, 0 ≤ a →
    ∀ rec : FF α, (rec = FF.pinf ∨ ∃ w, rec = FF.fin w) →
    KdInv objects ray (intersect_subtree objects node bbox ray (FF.fin a) rec)
      is bbox a rec := by
  induction hok with
  | leaf is =>
      intro bbox hbox a ha rec hw
      simp only [intersect_subtree]
      obtain ⟨hP1, hP2, hP3⟩ := primsFold_spec ray (FF.fin a)
        (primsOf objects is) rec hw
      refine ⟨hP1, ?_, ?_⟩
      · intro hb
        obtain ⟨p, hp, t, ht, htm, hlt, he⟩ := hP2 hb
        obtain ⟨i, hi, hip⟩ := List.mem_map.mp hp
        refine ⟨i, hi, t, by rw [hip]; exact ht,
          (FF.le_fin_iff _ _).mp htm, hlt, he⟩
      · intro i hi t ht hat hlt _
        exact hP3 (objects.getD i defaultPrimB)
          (List.mem_map_of_mem _ hi) t ht ((FF.le_fin_iff _ _).mpr hat) hlt
  | split k v l r ls rs is hl hr hls hrs hokl hokr ihl ihr =>
      intro bbox hbox a ha rec hw
      have hdk := hdir k
      have hbsplit := boxOk_split bbox hbox k v
      simp only [intersect_subtree]
      rw [FF.div_fin_fin _ _ hdk]
      by_cases hlf : ray.origin.nth k < v ∨
          (ray.origin.nth k = v ∧ ray.dir.nth k ≤ 0)
      · simp only [if_pos hlf]
        exact split_core objects ray l r ls rs is bbox
          (bbox.split k v).1 (bbox.split k v).2 hls hrs
          ((v - ray.origin.nth k) / ray.dir.nth k) a ha rec hw
          (intersect_ne_nan bbox ray hdir hbox).1
          (intersect_ne_nan bbox ray hdir hbox).2
          (fun t hin => box_bridge bbox ray t hdir hin)
          (fun t hin => by
            rcases le_total ((ray.at t).nth k) v with h | h
            · exact Or.inl (inBox_split_left bbox k v _ hin h)
            · exact Or.inr (inBox_split_right bbox k v _ hin h))
          (fun t hS => far_time _ _ _ _ hdk hlf (by
            have h := inBox_split_right_nth bbox k v _ hS
            rw [rayAt_nth] at h
            exact h))
          (fun t hF => near_time _ _ _ _ hdk hlf (by
            have h := inBox_split_left_nth bbox k v _ hF
            rw [rayAt_nth] at h
            exact h))
          (fun t hin hS htts hts0 hat => by
            obtain ⟨ht0, hvo⟩ := corner_case (ray.origin.nth k)
              (ray.dir.nth k) v t a hdk hts0 htts ha hat
            refine inBox_split_left bbox k v _ hin ?_
            rw [rayAt_nth, ht0, hvo]
            simp)
          (fun i hi t ht hF => hl i hi (by
            have h1 := (hbounded i t ht k).1
            rw [PrimB.bbox_min_nth] at h1
            exact le_trans ((FF.le_fin_iff _ _).mp h1)
              (inBox_split_left_nth bbox k v _ hF)))
          (fun i hi t ht hS => hr i hi (by
            have h1 := (hbounded i t ht k).2
            rw [PrimB.bbox_max_nth] at h1
            exact le_trans (inBox_split_right_nth bbox k v _ hS)
              ((FF.le_fin_iff _ _).mp h1)))
          (fun a2 ha2 r2 hw2 => ihl (bbox.split k v).1 hbsplit.1 a2 ha2 r2 hw2)
          (fun a2 ha2 r2 hw2 => ihr (bbox.split k v).2 hbsplit.2 a2 ha2 r2 hw2)
      · simp only [if_neg hlf]
        exact split_core objects ray r l rs ls is bbox
          (bbox.split k v).2 (bbox.split k v).1 hrs hls
          ((v - ray.origin.nth k) / ray.dir.nth k) a ha rec hw
          (intersect_ne_nan bbox ray hdir hbox).1
          (intersect_ne_nan bbox ray hdir hbox).2
          (fun t hin => box_bridge bbox ray t hdir hin)
          (fun t hin => by
            rcases le_total v ((ray.at t).nth k) with h | h
            · exact Or.inl (inBox_split_right bbox k v _ hin h)
            · exact Or.inr (inBox_split_left bbox k v _ hin h))
          (fun t hS => far_time_r _ _ _ _ hdk hlf (by
            have h := inBox_split_left_nth bbox k v _ hS
            rw [rayAt_nth] at h
            exact h))
          (fun t hF => near_time_r _ _ _ _ hdk hlf (by
            have h := inBox_split_right_nth bbox k v _ hF
            rw [rayAt_nth] at h
            exact h))
          (fun t hin hS htts hts0 hat => by
            obtain ⟨ht0, hvo⟩ := corner_case (ray.origin.nth k)
              (ray.dir.nth k) v t a hdk hts0 htts ha hat
            refine inBox_split_right bbox k v _ hin ?_
            rw [rayAt_nth, ht0, hvo]
            simp)
          (fun i hi t ht hF => hr i hi (by
            have h1 := (hbounded i t ht k).2
            rw [PrimB.bbox_max_nth] at h1
            exact le_trans (inBox_split_right_nth bbox k v _ hF)
              ((FF.le_fin_iff _ _).mp h1)))
          (fun i hi t ht hS => hl i hi (by
            have h1 := (hbounded i t ht k).1
            rw [PrimB.bbox_min_nth] at h1
            exact le_trans ((FF.le_fin_iff _ _).mp h1)
              (inBox_split_left_nth bbox k v _ hS)))
          (fun a2 ha2 r2 hw2 => ihr (bbox.split k v).2 hbsplit.2 a2 ha2 r2 hw2)
          (fun a2 ha2 r2 hw2 => ihl (bbox.split k v).1 hbsplit.1 a2 ha2 r2 hw2)

theorem FF.lt_irrefl_ok (x : FF α) : FF.lt x x = false := by
  cases x <;> simp [FF.lt]

theorem primB_bbox_ok (p : PrimB α) : boxOk (PrimB.bbox p) := by
  intro d
  rw [PrimB.bbox_min_nth, PrimB.bbox_max_nth]
  simp

theorem default_boxOk : boxOk (BoundingBox.default : BoundingBox α) := by
  intro d
  fin_cases d <;> simp [BoundingBox.default, V3.nth]

theorem merge_min_nth (a b : BoundingBox α) (d : Fin 3) :
    (a.merge b).p_min.nth d = FF.fmin (a.p_min.nth d) (b.p_min.nth d) := by
  fin_cases d <;> rfl

theorem merge_max_nth (a b : BoundingBox α) (d : Fin 3) :
    (a.merge b).p_max.nth d = FF.fmax (a.p_max.nth d) (b.p_max.nth d) := by
  fin_cases d <;> rfl

theorem merge_boxOk (a b : BoundingBox α) (ha : boxOk a) (hb : boxOk b) :
    boxOk (a.merge b) := by
  intro d
  rw [merge_min_nth, merge_max_nth]
  exact ⟨FF.fmin_ne_nan (ha d).1 (hb d).1, FF.fmax_ne_nan (ha d).2 (hb d).2⟩

theorem bounds_boxOk_fold (l : List (PrimB α)) (acc : BoundingBox α)
    (hacc : boxOk acc) :
    boxOk (l.foldl (fun b p => b.merge p.bbox) acc) := by
  induction l generalizing acc with
  | nil => exact hacc
  | cons q l ih =>
      exact ih _ (merge_boxOk _ _ hacc (primB_bbox_ok q))

theorem inBox_merge_left (a b : BoundingBox α) (ha : boxOk a) (hb : boxOk b)
    (pos : V3 α) (hin : inBox a pos) : inBox (a.merge b) pos := by
  intro d
  rw [merge_min_nth, merge_max_nth]
  exact ⟨FF.le_trans (FF.fmin_le_left (ha d).1 (hb d).1) (hin d).1,
    FF.le_trans (hin d).2 (FF.left_le_fmax (ha d).2 (hb d).2)⟩

theorem inBox_merge_right (a b : BoundingBox α) (ha : boxOk a) (hb : boxOk b)
    (pos : V3 α) (hin : inBox b pos) : inBox (a.merge b) pos := by
  intro d
  rw [merge_min_nth, merge_max_nth]
  exact ⟨FF.le_trans (FF.fmin_le_right (ha d).1 (hb d).1) (hin d).1,
    FF.le_trans (hin d).2 (FF.right_le_fmax (ha d).2 (hb d).2)⟩

theorem inBox_fold_grow (l : List (PrimB α)) (acc : BoundingBox α)
    (hacc : boxOk acc) (pos : V3 α) (hin : inBox acc pos) :
    inBox (l.foldl (fun b p => b.merge p.bbox) acc) pos := by
  induction l generalizing acc with
  | nil => exact hin
  | cons q l ih =>
      exact ih _ (merge_boxOk _ _ hacc (primB_bbox_ok q))
        (inBox_merge_left _ _ hacc (primB_bbox_ok q) pos hin)

theorem inBox_bounds (objects : List (PrimB α)) (p : PrimB α)
    (hp : p ∈ objects) (pos : V3 α) (hin : inBox (PrimB.bbox p) pos) :
    inBox (objects.foldl (fun b p => b.merge p.bbox) BoundingBox.default) pos := by
  have H : ∀ (l : List (PrimB α)) (acc : BoundingBox α), boxOk acc →
      p ∈ l → inBox (l.foldl (fun b p => b.merge p.bbox) acc) pos := by
    intro l
    induction l with
    | nil => intro acc _ hmem; exact absurd hmem (List.not_mem_nil p)
    | cons q l ih =>
        intro acc hacc hmem
        rcases List.mem_cons.mp hmem with rfl | hmem2
        · exact inBox_fold_grow l _ (merge_boxOk _ _ hacc (primB_bbox_ok p))
            pos (inBox_merge_right _ _ hacc (primB_bbox_ok p) pos hin)
        · exact ih _ (merge_boxOk _ _ hacc (primB_bbox_ok q)) hmem2
  exact H objects BoundingBox.default default_boxOk hp

theorem kd_getD_mem (objects : List (PrimB α)) (i : ℕ)
    (h : i < objects.length) : objects.getD i defaultPrimB ∈ objects := by
  rw [List.getD_eq_getElem objects defaultPrimB h]
  exact List.getElem_mem h

/-- C1 (amended): for a ray whose three direction components are nonzero,
a non-negative `t_min`, a fresh or finite record, and bounded primitives
(each hit position inside the primitive's own bounding box), intersecting
the kd-tree built from the list returns exactly the brute-force result:
the same boolean and the same record. -/
theorem c1_kdtree_equiv_brute (objects : List (PrimB α)) (ray : Ray α)
    (t_min : α) (rec : FF α)
    (hdir : ∀ d : Fin 3, ray.dir.nth d ≠ 0)
    (htm : 0 ≤ t_min)
    (hw : rec = FF.pinf ∨ ∃ w, rec = FF.fin w)
    (hbounded : ∀ p ∈ objects, ∀ t ∈ p.hits ray,
      inBox (PrimB.bbox p) (ray.at t)) :
    KdTree.intersect (KdTree.new objects) ray t_min rec =
      bruteIntersect objects ray t_min rec := by
  rw [show bruteIntersect objects ray t_min rec =
    primsFold objects ray (FF.fin t_min) rec from rfl]
  have hrecnan : rec ≠ FF.nan := by
    rcases hw with h | ⟨w, h⟩ <;> simp [h]
  obtain ⟨hP1, hP2, hP3⟩ := primsFold_spec ray (FF.fin t_min) objects rec hw
  have hbounded2 : ∀ i : ℕ, ∀ t ∈ (objects.getD i defaultPrimB).hits ray,
      inBox (objects.getD i defaultPrimB).bbox (ray.at t) := by
    intro i t ht
    rcases lt_or_le i objects.length with h | h
    · exact hbounded _ (kd_getD_mem objects i h) t ht
    · rw [List.getD_eq_default objects defaultPrimB h] at ht
      exact absurd ht (List.not_mem_nil t)
  have hboxB : boxOk (objects.foldl (fun b p => b.merge p.bbox)
      BoundingBox.default) :=
    bounds_boxOk_fold objects BoundingBox.default default_boxOk
  -- no in-window hit can survive the root box pre-check
  have hhit_in_bounds : ∀ p ∈ objects, ∀ t ∈ p.hits ray,
      t_min ≤ t → FF.lt (FF.fin t) rec = true →
      FF.le (FF.fmax ((objects.foldl (fun b p => b.merge p.bbox)
          BoundingBox.default).intersect ray).1 (FF.fin t_min))
        (FF.fin t) = true ∧
      FF.le (FF.fin t) (FF.fmin ((objects.foldl (fun b p => b.merge p.bbox)
          BoundingBox.default).intersect ray).2 rec) = true := by
    intro p hp t ht hat hlt
    have hinB : inBox (objects.foldl (fun b p => b.merge p.bbox)
        BoundingBox.default) (ray.at t) :=
      inBox_bounds objects p hp (ray.at t) (hbounded p hp t ht)
    obtain ⟨hb1, hb2⟩ := box_bridge _ ray t hdir hinB
    have hnan := intersect_ne_nan (objects.foldl (fun b p => b.merge p.bbox)
        BoundingBox.default) ray hdir hboxB
    exact ⟨FF.fmax_le hb1 ((FF.le_fin_iff _ _).mpr hat),
      FF.le_fmin hb2 (FF.le_of_lt hlt)⟩
  simp only [KdTree.intersect, KdTree.new]
  split
  · -- pre-check pruned: show the brute force also reports nothing
    rename_i hcut
    rcases Bool.eq_false_or_eq_true (primsFold objects ray (FF.fin t_min) rec).1 with
      hb | hb
    · obtain ⟨p, hp, t, ht, hatm, hlt, he⟩ := hP2 hb
      exfalso
      obtain ⟨h1, h2⟩ := hhit_in_bounds p hp t ht ((FF.le_fin_iff _ _).mp hatm) hlt
      have := FF.lt_of_le_of_lt (FF.le_trans h1 h2) hcut
      rw [FF.lt_irrefl_ok] at this
      exact Bool.noConfusion this
    · have := hP1 hb
      refine Prod.ext ?_ ?_
      · rw [hb]
      · rw [this]
  · rename_i hcut
    obtain ⟨hK1, hK2, hK3⟩ := subtree_invariant objects ray hdir hbounded2
      (construct_ok objects (List.range objects.length))
      (objects.foldl (fun b p => b.merge p.bbox) BoundingBox.default)
      hboxB t_min htm rec hw
    rcases Bool.eq_false_or_eq_true (primsFold objects ray (FF.fin t_min) rec).1 with
      hb | hb
    · -- brute found something: kd must have, and the records agree
      obtain ⟨p, hp, tb, htb, hatb, hltb, heb⟩ := hP2 hb
      obtain ⟨i, hilen, hieq⟩ := List.mem_iff_getElem.mp hp
      have higetD : objects.getD i defaultPrimB = p := by
        rw [List.getD_eq_getElem objects defaultPrimB hilen, hieq]
      have hirange : i ∈ List.range objects.length := List.mem_range.mpr hilen
      have hkle : FF.le (intersect_subtree objects
          (construct objects (List.range objects.length))
          (objects.foldl (fun b p => b.merge p.bbox) BoundingBox.default)
          ray (FF.fin t_min) rec).2 (FF.fin tb) = true := by
        refine hK3 i hirange tb (by rw [higetD]; exact htb)
          ((FF.le_fin_iff _ _).mp hatb) hltb ?_
        exact inBox_bounds objects p hp (ray.at tb) (hbounded p hp tb htb)
      have hkb : (intersect_subtree objects
          (construct objects (List.range objects.length))
          (objects.foldl (fun b p => b.merge p.bbox) BoundingBox.default)
          ray (FF.fin t_min) rec).1 = true := by
        rcases Bool.eq_false_or_eq_true ((intersect_subtree objects
            (construct objects (List.range objects.length))
            (objects.foldl (fun b p => b.merge p.bbox) BoundingBox.default)
            ray (FF.fin t_min) rec).1) with hkb | hkb
        · exact hkb
        · exfalso
          rw [hK1 hkb] at hkle
          have := FF.lt_of_le_of_lt hkle hltb
          rw [FF.lt_irrefl_ok] at this
          exact Bool.noConfusion this
      obtain ⟨j, hj, tk, htk, hatk, hltk, hek⟩ := hK2 hkb
      have hjlen : j < objects.length := List.mem_range.mp hj
      have hble : FF.le (primsFold objects ray (FF.fin t_min) rec).2
          (FF.fin tk) = true :=
        hP3 (objects.getD j defaultPrimB) (kd_getD_mem objects j hjlen) tk htk
          ((FF.le_fin_iff _ _).mpr hatk) hltk
      refine Prod.ext ?_ ?_
      · rw [hb, hkb]
      · rw [hek, heb]
        rw [hek] at hkle
        rw [heb] at hble
        have h1 := (FF.le_fin_iff _ _).mp hkle
        have h2 := (FF.le_fin_iff _ _).mp hble
        rw [le_antisymm h1 h2]
    · -- brute found nothing: neither does the kd-tree
      have hbe := hP1 hb
      have hkb : (intersect_subtree objects
          (construct objects (List.range objects.length))
          (objects.foldl (fun b p => b.merge p.bbox) BoundingBox.default)
          ray (FF.fin t_min) rec).1 = false := by
        rcases Bool.eq_false_or_eq_true ((intersect_subtree objects
            (construct objects (List.range objects.length))
            (objects.foldl (fun b p => b.merge p.bbox) BoundingBox.default)
            ray (FF.fin t_min) rec).1) with hkb | hkb
        · exfalso
          obtain ⟨j, hj, tk, htk, hatk, hltk, hek⟩ := hK2 hkb
          have hjlen : j < objects.length := List.mem_range.mp hj
          have := hP3 (objects.getD j defaultPrimB) (kd_getD_mem objects j hjlen)
            tk htk ((FF.le_fin_iff _ _).mpr hatk) hltk
          rw [hbe] at this
          have h2 := FF.lt_of_le_of_lt this hltk
          rw [FF.lt_irrefl_ok] at h2
          exact Bool.noConfusion h2
        · exact hkb
      refine Prod.ext ?_ ?_
      · rw [hb, hkb]
      · rw [hbe, hK1 hkb]
end KdThms

theorem c1_bounds_eval :
    (List.foldl (fun (b : BoundingBox ℚ) p => b.merge p.bbox)
      BoundingBox.default c1Objs) =
      ⟨⟨FF.fin 0, FF.fin 0, FF.fin 0⟩, ⟨FF.fin 1, FF.fin 1, FF.fin 1⟩⟩ := by
  norm_num [c1Objs, c1P1, c1P2, BoundingBox.default, BoundingBox.merge,
    PrimB.bbox, FF.fmin, FF.fmax, FF.lt, List.foldl]

theorem c1_bi_eval :
    BoundingBox.intersect
      (⟨⟨FF.fin 0, FF.fin 0, FF.fin 0⟩, ⟨FF.fin 1, FF.fin 1, FF.fin 1⟩⟩ :
        BoundingBox ℚ) c1Ray = (FF.pinf, FF.fin 2) := by
  norm_num [BoundingBox.intersect, BoundingBox.slab, c1Ray, V3.nth,
    FF.div, FF.sub, FF.add, FF.neg, FF.fmin, FF.fmax, FF.lt]

theorem c1_kd_eval :
    KdTree.intersect (KdTree.new c1Objs) c1Ray 0 FF.pinf = (false, FF.pinf) := by
  simp only [KdTree.intersect, KdTree.new]
  rw [c1_bounds_eval, c1_bi_eval]
  norm_num [FF.fmin, FF.fmax, FF.lt]

theorem c1_brute_eval :
    bruteIntersect c1Objs c1Ray 0 FF.pinf = (true, FF.fin 1) := by
  show primsFold [c1P1, c1P2] c1Ray (FF.fin 0) FF.pinf = (true, FF.fin 1)
  simp only [primsFold, List.foldl_cons, List.foldl_nil]
  have h1 : primIntersect c1P1 c1Ray (FF.fin 0) FF.pinf = (true, FF.fin 1) := by
    unfold primIntersect primBest
    simp only [c1P1, List.foldl_cons, List.foldl_nil]
    rw [if_pos ⟨by norm_num [FF.le], by simp [FF.lt], fun b hb => nomatch hb⟩]
  have h2 : primIntersect c1P2 c1Ray (FF.fin 0) (FF.fin 1) = (false, FF.fin 1) := by
    unfold primIntersect primBest
    simp only [c1P2, List.foldl_nil]
  rw [h1]
  simp only []
  rw [h2]
  simp

/-- C1 (counterexample): two bounded primitives and the grazing ray
`origin (0,0,2), dir (0,0,-1)`: the slab method divides by the zero `x`
and `y` direction components, the `0/0 = NaN` and `f64::min/max`
NaN-handling make the root interval `(+∞, 2)`, the pre-check rejects, and
`KdTree::intersect` reports no hit — while the brute-force scan finds the
genuine hit at `t = 1`. -/
theorem c1_counterexample :
    (∀ p ∈ c1Objs, ∀ t ∈ p.hits c1Ray, inBox (PrimB.bbox p) (c1Ray.at t)) ∧
    KdTree.intersect (KdTree.new c1Objs) c1Ray 0 FF.pinf = (false, FF.pinf) ∧
    bruteIntersect c1Objs c1Ray 0 FF.pinf = (true, FF.fin 1) ∧
    KdTree.intersect (KdTree.new c1Objs) c1Ray 0 FF.pinf ≠
      bruteIntersect c1Objs c1Ray 0 FF.pinf := by
  refine ⟨?_, c1_kd_eval, c1_brute_eval, ?_⟩
  · intro p hp t ht
    rcases List.mem_cons.mp hp with rfl | hp2
    · have ht1 : t = 1 := by
        simpa [c1P1] using ht
      subst ht1
      intro d
      fin_cases d <;>
        norm_num [c1P1, c1Ray, PrimB.bbox, Ray.at, V3.nth, V3.add_def,
          V3.smul, FF.le, inBox]
    · rcases List.mem_cons.mp hp2 with rfl | hp3
      · simp [c1P2] at ht
      · exact absurd hp3 (List.not_mem_nil p)
  · rw [c1_kd_eval, c1_brute_eval]
    simp

theorem c1_kdtree_equiv_brute_witness :
    (∀ d : Fin 3, c1WRay.dir.nth d ≠ 0) ∧
    (0 : ℚ) ≤ 0 ∧
    ((FF.pinf : FF ℚ) = FF.pinf ∨ ∃ w, (FF.pinf : FF ℚ) = FF.fin w) ∧
    (∀ p ∈ [c1W], ∀ t ∈ p.hits c1WRay, inBox (PrimB.bbox p) (c1WRay.at t)) ∧
    KdTree.intersect (KdTree.new [c1W]) c1WRay 0 FF.pinf =
      bruteIntersect [c1W] c1WRay 0 FF.pinf := by
  have hdir : ∀ d : Fin 3, c1WRay.dir.nth d ≠ 0 := by
    intro d
    fin_cases d <;> norm_num [c1WRay, V3.nth]
  have hbounded : ∀ p ∈ [c1W], ∀ t ∈ p.hits c1WRay,
      inBox (PrimB.bbox p) (c1WRay.at t) := by
    intro p hp t ht
    rcases List.mem_cons.mp hp with rfl | hp2
    · have ht1 : t = 1 := by
        simpa [c1W] using ht
      subst ht1
      intro d
      fin_cases d <;>
        norm_num [c1W, c1WRay, PrimB.bbox, Ray.at, V3.nth, V3.add_def,
          V3.smul, FF.le, inBox]
    · exact absurd hp2 (List.not_mem_nil p)
  exact ⟨hdir, le_refl 0, Or.inl rfl, hbounded,
    c1_kdtree_equiv_brute [c1W] c1WRay 0 FF.pinf hdir (le_refl 0)
      (Or.inl rfl) hbounded⟩

theorem hexChannel_le (x s : ℕ) : hexChannel x s ≤ 255 :=
  Nat.and_le_right

theorem c7_channel (b : ℕ) (hb : b ≤ 255) :
    color_byte (((b : ℝ) / 255) ^ SRGB_GAMMA) = b := by
  have h0 : (0 : ℝ) ≤ (b : ℝ) / 255 := by positivity
  have h1 : (b : ℝ) / 255 ≤ 1 := by
    rw [div_le_one (by norm_num)]
    exact_mod_cast hb
  have hc0 : (0 : ℝ) ≤ ((b : ℝ) / 255) ^ SRGB_GAMMA :=
    Real.rpow_nonneg h0 _
  have hc1 : ((b : ℝ) / 255) ^ SRGB_GAMMA ≤ 1 :=
    Real.rpow_le_one h0 h1 (by norm_num [SRGB_GAMMA])
  unfold color_byte u8cast
  rw [max_eq_left hc0, min_eq_left hc1, ← Real.rpow_mul h0]
  rw [show SRGB_GAMMA * (1 / SRGB_GAMMA) = 1 by
    rw [mul_one_div, div_self (by norm_num [SRGB_GAMMA])]]
  rw [Real.rpow_one, div_mul_cancel₀ _ (by norm_num : (255 : ℝ) ≠ 0),
    Nat.floor_natCast]
  exact min_eq_left hb

/-- C7: decoding a 24-bit sRGB value with `hex_color` and re-encoding it
with `color_bytes` reproduces each of the three byte channels exactly (so
in particular within 1 least significant bit): the clamp is the identity
on the decoded values and `(x^γ)^(1/γ) = x`. -/
theorem c7_color_roundtrip (v : ℕ) :
    color_bytes (hex_color v) =
      (hexChannel v 16, hexChannel v 8, hexChannel v 0) := by
  unfold color_bytes hex_color
  rw [c7_channel _ (hexChannel_le v 16), c7_channel _ (hexChannel_le v 8),
    c7_channel _ (hexChannel_le v 0)]

/-- C8: the unit cube intersected with the axis-parallel ray from
`(0,0,10)` along `(0,0,-1)` with `t_min = 0` and a fresh record reports a
hit at time `9.5` with outward normal `(0,0,1)` — the `x` and `y` slabs
divide by zero and produce the infinite interval `(-∞, +∞)`, which the
`f64` comparisons handle as the spec describes. -/
theorem c8_cube_axis_ray :
    cube_intersect (⟨⟨0, 0, 10⟩, ⟨0, 0, -1⟩⟩ : Ray ℚ) 0 HitRec.new =
      (true, ⟨FF.fin (19 / 2), ⟨0, 0, 1⟩⟩) := by
  norm_num [cube_intersect, cubeInterval, V3.nth, V3.setNth, V3.zero,
    FF.div, FF.lt, HitRec.new]
